import Mathlib

/-!
# Dependency scanning worker and full-dependency aggregation

A shallow embedding of
`clang/include/clang/Tooling/DependencyScanning/DependencyScanningTool.h` and
`clang/lib/Tooling/DependencyScanning/DependencyScanningWorker.cpp`.

`std::string` is `String`, `std::vector` is `List`, the virtual
`DependencyConsumer` interface is the type `ConsumerCall` of the calls it can
receive, and a consumer is a state with a `handle` function over those calls.
-/

namespace clang.tooling.dependencies

/-! ## Data model -/

/-- Identity of a module build: `ModuleID` of ModuleDepCollector.h, the
two fields that `handleModuleDependency` reads. -/
structure ModuleID where
  ContextHash : String
  ModuleName : String
deriving DecidableEq, Repr

/-- Modelled from the spec: `PrebuiltModuleDep` (ModuleDepCollector.h is not
under src/), a name and the on-disk path of an already built module. -/
structure PrebuiltModuleDep where
  ModuleName : String
  PCMFile : String
deriving DecidableEq, Repr

/-- The `Command` of DependencyScanningWorker.h: `{Executable, Arguments}`,
as built by the job callback of `computeDependencies`. -/
structure Command where
  Executable : String
  Arguments : List String
deriving DecidableEq, Repr

/-- Modelled from the spec: `ModuleDeps` (ModuleDepCollector.h is not under
src/): the module identity, its direct file dependencies, the modules it
imports, its prebuilt module dependencies, the arguments of the command that
builds it, and whether the scanned target imports it directly. -/
structure ModuleDeps where
  ID : ModuleID
  FileDeps : List String
  ClangModuleDeps : List ModuleID
  PrebuiltModuleDeps : List PrebuiltModuleDep
  BuildArguments : List String
  ImportedByMainFile : Bool
deriving DecidableEq, Repr

/-- The `llvm::cas::CASID` handed to `handleCASFileSystemRootID`, an opaque
digest. -/
abbrev CASID := String

/-- The calls of the `DependencyConsumer` interface that
`FullDependencyConsumer` overrides with an effect on its state, and
`finalize`. -/
inductive ConsumerCall where
  | handleBuildCommand (Cmd : Command)
  | handleDependencyOutputOpts
  | handleFileDependency (File : String)
  | handlePrebuiltModuleDependency (PMD : PrebuiltModuleDep)
  | handleModuleDependency (MD : ModuleDeps)
  | handleContextHash (Hash : String)
  | handleCASFileSystemRootID (ID : CASID)
  | finalize
deriving DecidableEq, Repr

/-! ## `llvm::MapVector` -/

/-- Modelled from the spec: `llvm::MapVector<std::string, ModuleDeps>`
(llvm/ADT/MapVector.h is not under src/), an insertion-ordered map: the
vector of its `(key, value)` pairs in insertion order. -/
abbrev MapVector (V : Type) := List (String × V)

/-- Modelled from the spec: the assignment `M[Key] = Value` on a
`llvm::MapVector` (llvm/ADT/MapVector.h is not under src/): the entry of
`Key` is overwritten where it stands, and a key that is not in the map is
appended at the end. -/
def MapVector.assign {V : Type} : MapVector V → String → V → MapVector V
  | [], Key, Value => [(Key, Value)]
  | (K, V0) :: Rest, Key, Value =>
    if K = Key then (K, Value) :: Rest
    else (K, V0) :: MapVector.assign Rest Key Value

/-- The keys of a map, in insertion order. -/
def MapVector.keys {V : Type} (M : MapVector V) : List String :=
  M.map Prod.fst

/-- The value stored under a key (`find`). -/
def MapVector.lookup {V : Type} : MapVector V → String → Option V
  | [], _ => none
  | (K, V0) :: Rest, Key => if K = Key then some V0 else MapVector.lookup Rest Key

/-! ## `FullDependencyConsumer` -/

/-- The state of a `FullDependencyConsumer` (DependencyScanningTool.h, the
private members but the callback `LookupModuleOutput` and the flag
`EagerLoadModules`, which play no part in the handlers below). `AlreadySeen`
is the `const llvm::StringSet<> &` of the caller, as the list of its
members. -/
structure FullDependencyConsumer where
  Dependencies : List String
  PrebuiltModuleDeps : List PrebuiltModuleDep
  ClangModuleDeps : MapVector ModuleDeps
  Commands : List Command
  ContextHash : String
  CASFileSystemRootID : Option CASID
  OutputPaths : List String
  AlreadySeen : List String
deriving DecidableEq, Repr

/-- The constructor: every member empty, `AlreadySeen` bound to the set of
the caller. -/
def FullDependencyConsumer.new (AlreadySeen : List String) : FullDependencyConsumer :=
  { Dependencies := [], PrebuiltModuleDeps := [], ClangModuleDeps := [],
    Commands := [], ContextHash := "", CASFileSystemRootID := none,
    OutputPaths := [], AlreadySeen := AlreadySeen }

/-- The key of the module map: `MD.ID.ContextHash + MD.ID.ModuleName`. -/
def ModuleID.key (ID : ModuleID) : String :=
  ID.ContextHash ++ ID.ModuleName

/-- `handleBuildCommand`: `Commands.push_back(std::move(Cmd))`. -/
def FullDependencyConsumer.handleBuildCommand (C : FullDependencyConsumer)
    (Cmd : Command) : FullDependencyConsumer :=
  { C with Commands := C.Commands ++ [Cmd] }

/-- `handleFileDependency`: `Dependencies.push_back(std::string(File))`. -/
def FullDependencyConsumer.handleFileDependency (C : FullDependencyConsumer)
    (File : String) : FullDependencyConsumer :=
  { C with Dependencies := C.Dependencies ++ [File] }

/-- `handlePrebuiltModuleDependency`:
`PrebuiltModuleDeps.emplace_back(std::move(PMD))`. -/
def FullDependencyConsumer.handlePrebuiltModuleDependency (C : FullDependencyConsumer)
    (PMD : PrebuiltModuleDep) : FullDependencyConsumer :=
  { C with PrebuiltModuleDeps := C.PrebuiltModuleDeps ++ [PMD] }

/-- `handleModuleDependency`:
`ClangModuleDeps[MD.ID.ContextHash + MD.ID.ModuleName] = std::move(MD)`. -/
def FullDependencyConsumer.handleModuleDependency (C : FullDependencyConsumer)
    (MD : ModuleDeps) : FullDependencyConsumer :=
  { C with ClangModuleDeps := MapVector.assign C.ClangModuleDeps MD.ID.key MD }

/-- `handleContextHash`: `ContextHash = std::move(Hash)`. -/
def FullDependencyConsumer.handleContextHash (C : FullDependencyConsumer)
    (Hash : String) : FullDependencyConsumer :=
  { C with ContextHash := Hash }

/-- `handleCASFileSystemRootID`: `CASFileSystemRootID = ID`. -/
def FullDependencyConsumer.handleCASFileSystemRootID (C : FullDependencyConsumer)
    (ID : CASID) : FullDependencyConsumer :=
  { C with CASFileSystemRootID := some ID }

/-- Virtual dispatch: the effect of one `DependencyConsumer` call on a
`FullDependencyConsumer`. `handleDependencyOutputOpts` has an empty body and
`finalize` is not overridden. -/
def FullDependencyConsumer.handle (C : FullDependencyConsumer) :
    ConsumerCall → FullDependencyConsumer
  | .handleBuildCommand Cmd => C.handleBuildCommand Cmd
  | .handleDependencyOutputOpts => C
  | .handleFileDependency File => C.handleFileDependency File
  | .handlePrebuiltModuleDependency PMD => C.handlePrebuiltModuleDependency PMD
  | .handleModuleDependency MD => C.handleModuleDependency MD
  | .handleContextHash Hash => C.handleContextHash Hash
  | .handleCASFileSystemRootID ID => C.handleCASFileSystemRootID ID
  | .finalize => C

/-- A consumer after a sequence of calls, first call first. -/
def FullDependencyConsumer.feed (C : FullDependencyConsumer)
    (Calls : List ConsumerCall) : FullDependencyConsumer :=
  Calls.foldl FullDependencyConsumer.handle C

/-- The `FullDependencies` of DependencyScanningTool.h. -/
structure FullDependencies where
  ID : ModuleID
  FileDeps : List String
  PrebuiltModuleDeps : List PrebuiltModuleDep
  ClangModuleDeps : List ModuleID
  CASFileSystemRootID : Option CASID
  Commands : List Command
  DriverCommandLine : List String
deriving DecidableEq, Repr

/-- The `FullDependenciesResult` of DependencyScanningTool.h. -/
structure FullDependenciesResult where
  FullDeps : FullDependencies
  DiscoveredModules : List ModuleDeps
deriving DecidableEq, Repr

/-- Modelled from the spec: `FullDependencyConsumer::takeFullDependencies`,
declared in DependencyScanningTool.h and defined in DependencyScanningTool.cpp,
which is not under src/. The target record is assembled from the target-level
reports; its `ClangModuleDeps` are the identities of the modules the target
imports, whether already seen or not; `DiscoveredModules` is the deduplicated
module map, in its order, without the entries whose key is in `AlreadySeen`. -/
def FullDependencyConsumer.takeFullDependencies (C : FullDependencyConsumer) :
    FullDependenciesResult :=
  { FullDeps :=
      { ID := { ContextHash := C.ContextHash, ModuleName := "" },
        FileDeps := C.Dependencies,
        PrebuiltModuleDeps := C.PrebuiltModuleDeps,
        ClangModuleDeps :=
          (C.ClangModuleDeps.filter (fun E => E.2.ImportedByMainFile)).map (fun E => E.2.ID),
        CASFileSystemRootID := C.CASFileSystemRootID,
        Commands := C.Commands,
        DriverCommandLine := [] },
    DiscoveredModules :=
      (C.ClangModuleDeps.filter (fun E => decide (E.1 ∉ C.AlreadySeen))).map Prod.snd }

/-! ## Path canonicalization

`llvm::sys::path::remove_dots` and `llvm::sys::fs::make_absolute` are defined
in llvm/lib/Support/Path.cpp, which is not under src/. They are modelled for
the POSIX path style, with `/` the only separator, on paths as character
sequences. A path that begins with exactly two separators followed by another
character carries a network root name (`//net`); `root_name`,
`root_directory` and `root_path` tell it apart from the root directory as
Path.cpp does. -/

/-- `is_separator` of the POSIX style. -/
def is_separator (c : Char) : Bool :=
  c = '/'

/-- Modelled from the spec: `find_first_component` of Path.cpp for the POSIX
style: empty for the empty path; the network root name `//net` up to the next
separator when the path begins with exactly two separators; the root
directory `/` when it begins with a separator otherwise; else the first name,
up to the next separator. -/
def find_first_component : List Char → List Char
  | [] => []
  | c0 :: c1 :: c2 :: rest =>
    if is_separator c0 && (c0 == c1) && !is_separator c2 then
      c0 :: c1 :: (c2 :: rest).takeWhile (fun c => !is_separator c)
    else if is_separator c0 then [c0]
    else (c0 :: c1 :: c2 :: rest).takeWhile (fun c => !is_separator c)
  | c0 :: rest =>
    if is_separator c0 then [c0]
    else (c0 :: rest).takeWhile (fun c => !is_separator c)

/-- Modelled from the spec: the test `has_net` of `root_name`,
`root_directory` and `root_path` on the first component `b`:
`b->size() > 2 && is_separator((*b)[0]) && (*b)[1] == (*b)[0]`. -/
def has_net : List Char → Bool
  | c0 :: c1 :: _ :: _ => is_separator c0 && (c1 == c0)
  | _ => false

/-- Modelled from the spec: `llvm::sys::path::root_name` (Path.cpp is not
under src/) for the POSIX style: the first component when it is a network
root name, empty otherwise. -/
def root_name (path : List Char) : List Char :=
  if has_net (find_first_component path) then find_first_component path else []

/-- Modelled from the spec: `llvm::sys::path::root_directory` for the POSIX
style: behind a network root name, the separator that follows it, if any;
otherwise the first component when it is a separator. -/
def root_directory (path : List Char) : List Char :=
  if has_net (find_first_component path) then
    match path.drop (find_first_component path).length with
    | c :: _ => if is_separator c then [c] else []
    | [] => []
  else
    match find_first_component path with
    | c :: rest => if is_separator c then c :: rest else []
    | [] => []

/-- Modelled from the spec: `llvm::sys::path::root_path` for the POSIX style:
the network root name with the separator that follows it, if any; otherwise
the root directory `/` of a path that begins with a separator; empty
otherwise. -/
def root_path (path : List Char) : List Char :=
  if has_net (find_first_component path) then
    match path.drop (find_first_component path).length with
    | c :: _ =>
      if is_separator c then path.take ((find_first_component path).length + 1)
      else find_first_component path
    | [] => find_first_component path
  else
    match find_first_component path with
    | c :: rest => if is_separator c then c :: rest else []
    | [] => []

/-- Modelled from the spec: `llvm::sys::path::has_root_directory`, which for
the POSIX style is `is_absolute`. -/
def has_root_directory (path : List Char) : Bool :=
  root_directory path ≠ []

/-- Modelled from the spec: `llvm::sys::path::has_root_name`. -/
def has_root_name (path : List Char) : Bool :=
  root_name path ≠ []

/-- Modelled from the spec: `llvm::sys::path::relative_path`, the path behind
its root path. -/
def relative_path (path : List Char) : List Char :=
  path.drop (root_path path).length

/-- The pieces of a path between its separators: `a//b/` has the pieces `a`,
the empty piece, `b`, and the empty piece. -/
def pathComponents : List Char → List (List Char)
  | [] => [[]]
  | c :: rest =>
    if is_separator c then [] :: pathComponents rest
    else
      match pathComponents rest with
      | [] => [[c]]
      | first :: others => (c :: first) :: others

/-- Pieces joined by the separator. -/
def joinComponents : List (List Char) → List Char
  | [] => []
  | [c] => c
  | c :: rest => c ++ '/' :: joinComponents rest

/-- One round of the loop of `remove_dots` on the stack of kept components,
last kept component first: an empty piece and `.` are skipped; with
`remove_dot_dot`, `..` pops the last kept component unless there is none or it
is `..`, in which case it is kept on a relative path and dropped on an absolute
one; every other piece is pushed. -/
def remove_dots.step (remove_dot_dot absolute : Bool) (components : List (List Char))
    (component : List Char) : List (List Char) :=
  if component = [] ∨ component = ['.'] then components
  else if remove_dot_dot = true ∧ component = ['.', '.'] then
    match components with
    | back :: below =>
      if back ≠ ['.', '.'] then below
      else if absolute then components else component :: components
    | [] => if absolute then components else component :: components
  else component :: components

/-- Modelled from the spec: `llvm::sys::path::remove_dots` (Path.cpp is not
under src/), which resolves the `.` and `..` segments of a path without
looking at the file system: the root path is kept, the pieces behind it go
through `remove_dots.step`, and the kept components are joined by single
separators. The leading `..` components of a path without a root path have no
parent to cancel and are kept. -/
def remove_dots (path : List Char) (remove_dot_dot : Bool) : List Char :=
  root_path path ++
    joinComponents
      (((pathComponents (path.drop (root_path path).length)).foldl
        (remove_dots.step remove_dot_dot (root_path path ≠ [])) []).reverse)

/-- Modelled from the spec: one round of the loop of
`llvm::sys::path::append` (Path.cpp is not under src/), for one component:
when the path ends in a separator the leading separators of the component are
stripped; otherwise a separator is added unless the component begins with
one, the path is empty, or the component has a root name. -/
def path_append (path component : List Char) : List Char :=
  if path.getLast? = some '/' then path ++ component.dropWhile is_separator
  else if component.head? ≠ some '/' ∧ ¬ (path = [] ∨ has_root_name component = true) then
    path ++ '/' :: component
  else path ++ component

/-- Modelled from the spec: `llvm::sys::fs::make_absolute` (Path.cpp is not
under src/) for the POSIX style: a path with a root directory is left as it
is; a path with neither root name nor root directory is appended to the
current directory; a network root name without root directory is followed by
the root directory and the relative path of the current directory and by its
own relative path. -/
def make_absolute (current_directory path : List Char) : List Char :=
  if has_root_directory path then path
  else if has_root_name path = false then path_append current_directory path
  else
    path_append
      (path_append
        (path_append (path_append [] (root_name path)) (root_directory current_directory))
        (relative_path current_directory))
      (relative_path path)

/-- The `CanonPath` that `DependencyConsumerForwarder::finishedMainFile` hands
to `handleFileDependency`: `remove_dots(CanonPath, true)` and then
`make_absolute(WorkingDirectory, CanonPath)`. -/
def CanonPath (WorkingDirectory File : List Char) : List Char :=
  make_absolute WorkingDirectory (remove_dots File true)

/-- A path has no `.` and no `..` piece. -/
def dotFree (path : List Char) : Prop :=
  ∀ c ∈ pathComponents path, c ≠ ['.'] ∧ c ≠ ['.', '.']

instance (path : List Char) : Decidable (dotFree path) := by
  unfold dotFree; infer_instance

/-- A component that `remove_dots` keeps: not empty, not `.`, and without a
separator. -/
def cleanComponent (c : List Char) : Prop :=
  c ≠ [] ∧ c ≠ ['.'] ∧ '/' ∉ c

/-- A kept component that is a name, not `..`. -/
def nameComponent (c : List Char) : Prop :=
  cleanComponent c ∧ c ≠ ['.', '.']

/-- The shape of the stack of kept components, last kept first: below a `..`
there are only `..` components. -/
def wellStacked : List (List Char) → Prop
  | [] => True
  | c :: below =>
    cleanComponent c ∧ wellStacked below ∧ (c = ['.', '.'] → ∀ d ∈ below, d = ['.', '.'])

/-- The network root name of a path is `//.` or `//..`. -/
def dotRootName (path : List Char) : Bool :=
  root_name path = ['/', '/', '.'] ∨ root_name path = ['/', '/', '.', '.']

/-! ## The scanning action and the worker -/

/-- The five values of `ScanningOutputFormat` that the switch of
`runInvocation` distinguishes. -/
inductive ScanningOutputFormat where
  | Make
  | Tree
  | IncludeTree
  | Full
  | FullTree
deriving DecidableEq, Repr

/-- A diagnostic written to the captured diagnostics stream: the two that the
worker reports itself, and the text of one reported by a collaborator (the
driver, the tool invocation, the front end). -/
inductive Diagnostic where
  | err_fe_expected_compiler_job (CommandLine : String)
  | err_cas_depscan_failed (Err : String)
  | collaborator (Text : String)
deriving DecidableEq, Repr

/-- The result `llvm::Error` of `runWithDiags`: success, or a `StringError`
with the captured diagnostics stream as its message. -/
inductive LLVMError where
  | success
  | StringError (DiagnosticOutput : List Diagnostic)
deriving DecidableEq, Repr

/-- The parts of a `CompilerInvocation` that the worker reads or writes. -/
structure CompilerInvocation where
  CC1CommandLine : List String
  DisableFree : Bool
  ImplicitPCHInclude : String
  DependencyOutputFile : String
deriving DecidableEq, Repr

/-- The constructor arguments that `runInvocation` passes to
`std::make_shared<ModuleDepCollector>`. -/
structure ModuleDepCollector where
  OriginalInvocation : CompilerInvocation
  OptimizeArgs : Bool
  EagerLoadModules : Bool
deriving DecidableEq, Repr

/-- Modelled from the spec: the reports of `ModuleDepCollector`
(ModuleDepCollector.cpp is not under src/) to the consumer: file
dependencies, prebuilt module dependencies, discovered module dependencies
and the context hash of the scan. Build commands are reported by the job
callback of `computeDependencies` only. -/
inductive ModuleReport where
  | DependencyOutputOpts
  | FileDependency (File : String)
  | PrebuiltModuleDependency (PMD : PrebuiltModuleDep)
  | ModuleDependency (MD : ModuleDeps)
  | ContextHash (Hash : String)
deriving DecidableEq, Repr

/-- The consumer call that a report of the module collector makes. -/
def ModuleReport.toCall : ModuleReport → ConsumerCall
  | .DependencyOutputOpts => .handleDependencyOutputOpts
  | .FileDependency File => .handleFileDependency File
  | .PrebuiltModuleDependency PMD => .handlePrebuiltModuleDependency PMD
  | .ModuleDependency MD => .handleModuleDependency MD
  | .ContextHash Hash => .handleContextHash Hash

/-- The preprocessor callbacks that `IncludeTreePPCallbacks` overrides:
`LexedFileChanged` with its reason, and `HasInclude` with whether the file was
found. -/
inductive PPCallback where
  | LexedFileChangedEnterFile
  | LexedFileChangedExitFile
  | HasInclude (Found : Bool)
deriving DecidableEq, Repr

/-- The calls on the `PPIncludeActionsConsumer`. -/
inductive PPIncludeAction where
  | enteredInclude
  | exitedInclude
  | handleHasIncludeCheck (Found : Bool)
deriving DecidableEq, Repr

/-- `IncludeTreePPCallbacks`: entering a file is `enteredInclude`, leaving one
is `exitedInclude`, and a `__has_include` probe is `handleHasIncludeCheck`
with `File.has_value()`. -/
def IncludeTreePPCallbacks : PPCallback → PPIncludeAction
  | .LexedFileChangedEnterFile => .enteredInclude
  | .LexedFileChangedExitFile => .exitedInclude
  | .HasInclude Found => .handleHasIncludeCheck Found

/-- What the collaborators do during one scan: whether the diagnostics
engine could be created, the diagnostics the front end prints, the callbacks
of the preprocessor, the paths the preprocessor collected
(`getDependencies()`), whether the end of the main file was reached
(`finishedMainFile` is called), the reports of the module collector, the
result of `ExecuteAction`, and the result of `createTreeFromNewAccesses`. -/
structure ScanBehaviour where
  hasDiagnostics : Bool
  Diags : List String
  PPCallbacks : List PPCallback
  Dependencies : List String
  MainFileFinished : Bool
  ModuleReports : List ModuleReport
  Result : Bool
  Tree : Except String CASID

/-- The three dependency collectors that `runInvocation` installs. -/
inductive CollectorKind where
  | DependencyConsumerForwarder
  | IncludeTreeCollector
  | ModuleDepCollector
deriving DecidableEq, Repr

/-- The observable steps of a scan, in the order they happen. -/
inductive Event where
  | trackNewAccesses
  | createScanInstance
  | visitPrebuiltModule (PrebuiltModuleFilename : String) (VisitInputFiles : Bool)
  | addDependencyCollector (Kind : CollectorKind)
  | ExecuteAction
  | consumer (Call : ConsumerCall)
  | includeAction (Action : PPIncludeAction)
  | writeDependencyFile
  | clearStatCache
  | diag (D : Diagnostic)
deriving DecidableEq, Repr

/-- A `driver::Command`: the name of the tool that created the job, its
executable and its arguments. -/
structure driver.Command where
  CreatorName : String
  Executable : String
  Arguments : List String
deriving DecidableEq, Repr

/-- The collaborators of the worker, none of them under src/: the driver
(`Driver::BuildCompilation`, with the diagnostics it prints and the job
list, or no compilation), `ToolInvocation::run` up to the call of the action
(the diagnostics it prints and the invocation it builds from the argument
vector, or none when it fails before the action runs), the front end, and
`ModuleDepCollector::applyDiscoveredDependencies`. -/
structure World where
  BuildCompilation : List String → List String × Option (List driver.Command)
  newInvocation : List String → List String × Option CompilerInvocation
  scan : CompilerInvocation → ScanBehaviour
  applyDiscoveredDependencies : ModuleDepCollector → CompilerInvocation → CompilerInvocation

/-- The members of `DependencyScanningAction`; the file systems are
represented by whether the pointer is set. -/
structure DependencyScanningAction where
  WorkingDirectory : String
  DepFS : Bool
  DepCASFS : Bool
  CacheFS : Bool
  Format : ScanningOutputFormat
  OptimizeArgs : Bool
  EagerLoadModules : Bool
  DisableFree : Bool
  EmitDependencyFile : Bool
  DiagGenerationAsCompilation : Bool
  ModuleName : Option String
  MDC : Option ModuleDepCollector
  LastCC1Arguments : List String
  Scanned : Bool
deriving DecidableEq, Repr

/-- The constructor of `DependencyScanningAction`, its parameters in the
order of the source: `MDC` null, `LastCC1Arguments` empty, `Scanned = false`. -/
def DependencyScanningAction.new (WorkingDirectory : String) (DepFS DepCASFS CacheFS : Bool)
    (Format : ScanningOutputFormat) (OptimizeArgs EagerLoadModules DisableFree
      EmitDependencyFile DiagGenerationAsCompilation : Bool)
    (ModuleName : Option String) : DependencyScanningAction :=
  { WorkingDirectory := WorkingDirectory, DepFS := DepFS, DepCASFS := DepCASFS,
    CacheFS := CacheFS, Format := Format, OptimizeArgs := OptimizeArgs,
    EagerLoadModules := EagerLoadModules, DisableFree := DisableFree,
    EmitDependencyFile := EmitDependencyFile,
    DiagGenerationAsCompilation := DiagGenerationAsCompilation,
    ModuleName := ModuleName, MDC := none, LastCC1Arguments := [], Scanned := false }

/-- `hasScanned`. -/
def DependencyScanningAction.hasScanned (A : DependencyScanningAction) : Bool :=
  A.Scanned

/-- `getDepScanFS() != nullptr`. -/
def DependencyScanningAction.hasDepScanFS (A : DependencyScanningAction) : Bool :=
  A.DepFS || A.DepCASFS

/-- `setLastCC1Arguments`: the discovered dependencies are applied when `MDC`
is set, and the cc1 command line of the invocation is stored. -/
def DependencyScanningAction.setLastCC1Arguments (W : World) (A : DependencyScanningAction)
    (CI : CompilerInvocation) : DependencyScanningAction :=
  { A with LastCC1Arguments :=
      (match A.MDC with
        | some M => W.applyDiscoveredDependencies M CI
        | none => CI).CC1CommandLine }

/-- `takeLastCC1Arguments`: returns the stored arguments and resets them to
empty. -/
def DependencyScanningAction.takeLastCC1Arguments (A : DependencyScanningAction) :
    List String × DependencyScanningAction :=
  (A.LastCC1Arguments, { A with LastCC1Arguments := [] })

/-- `DependencyConsumerForwarder::finishedMainFile`: the output options are
handed over, then every collected dependency in canonical form, and the
dependency file is written when `EmitDependencyFile` is set. -/
def DependencyConsumerForwarder.finishedMainFile (WorkingDirectory : String)
    (Dependencies : List String) (EmitDependencyFile : Bool) : List Event :=
  [Event.consumer .handleDependencyOutputOpts] ++
    Dependencies.map (fun File =>
      Event.consumer (.handleFileDependency (String.mk (CanonPath WorkingDirectory.data File.data)))) ++
    (if EmitDependencyFile then [Event.writeDependencyFile] else [])

/-- `IncludeTreeCollector::finishedMainFile`: the dependency file is written
when `EmitDependencyFile` is set. -/
def IncludeTreeCollector.finishedMainFile (EmitDependencyFile : Bool) : List Event :=
  if EmitDependencyFile then [Event.writeDependencyFile] else []

/-- The format switch of `runInvocation`: the collector that is installed, and
`MDC`, which is set for `Full` and `FullTree` only. -/
def DependencyScanningAction.addDependencyCollector (A : DependencyScanningAction)
    (OriginalInvocation : CompilerInvocation) : DependencyScanningAction × CollectorKind :=
  match A.Format with
  | .Make => (A, .DependencyConsumerForwarder)
  | .Tree => (A, .DependencyConsumerForwarder)
  | .IncludeTree => (A, .IncludeTreeCollector)
  | .Full =>
    ({ A with MDC := some { OriginalInvocation := OriginalInvocation,
                            OptimizeArgs := A.OptimizeArgs,
                            EagerLoadModules := A.EagerLoadModules } },
     .ModuleDepCollector)
  | .FullTree =>
    ({ A with MDC := some { OriginalInvocation := OriginalInvocation,
                            OptimizeArgs := A.OptimizeArgs,
                            EagerLoadModules := A.EagerLoadModules } },
     .ModuleDepCollector)

/-- What the installed collector does during `ExecuteAction`. -/
def collectorEvents (A : DependencyScanningAction) (B : ScanBehaviour) :
    CollectorKind → List Event
  | .DependencyConsumerForwarder =>
    if B.MainFileFinished then
      DependencyConsumerForwarder.finishedMainFile A.WorkingDirectory B.Dependencies
        A.EmitDependencyFile
    else []
  | .IncludeTreeCollector =>
    B.PPCallbacks.map (fun P => Event.includeAction (IncludeTreePPCallbacks P)) ++
      (if B.MainFileFinished then IncludeTreeCollector.finishedMainFile A.EmitDependencyFile
       else [])
  | .ModuleDepCollector => B.ModuleReports.map (fun R => Event.consumer R.toCall)

/-- The result of one `runInvocation` call: the returned flag, the action
afterwards, and the steps performed. -/
structure RunResult where
  Result : Bool
  Action : DependencyScanningAction
  Events : List Event

/-- `DependencyScanningAction::runInvocation`. -/
def DependencyScanningAction.runInvocation (W : World) (A : DependencyScanningAction)
    (Invocation : CompilerInvocation) : RunResult :=
  let OriginalInvocation : CompilerInvocation := { Invocation with DisableFree := A.DisableFree }
  if A.Scanned then
    { Result := true, Action := A.setLastCC1Arguments W OriginalInvocation, Events := [] }
  else
    let E1 : List Event := if A.CacheFS then [Event.trackNewAccesses] else []
    let A1 : DependencyScanningAction := { A with Scanned := true }
    let B := W.scan Invocation
    if !B.hasDiagnostics then
      { Result := false, Action := A1, Events := E1 ++ [Event.createScanInstance] }
    else
      let E2 : List Event :=
        if Invocation.ImplicitPCHInclude ≠ "" then
          [Event.visitPrebuiltModule Invocation.ImplicitPCHInclude A1.hasDepScanFS]
        else []
      let AK := A1.addDependencyCollector OriginalInvocation
      let E3 : List Event :=
        [Event.addDependencyCollector AK.2, Event.ExecuteAction] ++
          B.Diags.map (fun T => Event.diag (.collaborator T)) ++ collectorEvents AK.1 B AK.2
      let E4 : List Event := [Event.consumer .finalize]
      let E5 : List Event := if !AK.1.hasDepScanFS then [Event.clearStatCache] else []
      let E6 : List Event :=
        if AK.1.CacheFS then
          match B.Tree with
          | .ok ID => [Event.consumer (.handleCASFileSystemRootID ID)]
          | .error Err => [Event.diag (.err_cas_depscan_failed Err)]
        else []
      { Result := B.Result,
        Action := if B.Result then AK.1.setLastCC1Arguments W OriginalInvocation else AK.1,
        Events := E1 ++ [Event.createScanInstance] ++ E2 ++ E3 ++ E4 ++ E5 ++ E6 }

/-- The state that the body of `computeDependencies` works on: the action and
the steps performed so far. -/
structure ScanState where
  Action : DependencyScanningAction
  Trace : List Event

/-- The job callback of `computeDependencies`. A job not created by the
`clang` tool is passed to the consumer as it is. For a `clang` job the tool
invocation runs the action; when it returns false the callback fails, and
otherwise the job is reported with the last cc1 arguments of the action. -/
def jobCallback (W : World) (Cmd : driver.Command) (S : ScanState) : Bool × ScanState :=
  if Cmd.CreatorName ≠ "clang" then
    (true, { S with Trace := S.Trace ++
      [Event.consumer (.handleBuildCommand { Executable := Cmd.Executable,
                                             Arguments := Cmd.Arguments })] })
  else
    let Argv := Cmd.Executable :: Cmd.Arguments
    let T := S.Trace ++ (W.newInvocation Argv).1.map (fun T => Event.diag (.collaborator T))
    match (W.newInvocation Argv).2 with
    | none => (false, { S with Trace := T })
    | some Invocation =>
      let R := S.Action.runInvocation W Invocation
      if !R.Result then (false, { Action := R.Action, Trace := T ++ R.Events })
      else
        (true, { Action := R.Action.takeLastCC1Arguments.2,
                 Trace := T ++ R.Events ++
                   [Event.consumer (.handleBuildCommand
                     { Executable := Cmd.Executable,
                       Arguments := R.Action.takeLastCC1Arguments.1 })] })

/-- The loop of `forEachDriverJob`: the callback runs on each job in order and
the first failure stops the iteration. -/
def forEachDriverJob.loop (Callback : driver.Command → ScanState → Bool × ScanState) :
    List driver.Command → ScanState → Bool × ScanState
  | [], S => (true, S)
  | Job :: Rest, S =>
    if (Callback Job S).1 then forEachDriverJob.loop Callback Rest (Callback Job S).2
    else (false, (Callback Job S).2)

/-- `forEachDriverJob`: the driver builds the compilation from the arguments;
without a compilation the result is false. -/
def forEachDriverJob (W : World) (Args : List String)
    (Callback : driver.Command → ScanState → Bool × ScanState) (S : ScanState) :
    Bool × ScanState :=
  let S1 : ScanState :=
    { S with Trace := S.Trace ++ (W.BuildCompilation Args).1.map (fun T => Event.diag (.collaborator T)) }
  match (W.BuildCompilation Args).2 with
  | none => (false, S1)
  | some Jobs => forEachDriverJob.loop Callback Jobs S1

/-- The members of `DependencyScanningWorker` that `computeDependencies`
passes to the action. -/
structure DependencyScanningWorker where
  Format : ScanningOutputFormat
  OptimizeArgs : Bool
  EagerLoadModules : Bool
  DepFS : Bool
  DepCASFS : Bool
  CacheFS : Bool
deriving DecidableEq, Repr

/-- The command line that the driver decomposes: the module name is appended
when one is given. -/
def FinalCommandLine (CommandLine : List String) (ModuleName : Option String) : List String :=
  match ModuleName with
  | some Name => CommandLine ++ [Name]
  | none => CommandLine

/-- The action that `computeDependencies` builds: `DisableFree = true`,
`EmitDependencyFile = false`, `DiagGenerationAsCompilation = false`. -/
def DependencyScanningWorker.newAction (Worker : DependencyScanningWorker)
    (WorkingDirectory : String) (ModuleName : Option String) : DependencyScanningAction :=
  DependencyScanningAction.new WorkingDirectory Worker.DepFS Worker.DepCASFS Worker.CacheFS
    Worker.Format Worker.OptimizeArgs Worker.EagerLoadModules true false false ModuleName

/-- The body that `computeDependencies` hands to `runWithDiags`, up to the
return: the jobs are run, and the expected-compiler-job diagnostic is reported
when they all succeeded and the action has not scanned. -/
def DependencyScanningWorker.runJobs (W : World) (Worker : DependencyScanningWorker)
    (WorkingDirectory : String) (CommandLine : List String) (ModuleName : Option String) :
    Bool × ScanState :=
  let R := forEachDriverJob W (FinalCommandLine CommandLine ModuleName) (jobCallback W)
    { Action := Worker.newAction WorkingDirectory ModuleName, Trace := [] }
  if R.1 && !R.2.Action.hasScanned then
    (R.1, { R.2 with Trace := R.2.Trace ++
      [Event.diag (.err_fe_expected_compiler_job
        (String.intercalate " " (FinalCommandLine CommandLine ModuleName)))] })
  else R

/-- The diagnostics written to the captured stream, in order. -/
def diagnosticOutput : List Event → List Diagnostic
  | [] => []
  | Event.diag D :: Rest => D :: diagnosticOutput Rest
  | _ :: Rest => diagnosticOutput Rest

/-- The calls that the consumer received, in order. -/
def consumerCalls : List Event → List ConsumerCall
  | [] => []
  | Event.consumer Call :: Rest => Call :: consumerCalls Rest
  | _ :: Rest => consumerCalls Rest

/-- The commands of the `handleBuildCommand` calls, in order. -/
def buildCommands : List ConsumerCall → List Command
  | [] => []
  | ConsumerCall.handleBuildCommand Cmd :: Rest => Cmd :: buildCommands Rest
  | _ :: Rest => buildCommands Rest

/-- `DependencyScanningWorker::computeDependencies` with `runWithDiags`: the
error and the steps performed. The result is success when the body returns
`Success && Action.hasScanned()`, and a `StringError` with the captured
diagnostics otherwise. -/
def DependencyScanningWorker.computeDependencies (W : World) (Worker : DependencyScanningWorker)
    (WorkingDirectory : String) (CommandLine : List String) (ModuleName : Option String) :
    LLVMError × List Event :=
  let R := Worker.runJobs W WorkingDirectory CommandLine ModuleName
  if R.1 && R.2.Action.hasScanned then (LLVMError.success, R.2.Trace)
  else (LLVMError.StringError (diagnosticOutput R.2.Trace), R.2.Trace)

/-- The results of a sequence of `runInvocation` calls on one action, each
call on the action that the previous call left. -/
def DependencyScanningAction.runInvocations (W : World) :
    DependencyScanningAction → List CompilerInvocation → List RunResult
  | _, [] => []
  | A, Invocation :: Rest =>
    A.runInvocation W Invocation ::
      DependencyScanningAction.runInvocations W (A.runInvocation W Invocation).Action Rest

/-- A step that is neither a `handleBuildCommand` call nor the
expected-compiler-job diagnostic. -/
def Event.fromScan : Event → Bool
  | .consumer (.handleBuildCommand _) => false
  | .diag (.err_fe_expected_compiler_job _) => false
  | _ => true

/-- A concrete world: the driver decomposes every command line into the given
jobs, every tool invocation builds an invocation from the arguments behind the
executable, every scan succeeds with the dependencies `a.cpp` and `./b.h` and
one module report, and no argument is adjusted. -/
def exampleWorld (Jobs : List driver.Command) : World :=
  { BuildCompilation := fun _ => ([], some Jobs),
    newInvocation := fun Argv =>
      ([], some { CC1CommandLine := Argv.drop 1, DisableFree := false,
                  ImplicitPCHInclude := "", DependencyOutputFile := "" }),
    scan := fun _ =>
      { hasDiagnostics := true, Diags := [], PPCallbacks := [],
        Dependencies := ["a.cpp", "./b.h"],
        MainFileFinished := true,
        ModuleReports := [ModuleReport.ContextHash "h1"],
        Result := true, Tree := Except.error "no store" },
    applyDiscoveredDependencies := fun _ CI => CI }

/-- A worker of the `Full` format without the caching file systems. -/
def exampleWorker : DependencyScanningWorker :=
  { Format := .Full, OptimizeArgs := false, EagerLoadModules := false,
    DepFS := false, DepCASFS := false, CacheFS := false }

/-- A compile job created by the `clang` tool. -/
def exampleCompileJob : driver.Command :=
  { CreatorName := "clang", Executable := "clang", Arguments := ["-cc1", "a.cpp"] }

/-- A link job created by the linker tool. -/
def exampleLinkJob : driver.Command :=
  { CreatorName := "darwin::Linker", Executable := "ld", Arguments := ["a.o", "-o", "a.out"] }

/-- A module report with the given identity and file dependencies, imported
by the main file, used as a concrete input. -/
def exampleModule (Hash Name : String) (Files : List String) : ModuleDeps :=
  { ID := { ContextHash := Hash, ModuleName := Name },
    FileDeps := Files, ClangModuleDeps := [], PrebuiltModuleDeps := [],
    BuildArguments := [], ImportedByMainFile := true }

/-- The collectors installed by the steps, in order. -/
def installedCollectors : List Event → List CollectorKind
  | [] => []
  | Event.addDependencyCollector Kind :: Rest => Kind :: installedCollectors Rest
  | _ :: Rest => installedCollectors Rest

/-- The dependency output file of `computeDependenciesFromCompilerInvocation`
after `DepFile` was made absolute: a non-empty name that is not absolute is
made absolute against the working directory. -/
def absoluteDepFile (WorkingDirectory DepFile : String) : String :=
  if DepFile ≠ "" ∧ has_root_directory DepFile.data = false then
    String.mk (make_absolute WorkingDirectory.data DepFile.data)
  else DepFile

/-- The action that `computeDependenciesFromCompilerInvocation` builds. The
arguments stand in the order of the call: behind `Format` come `false`,
`false`, `EagerLoadModules` and `!DepFile.empty()`, which the constructor
takes as `OptimizeArgs`, `EagerLoadModules`, `DisableFree` and
`EmitDependencyFile`. -/
def DependencyScanningWorker.newActionFromCompilerInvocation (Worker : DependencyScanningWorker)
    (Invocation : CompilerInvocation) (WorkingDirectory : String)
    (DiagGenerationAsCompilation : Bool) : DependencyScanningAction :=
  DependencyScanningAction.new WorkingDirectory Worker.DepFS Worker.DepCASFS Worker.CacheFS
    Worker.Format false false Worker.EagerLoadModules
    (decide (absoluteDepFile WorkingDirectory Invocation.DependencyOutputFile ≠ ""))
    DiagGenerationAsCompilation none

/-- `DependencyScanningWorker::computeDependenciesFromCompilerInvocation`: the
invocation is adjusted (`DisableFree = false`, the dependency output file made
absolute), the action is built and run once on it; the result is ignored by
the caller. -/
def DependencyScanningWorker.computeDependenciesFromCompilerInvocation (W : World)
    (Worker : DependencyScanningWorker) (Invocation : CompilerInvocation)
    (WorkingDirectory : String) (DiagGenerationAsCompilation : Bool) : RunResult :=
  (Worker.newActionFromCompilerInvocation Invocation WorkingDirectory
      DiagGenerationAsCompilation).runInvocation W
    { Invocation with
      DisableFree := false,
      DependencyOutputFile := absoluteDepFile WorkingDirectory Invocation.DependencyOutputFile }

/-- A concrete world with one compile job whose scan returns the given result
and whose tree creation gives the given outcome; the scan reports the context
hash `h1`. -/
def exampleScanWorld (Result : Bool) (Tree : Except String CASID) : World :=
  { BuildCompilation := fun _ => ([], some [exampleCompileJob]),
    newInvocation := fun Argv =>
      ([], some { CC1CommandLine := Argv.drop 1, DisableFree := false,
                  ImplicitPCHInclude := "", DependencyOutputFile := "" }),
    scan := fun _ =>
      { hasDiagnostics := true, Diags := [], PPCallbacks := [],
        Dependencies := ["a.cpp"], MainFileFinished := true,
        ModuleReports := [ModuleReport.ContextHash "h1"],
        Result := Result, Tree := Tree },
    applyDiscoveredDependencies := fun _ CI => CI }

/-- A worker of the `Full` format with content addressing. -/
def exampleCASWorker : DependencyScanningWorker :=
  { Format := .Full, OptimizeArgs := false, EagerLoadModules := false,
    DepFS := false, DepCASFS := true, CacheFS := true }

/-- The invocation that the concrete worlds build for the compile job. -/
def exampleInvocation : CompilerInvocation :=
  { CC1CommandLine := ["-cc1", "a.cpp"], DisableFree := false,
    ImplicitPCHInclude := "", DependencyOutputFile := "" }

/-! ## The prebuilt module visitor -/

/-- What `ASTReader::readASTFileControlBlock` finds in the control block of a
module file: the `(module name, file name)` pairs of its imports and the names
of its input files. A file that cannot be read has neither. -/
structure ControlBlock where
  Imports : List (String × String)
  InputFiles : List String
deriving DecidableEq, Repr

/-- Modelled from the spec: `PrebuiltModuleFilesT`, the
`std::map<std::string, std::string>` of `HeaderSearchOptions`
(HeaderSearchOptions.h is not under src/), as the list of its
`(module name, file name)` entries; the order of the entries plays no part. -/
abbrev PrebuiltModuleFilesT := List (String × String)

/-- Modelled from the spec: `std::map::insert`, which adds the entry when the
key is not in the map and leaves the map as it is otherwise; `.second` of its
result tells whether the entry was added. -/
def PrebuiltModuleFilesT.insert (M : PrebuiltModuleFilesT) (Key Value : String) :
    PrebuiltModuleFilesT × Bool :=
  if Key ∈ MapVector.keys M then (M, false) else (M ++ [(Key, Value)], true)

/-- Modelled from the spec: `llvm::StringSet::insert` on the set as the list
of its members. -/
def StringSet.insert (S : List String) (Key : String) : List String :=
  if Key ∈ S then S else S ++ [Key]

/-- The members of `PrebuiltModuleListener`. `NewModuleFiles` is the worklist
of `visitPrebuiltModule`, its back first. -/
structure PrebuiltModuleListener where
  PrebuiltModuleFiles : PrebuiltModuleFilesT
  InputFiles : List String
  VisitInputFiles : Bool
  NewModuleFiles : List String
deriving DecidableEq, Repr

/-- `needsInputFileVisitation` and `needsSystemInputFileVisitation`. -/
def PrebuiltModuleListener.needsInputFileVisitation (L : PrebuiltModuleListener) : Bool :=
  L.VisitInputFiles

/-- `visitImport`: the file is pushed on the worklist when the insertion of
`{ModuleName, Filename}` into the module table took place. -/
def PrebuiltModuleListener.visitImport (L : PrebuiltModuleListener)
    (ModuleName Filename : String) : PrebuiltModuleListener :=
  if (PrebuiltModuleFilesT.insert L.PrebuiltModuleFiles ModuleName Filename).2 then
    { L with
      PrebuiltModuleFiles := (PrebuiltModuleFilesT.insert L.PrebuiltModuleFiles ModuleName Filename).1,
      NewModuleFiles := Filename :: L.NewModuleFiles }
  else
    { L with
      PrebuiltModuleFiles := (PrebuiltModuleFilesT.insert L.PrebuiltModuleFiles ModuleName Filename).1 }

/-- `visitInputFile`: `InputFiles.insert(Filename)`. -/
def PrebuiltModuleListener.visitInputFile (L : PrebuiltModuleListener)
    (Filename : String) : PrebuiltModuleListener :=
  { L with InputFiles := StringSet.insert L.InputFiles Filename }

/-- Modelled from the spec: `ASTReader::readASTFileControlBlock` (ASTReader.cpp
is not under src/), which reads only the control block of the file: each of
its imports is handed to `visitImport` (`needsImportVisitation` is true), and
each input file to `visitInputFile` when the listener asks for input files. -/
def readASTFileControlBlock (Block : ControlBlock) (L : PrebuiltModuleListener) :
    PrebuiltModuleListener :=
  if (Block.Imports.foldl (fun L0 I => L0.visitImport I.1 I.2) L).needsInputFileVisitation then
    Block.InputFiles.foldl PrebuiltModuleListener.visitInputFile
      (Block.Imports.foldl (fun L0 I => L0.visitImport I.1 I.2) L)
  else Block.Imports.foldl (fun L0 I => L0.visitImport I.1 I.2) L

/-- The state of the loop of `visitPrebuiltModule`: the listener, with the
worklist, and the files whose control block was read so far, in order. -/
structure VisitState where
  Listener : PrebuiltModuleListener
  Reads : List String
deriving DecidableEq, Repr

/-- One round of `while (!Worklist.empty())`: the back of the worklist is
popped and its control block is read. -/
def visitPrebuiltModule.step (Blocks : String → ControlBlock) (File : String)
    (Rest : List String) (S : VisitState) : VisitState :=
  { Listener := readASTFileControlBlock (Blocks File) { S.Listener with NewModuleFiles := Rest },
    Reads := S.Reads ++ [File] }

/-- The loop of `visitPrebuiltModule` with a bound on the number of rounds:
the result is the state with the empty worklist, and `none` when the bound is
reached before the worklist is empty. -/
def visitPrebuiltModule.loop (Blocks : String → ControlBlock) : Nat → VisitState → Option VisitState
  | 0, _ => none
  | fuel + 1, S =>
    match S.Listener.NewModuleFiles with
    | [] => some S
    | File :: Rest =>
      visitPrebuiltModule.loop Blocks fuel (visitPrebuiltModule.step Blocks File Rest S)

/-- `visitPrebuiltModule`: the worklist starts as the given file, and the
listener works on the module table and the input-file set of the caller. -/
def visitPrebuiltModule (Blocks : String → ControlBlock) (fuel : Nat)
    (PrebuiltModuleFilename : String) (ModuleFiles : PrebuiltModuleFilesT)
    (InputFiles : List String) (VisitInputFiles : Bool) : Option VisitState :=
  visitPrebuiltModule.loop Blocks fuel
    { Listener := { PrebuiltModuleFiles := ModuleFiles, InputFiles := InputFiles,
                    VisitInputFiles := VisitInputFiles,
                    NewModuleFiles := [PrebuiltModuleFilename] },
      Reads := [] }

/-- A module file is reached from the root through imports. -/
inductive Reaches (Blocks : String → ControlBlock) (Root : String) : String → Prop where
  | root : Reaches Blocks Root Root
  | step (File : String) (Import : String × String) :
      Reaches Blocks Root File → Import ∈ (Blocks File).Imports →
      Reaches Blocks Root Import.2

/-- The number of the given module names that are not in the module table. -/
def missingNames (Names : List String) (M : PrebuiltModuleFilesT) : Nat :=
  (Names.toFinset \ (MapVector.keys M).toFinset).card

/-- Control blocks for concrete inputs: `root.pch` imports module `M` from
`m1.pcm` and from `m2.pcm`, `m1.pcm` imports `M` from itself (a cycle), and
`m2.pcm` imports module `N` from `n.pcm`. -/
def exampleBlocks (File : String) : ControlBlock :=
  if File = "root.pch" then
    { Imports := [("M", "m1.pcm"), ("M", "m2.pcm")], InputFiles := ["root.h"] }
  else if File = "m1.pcm" then
    { Imports := [("M", "m1.pcm")], InputFiles := ["m.h"] }
  else if File = "m2.pcm" then
    { Imports := [("N", "n.pcm")], InputFiles := ["m.h"] }
  else if File = "n.pcm" then
    { Imports := [], InputFiles := ["n.h"] }
  else { Imports := [], InputFiles := [] }

/-- Control blocks for concrete inputs in which every module name has one
file: `root.pch` imports `A` and `B`, `a.pcm` imports `B`, and `b.pcm` imports
`A` (a cycle). -/
def exampleCyclicBlocks (File : String) : ControlBlock :=
  if File = "root.pch" then
    { Imports := [("A", "a.pcm"), ("B", "b.pcm")], InputFiles := ["root.h"] }
  else if File = "a.pcm" then
    { Imports := [("B", "b.pcm")], InputFiles := ["a.h"] }
  else if File = "b.pcm" then
    { Imports := [("A", "a.pcm")], InputFiles := ["b.h"] }
  else { Imports := [], InputFiles := [] }

/-- What holds between the rounds of `visitPrebuiltModule` started on an
empty module table: every entry of the table is an import of a file that was
read, and its file was read or waits on the worklist; so does the root; every
file read or waiting is reached from the root; the names of all imports of the
files read are in the table; and with input-file visitation the input files of
the files read are in the input-file set. -/
def visitInvariant (Blocks : String → ControlBlock) (Root : String) (S : VisitState) : Prop :=
  (∀ E ∈ S.Listener.PrebuiltModuleFiles, ∃ G ∈ S.Reads, E ∈ (Blocks G).Imports) ∧
  (∀ G, G ∈ S.Reads ∨ G ∈ S.Listener.NewModuleFiles → Reaches Blocks Root G) ∧
  (∀ E ∈ S.Listener.PrebuiltModuleFiles, E.2 ∈ S.Listener.NewModuleFiles ∨ E.2 ∈ S.Reads) ∧
  (Root ∈ S.Listener.NewModuleFiles ∨ Root ∈ S.Reads) ∧
  (∀ G ∈ S.Reads, ∀ I ∈ (Blocks G).Imports,
    I.1 ∈ MapVector.keys S.Listener.PrebuiltModuleFiles) ∧
  (S.Listener.VisitInputFiles = true →
    ∀ G ∈ S.Reads, ∀ f ∈ (Blocks G).InputFiles, f ∈ S.Listener.InputFiles)

/-- What holds between the rounds of `visitPrebuiltModule` started on the
module table `ModuleFiles`: the table is the initial one followed by entries
with new, distinct names, and the files read and waiting are one more than
the entries added. -/
def visitCount (ModuleFiles : PrebuiltModuleFilesT) (S : VisitState) : Prop :=
  ∃ New : List (String × String),
    S.Listener.PrebuiltModuleFiles = ModuleFiles ++ New ∧
    (New.map Prod.fst).Nodup ∧
    (∀ E ∈ New, E.1 ∉ MapVector.keys ModuleFiles) ∧
    S.Reads.length + S.Listener.NewModuleFiles.length = 1 + New.length

/-- What holds between the rounds of `visitPrebuiltModule` started on the
module table `ModuleFiles` and the input-file set `InputFiles`: the table is
the initial one followed by entries with new names, each an import of a file
that was read; every file read or waiting is reached from the root, and is
the root or the file of an added entry; the input-file set holds the initial
members, and is the initial one when input files are not visited. -/
def visitFrame (Blocks : String → ControlBlock) (Root : String)
    (ModuleFiles : PrebuiltModuleFilesT) (InputFiles : List String) (S : VisitState) : Prop :=
  ∃ New : List (String × String),
    S.Listener.PrebuiltModuleFiles = ModuleFiles ++ New ∧
    (∀ E ∈ New, E.1 ∉ MapVector.keys ModuleFiles) ∧
    (∀ E ∈ New, ∃ G ∈ S.Reads, E ∈ (Blocks G).Imports) ∧
    (∀ G, G ∈ S.Reads ∨ G ∈ S.Listener.NewModuleFiles → Reaches Blocks Root G) ∧
    (∀ G, G ∈ S.Reads ∨ G ∈ S.Listener.NewModuleFiles → G = Root ∨ ∃ E ∈ New, E.2 = G) ∧
    (S.Listener.VisitInputFiles = false → S.Listener.InputFiles = InputFiles) ∧
    (∀ f ∈ InputFiles, f ∈ S.Listener.InputFiles)

end clang.tooling.dependencies

namespace mlir

/-! ## `ArithmeticToSPIRV`: the emulated signed remainder

A value of an integer type of width `w` is its bit pattern, a natural number
below `2 ^ w`. The SPIR-V operations the pattern emits are defined by the
SPIR-V dialect, outside the translated file; they are given here with their
two's complement meaning. -/

/-- The signed number a bit pattern of width `w` stands for. -/
def toSigned (w x : Nat) : Int :=
  if x < 2 ^ (w - 1) then (x : Int) else (x : Int) - 2 ^ w

/-- The bit pattern of width `w` of an integer. -/
def ofSigned (w : Nat) (i : Int) : Nat :=
  (i % 2 ^ w).toNat

/-- The operations `spv.GL.SAbs` and `spv.CL.s_abs`: `x` when `x` is not
negative, else `-x` in `w` bits. The minimum signed value is its own
negation. -/
def spirv.SAbs (w x : Nat) : Nat :=
  if x < 2 ^ (w - 1) then x else (2 ^ w - x) % 2 ^ w

/-- The operation `spv.UMod`: unsigned remainder. -/
def spirv.UMod (x y : Nat) : Nat :=
  x % y

/-- The operation `spv.IEqual`: equality of bit patterns. -/
def spirv.IEqual (x y : Nat) : Bool :=
  decide (x = y)

/-- The operation `spv.SNegate`: `0 - x` in `w` bits. -/
def spirv.SNegate (w x : Nat) : Nat :=
  (2 ^ w - x) % 2 ^ w

/-- The operation `spv.Select`, on values of any type. -/
def spirv.Select {T : Type} (Condition : Bool) (TrueValue FalseValue : T) : T :=
  if Condition then TrueValue else FalseValue

/-- Which of the two operands the caller passed as `signOperand`; the source
asserts `lhs == signOperand || rhs == signOperand` and tests
`lhs == signOperand`. -/
inductive SignOperand where
  | lhs
  | rhs
  deriving DecidableEq, Repr

/-- The value computed by the operations that `emulateSignedRemainder` emits,
for operands of width `w`. -/
def emulateSignedRemainder (w lhs rhs : Nat) (signOperand : SignOperand) : Nat :=
  let lhsAbs := spirv.SAbs w lhs
  let rhsAbs := spirv.SAbs w rhs
  let abs := spirv.UMod lhsAbs rhsAbs
  let isPositive :=
    if signOperand = SignOperand.lhs then spirv.IEqual lhs lhsAbs
    else spirv.IEqual rhs rhsAbs
  let absNegate := spirv.SNegate w abs
  spirv.Select isPositive abs absNegate

/-- The operation `arith.remsi`: the remainder of the signed division that
rounds towards zero; its sign follows the left operand. -/
def arith.remsi (w lhs rhs : Nat) : Nat :=
  ofSigned w ((toSigned w lhs).tmod (toSigned w rhs))

/-- The value both `RemSIOpGLPattern` and `RemSIOpCLPattern` put in the place
of `arith.remsi`: operand 0 is the sign operand. -/
def RemSIOpPattern.matchAndRewrite (w lhs rhs : Nat) : Nat :=
  emulateSignedRemainder w lhs rhs SignOperand.lhs

/-! ## `ArithmeticToSPIRV`: conversion of integer attributes -/

/-- Modelled from the spec: `llvm::APInt` (APInt.h is not under src/), an
integer of `BitWidth` bits with the bit pattern `VAL`, a number below
`2 ^ BitWidth`. -/
structure APInt where
  BitWidth : Nat
  VAL : Nat
deriving DecidableEq, Repr

/-- Modelled from the spec: the loop of `APInt::countLeadingZeros` over the
bits below bit `n`, from the highest down. -/
def APInt.countLeadingZeros.go (VAL : Nat) : Nat → Nat
  | 0 => 0
  | n + 1 => if VAL.testBit n then 0 else APInt.countLeadingZeros.go VAL n + 1

/-- Modelled from the spec: `APInt::countLeadingZeros`, the number of zero
bits from the most significant bit down to the first one bit. -/
def APInt.countLeadingZeros (A : APInt) : Nat :=
  APInt.countLeadingZeros.go A.VAL A.BitWidth

/-- Modelled from the spec: the loop of `APInt::countLeadingOnes` over the
bits below bit `n`, from the highest down. -/
def APInt.countLeadingOnes.go (VAL : Nat) : Nat → Nat
  | 0 => 0
  | n + 1 => if VAL.testBit n then APInt.countLeadingOnes.go VAL n + 1 else 0

/-- Modelled from the spec: `APInt::countLeadingOnes`, the number of one bits
from the most significant bit down to the first zero bit. -/
def APInt.countLeadingOnes (A : APInt) : Nat :=
  APInt.countLeadingOnes.go A.VAL A.BitWidth

/-- Modelled from the spec: `APInt::isNegative`, the most significant bit. -/
def APInt.isNegative (A : APInt) : Bool :=
  A.VAL.testBit (A.BitWidth - 1)

/-- Modelled from the spec: `APInt::getNumSignBits`. -/
def APInt.getNumSignBits (A : APInt) : Nat :=
  if A.isNegative then A.countLeadingOnes else A.countLeadingZeros

/-- Modelled from the spec: `APInt::getActiveBits`,
`BitWidth - countLeadingZeros()`. -/
def APInt.getActiveBits (A : APInt) : Nat :=
  A.BitWidth - A.countLeadingZeros

/-- Modelled from the spec: `APInt::getMinSignedBits`,
`BitWidth - getNumSignBits() + 1`. -/
def APInt.getMinSignedBits (A : APInt) : Nat :=
  A.BitWidth - A.getNumSignBits + 1

/-- Modelled from the spec: `APInt::isIntN`, `getActiveBits() <= N`. -/
def APInt.isIntN (A : APInt) (N : Nat) : Bool :=
  decide (A.getActiveBits ≤ N)

/-- Modelled from the spec: `APInt::isSignedIntN`,
`getMinSignedBits() <= N`. -/
def APInt.isSignedIntN (A : APInt) (N : Nat) : Bool :=
  decide (A.getMinSignedBits ≤ N)

/-- Modelled from the spec: `APInt::getSExtValue` for a width of at most 64
bits, `SignExtend64(VAL, BitWidth)`, as the signed number of the `int64_t`. -/
def APInt.getSExtValue (A : APInt) : Int :=
  toSigned A.BitWidth A.VAL

/-- Modelled from the spec: the constructor
`APInt(numBits, uint64_t val, bool isSigned)`: a single word keeps the low
`numBits` bits of `val`; above 64 bits `val` is the lowest word, and the words
above it are filled with ones when `isSigned` holds and `val` is negative as an
`int64_t`, with zeros otherwise. -/
def APInt.new (numBits val : Nat) (isSigned : Bool) : APInt :=
  if numBits ≤ 64 then { BitWidth := numBits, VAL := val % 2 ^ numBits }
  else if isSigned = true ∧ 2 ^ 63 ≤ val % 2 ^ 64 then
    { BitWidth := numBits, VAL := val % 2 ^ 64 + (2 ^ numBits - 2 ^ 64) }
  else { BitWidth := numBits, VAL := val % 2 ^ 64 }

/-- Modelled from the spec: `IntegerType::SignednessSemantics`
(BuiltinTypes.h is not under src/). -/
inductive SignednessSemantics where
  | Signless
  | Signed
  | Unsigned
deriving DecidableEq, Repr

/-- Modelled from the spec: `IntegerType`, its width and its signedness. -/
structure IntegerType where
  getWidth : Nat
  getSignedness : SignednessSemantics
deriving DecidableEq, Repr

/-- Modelled from the spec: `Type::isSignedInteger`. -/
def IntegerType.isSignedInteger (T : IntegerType) : Bool :=
  decide (T.getSignedness = SignednessSemantics.Signed)

/-- Modelled from the spec: `IntegerAttr` (BuiltinAttributes.h is not under
src/), its type and its value; the null attribute is `none` of
`Option IntegerAttr`. -/
structure IntegerAttr where
  getType : IntegerType
  getValue : APInt
deriving DecidableEq, Repr

/-- Modelled from the spec: `IntegerAttr::getInt`, `getValue().getSExtValue()`. -/
def IntegerAttr.getInt (A : IntegerAttr) : Int :=
  A.getValue.getSExtValue

/-- Modelled from the spec: `Builder::getIntegerAttr(Type, int64_t)` for an
integer type:
`IntegerAttr::get(type, APInt(width, value, type.isSignedInteger()))`. -/
def Builder.getIntegerAttr (type : IntegerType) (value : Int) : IntegerAttr :=
  { getType := type,
    getValue := APInt.new type.getWidth (ofSigned 64 value) type.isSignedInteger }

/-- `convertIntegerAttr`: the source number is tried as an unsigned and then
as a signed value; the null attribute is returned when both fail. -/
def convertIntegerAttr (srcAttr : IntegerAttr) (dstType : IntegerType) : Option IntegerAttr :=
  if srcAttr.getValue.isIntN dstType.getWidth then
    some (Builder.getIntegerAttr dstType srcAttr.getInt)
  else if srcAttr.getValue.isSignedIntN dstType.getWidth then
    some (Builder.getIntegerAttr dstType srcAttr.getInt)
  else none

/-- The bit pattern of width `s` extended to width `w` with copies of its
sign bit. -/
def signExtend (s w x : Nat) : Nat :=
  if x < 2 ^ (s - 1) then x else x + (2 ^ w - 2 ^ s)

/-! ## `ArithmeticToSPIRV`: `MinMaxFOpPattern` -/

/-- The option of `SPIRVConversionOptions` that `MinMaxFOpPattern` reads. -/
structure SPIRVConversionOptions where
  enableFastMathMode : Bool
deriving DecidableEq, Repr

/-- `MinMaxFOpPattern<Op, SPIRVOp>::matchAndRewrite` on the values of the
operands: `none` is `failure()`, and `some v` is the value that replaces the
operation. `SPIRVOp` is the meaning of `spv.GL.FMax` or `spv.GL.FMin` and
`IsNan` that of `spv.IsNan`; `dstType` is the converted result type, `none`
when the conversion fails. -/
def MinMaxFOpPattern.matchAndRewrite {F : Type} (SPIRVOp : F → F → F) (IsNan : F → Bool)
    (dstType : Option String) (options : SPIRVConversionOptions) (lhs rhs : F) : Option F :=
  match dstType with
  | none => none
  | some _ =>
    let spirvOp := SPIRVOp lhs rhs
    if options.enableFastMathMode then some spirvOp
    else
      let lhsIsNan := IsNan lhs
      let rhsIsNan := IsNan rhs
      let select1 := spirv.Select lhsIsNan lhs spirvOp
      let select2 := spirv.Select rhsIsNan rhs select1
      some select2

/-- Floating point values for concrete inputs: a number or NaN. -/
inductive ExampleFloat where
  | number (n : Int)
  | NaN
deriving DecidableEq, Repr

/-- `spv.IsNan` on the example values. -/
def ExampleFloat.isNan : ExampleFloat → Bool
  | .NaN => true
  | .number _ => false

/-- A meaning of `spv.GL.FMax` on the example values; with a NaN operand it
gives the other operand, which the SPIR-V rules allow. -/
def ExampleFloat.FMax : ExampleFloat → ExampleFloat → ExampleFloat
  | .number a, .number b => .number (max a b)
  | .NaN, y => y
  | x, .NaN => x

end mlir

namespace llvm

/-! ## `BuiltinObjectHasher`

A byte is a natural number; the bytes that the hasher itself produces are
below 256. -/

/-- Modelled from the spec: `support::endianness` (llvm/Support/Endian.h is
not under src/), for the byte order of the host and of the target; `native`
does not occur. -/
inductive support.endianness where
  | big
  | little
deriving DecidableEq, Repr

/-- The lowest `n` bytes of a number, the lowest first. -/
def toLittleEndian : Nat → Nat → List Nat
  | 0, _ => []
  | n + 1, x => x % 256 :: toLittleEndian n (x / 256)

/-- The number with the given bytes, the lowest first. -/
def fromLittleEndian : List Nat → Nat
  | [] => 0
  | b :: bs => b + 256 * fromLittleEndian bs

/-- Modelled from the spec: `sys::getSwappedBytes` on a `uint64_t`
(llvm/Support/SwapByteOrder.h is not under src/): the number whose eight bytes
are those of the argument in the opposite order. -/
def sys.getSwappedBytes (x : Nat) : Nat :=
  fromLittleEndian (toLittleEndian 8 x).reverse

/-- Modelled from the spec: `support::endian::byte_swap(value, endian)` on a
host of the given byte order: the bytes are swapped when the target order is
not the order of the host. -/
def support.endian.byte_swap (host : support.endianness) (value : Nat)
    (endian : support.endianness) : Nat :=
  if endian ≠ host then sys.getSwappedBytes value else value

/-- The bytes of a `uint64_t` object in the memory of the host, by rising
address: what `reinterpret_cast<const uint8_t *>(&Size)` with `sizeof(Size)`
reads. -/
def objectBytes (host : support.endianness) (x : Nat) : List Nat :=
  match host with
  | .little => toLittleEndian 8 x
  | .big => (toLittleEndian 8 x).reverse

namespace cas

/-- Modelled from the spec: `CASID` (llvm/CAS/CASID.h is not under src/), of
which the hasher reads the hash. -/
structure CASID where
  getHash : List Nat
deriving DecidableEq, Repr

/-- Modelled from the spec: `ObjectRef` (llvm/CAS/CASReference.h is not under
src/), a reference inside one store. -/
structure ObjectRef where
  InternalRef : Nat
deriving DecidableEq, Repr

/-- Modelled from the spec: `ObjectStore` (llvm/CAS/ObjectStore.h is not
under src/), of which the hasher uses `getID`. -/
structure ObjectStore where
  getID : ObjectRef → CASID

/-- The template parameter `HasherT`: a hasher with a default constructor,
`update` and `final`. -/
structure HasherT (HashT : Type) where
  State : Type
  init : State
  update : State → List Nat → State
  final : State → HashT

/-- The hasher applied to one byte string: one `update` on a new hasher, then
`final`. -/
def HasherT.hash {HashT : Type} (H : HasherT HashT) (Data : List Nat) : HashT :=
  H.final (H.update H.init Data)

/-- Two updates of the hasher act as one update with the two byte strings
joined. -/
def HasherT.Streaming {HashT : Type} (H : HasherT HashT) : Prop :=
  ∀ (S : H.State) (A B : List Nat), H.update (H.update S A) B = H.update S (A ++ B)

/-- The hasher that keeps the bytes it was given. -/
def HasherT.record : HasherT (List Nat) :=
  { State := List Nat, init := [], update := fun S A => S ++ A, final := fun S => S }

/-- The member `Hasher` of `BuiltinObjectHasher<HasherT>`. -/
structure BuiltinObjectHasher {HashT : Type} (H : HasherT HashT) where
  Hasher : H.State

/-- The default constructor. -/
def BuiltinObjectHasher.new {HashT : Type} (H : HasherT HashT) : BuiltinObjectHasher H :=
  { Hasher := H.init }

/-- `finish`. -/
def BuiltinObjectHasher.finish {HashT : Type} {H : HasherT HashT}
    (B : BuiltinObjectHasher H) : HashT :=
  H.final B.Hasher

/-- `updateSize`: the size, a `uint64_t`, is brought into little-endian order
and the eight bytes of the object are hashed. -/
def BuiltinObjectHasher.updateSize {HashT : Type} {H : HasherT HashT}
    (host : support.endianness) (B : BuiltinObjectHasher H) (Size : Nat) :
    BuiltinObjectHasher H :=
  { Hasher := H.update B.Hasher
      (objectBytes host
        (support.endian.byte_swap host (Size % 2 ^ 64) support.endianness.little)) }

/-- `updateID`: the hash of the identifier is hashed, without its size. -/
def BuiltinObjectHasher.updateID {HashT : Type} {H : HasherT HashT}
    (B : BuiltinObjectHasher H) (ID : CASID) : BuiltinObjectHasher H :=
  { Hasher := H.update B.Hasher ID.getHash }

/-- `updateRef`. -/
def BuiltinObjectHasher.updateRef {HashT : Type} {H : HasherT HashT}
    (CAS : ObjectStore) (B : BuiltinObjectHasher H) (Ref : ObjectRef) : BuiltinObjectHasher H :=
  B.updateID (CAS.getID Ref)

/-- `updateArray`: the size of the array, then its bytes. -/
def BuiltinObjectHasher.updateArray {HashT : Type} {H : HasherT HashT}
    (host : support.endianness) (B : BuiltinObjectHasher H) (Bytes : List Nat) :
    BuiltinObjectHasher H :=
  { Hasher := H.update (B.updateSize host Bytes.length).Hasher Bytes }

/-- `hashObject`. -/
def BuiltinObjectHasher.hashObject {HashT : Type} (H : HasherT HashT)
    (host : support.endianness) (CAS : ObjectStore) (Refs : List ObjectRef)
    (Data : List Nat) : HashT :=
  (((Refs.foldl (BuiltinObjectHasher.updateRef CAS)
      ((BuiltinObjectHasher.new H).updateSize host Refs.length)).updateArray host Data)).finish

/-- The 8-byte little-endian encoding of a number: byte `i` is
`(x >> 8i) mod 256`. -/
def LE64 (x : Nat) : List Nat :=
  (List.range 8).map (fun i => (x >>> (8 * i)) % 256)

/-- The byte string of an object with the given reference hashes and data:
the number of references, the hashes one after the other, the size of the
data, the data. -/
def objectEncoding (Hashes : List (List Nat)) (Data : List Nat) : List Nat :=
  LE64 Hashes.length ++ Hashes.flatten ++ LE64 Data.length ++ Data

/-- A store for concrete inputs: the hash of reference `n` is the two bytes
`n` and `n + 1`. -/
def exampleStore : ObjectStore :=
  { getID := fun Ref => { getHash := [Ref.InternalRef % 256, (Ref.InternalRef + 1) % 256] } }

end cas

end llvm

namespace clang.dataflow

/-! ## `MatchSwitchTest` -/

/-- The declarations that the matchers of the test tell apart. -/
inductive Decl where
  | VarDecl (Name : String)
  | FunctionDecl (Name : String)
deriving DecidableEq, Repr

/-- The statements of a function body as the control flow graph lists them,
as far as the matchers of the test look at them: a reference to a
declaration, a call with its direct callee, and every other statement with
the name of its class. -/
inductive Stmt where
  | DeclRefExpr (D : Decl)
  | CallExpr (Callee : Option Decl)
  | Other (StmtClassName : String)
deriving DecidableEq, Repr

/-- `BooleanLattice`. -/
structure BooleanLattice where
  Value : Bool
deriving DecidableEq, Repr

/-- `BooleanLattice::bottom`. -/
def BooleanLattice.bottom : BooleanLattice := { Value := false }

/-- `BooleanLattice::top`. -/
def BooleanLattice.top : BooleanLattice := { Value := true }

/-- `BooleanLattice::join`, the lattice afterwards. -/
def BooleanLattice.join (L Other : BooleanLattice) : BooleanLattice :=
  { Value := L.Value || Other.Value }

/-- Modelled from the spec: `TransferState<BooleanLattice>` (MatchSwitch.h is
not under src/), the lattice element that the actions work on; the
environment, which no action of the test touches, is left out. -/
structure TransferState where
  Lattice : BooleanLattice
deriving DecidableEq, Repr

/-- `TransferSetTrue`. -/
def TransferSetTrue (_S : Stmt) (State : TransferState) : TransferState :=
  { State with Lattice := { Value := true } }

/-- `TransferSetFalse`. -/
def TransferSetFalse (_S : Stmt) (State : TransferState) : TransferState :=
  { State with Lattice := { Value := false } }

/-- Modelled from the spec: one `CaseOf` of `MatchSwitchBuilder`
(MatchSwitch.h is not under src/): a matcher and the action for the
statements it matches. -/
structure MatchSwitchCase (State : Type) where
  Matcher : Stmt → Bool
  Action : Stmt → State → State

/-- Modelled from the spec: `MatchSwitchBuilder::Build` (MatchSwitch.h is not
under src/): the switch runs the action of the first case whose matcher
matches the statement, and does nothing when no case matches. -/
def MatchSwitchBuilder.Build {State : Type} (Cases : List (MatchSwitchCase State)) :
    Stmt → State → State :=
  fun S St =>
    match Cases.find? (fun C => C.Matcher S) with
    | some C => C.Action S St
    | none => St

/-- The matcher `declRefExpr(to(varDecl(hasName("X"))))`. -/
def refersToVarX : Stmt → Bool
  | .DeclRefExpr (.VarDecl Name) => decide (Name = "X")
  | _ => false

/-- The matcher `callExpr(callee(functionDecl(hasName("Foo"))))`. -/
def callsFoo : Stmt → Bool
  | .CallExpr (some (.FunctionDecl Name)) => decide (Name = "Foo")
  | _ => false

/-- The member `TransferSwitch` that the constructor of `TestAnalysis`
builds. -/
def TestAnalysis.TransferSwitch : Stmt → TransferState → TransferState :=
  MatchSwitchBuilder.Build
    [{ Matcher := refersToVarX, Action := TransferSetTrue },
     { Matcher := callsFoo, Action := TransferSetFalse }]

/-- `TestAnalysis::initialElement`. -/
def TestAnalysis.initialElement : BooleanLattice :=
  BooleanLattice.bottom

/-- `TestAnalysis::transfer`, the lattice element afterwards. -/
def TestAnalysis.transfer (S : Stmt) (L : BooleanLattice) : BooleanLattice :=
  (TestAnalysis.TransferSwitch S { Lattice := L }).Lattice

/-- Modelled from the spec: the dataflow framework (DataflowAnalysis.h is not
under src/) on a body without branches: the transfer function is applied to
the statements in the order of the control flow graph, starting from the
initial element. -/
def RunDataflow (Stmts : List Stmt) : BooleanLattice :=
  Stmts.foldl (fun L S => TestAnalysis.transfer S L) TestAnalysis.initialElement

/-- The statements of `int X = 1; (void)X;`. -/
def exampleUseX : List Stmt :=
  [.Other "IntegerLiteral", .Other "DeclStmt", .DeclRefExpr (.VarDecl "X"),
   .Other "CStyleCastExpr"]

/-- The statements of the call of the function with the given name. -/
def exampleCall (Name : String) : List Stmt :=
  [.DeclRefExpr (.FunctionDecl Name), .Other "ImplicitCastExpr",
   .CallExpr (some (.FunctionDecl Name))]

end clang.dataflow

namespace clang.tooling.dependencies

/-! ## Lemmas on `MapVector` -/

theorem MapVector.keys_assign_of_mem {V : Type} (M : MapVector V) (Key : String) (Value : V)
    (h : Key ∈ MapVector.keys M) :
    MapVector.keys (MapVector.assign M Key Value) = MapVector.keys M := by
  induction M with
  | nil => simp [MapVector.keys] at h
  | cons E Rest ih =>
    obtain ⟨K, V0⟩ := E
    by_cases hk : K = Key
    · simp [MapVector.assign, MapVector.keys, hk]
    · have hr : Key ∈ MapVector.keys Rest := by
        simp only [MapVector.keys, List.map_cons, List.mem_cons] at h
        rcases h with h | h
        · exact absurd h.symm hk
        · exact h
      have := ih hr
      simp only [MapVector.keys] at this
      simp [MapVector.assign, MapVector.keys, hk, this]

theorem MapVector.keys_assign_of_not_mem {V : Type} (M : MapVector V) (Key : String) (Value : V)
    (h : Key ∉ MapVector.keys M) :
    MapVector.keys (MapVector.assign M Key Value) = MapVector.keys M ++ [Key] := by
  induction M with
  | nil => simp [MapVector.assign, MapVector.keys]
  | cons E Rest ih =>
    obtain ⟨K, V0⟩ := E
    simp only [MapVector.keys, List.map_cons, List.mem_cons, not_or] at h
    have hk : K ≠ Key := fun e => h.1 e.symm
    have := ih h.2
    simp only [MapVector.keys] at this
    simp [MapVector.assign, MapVector.keys, hk, this]

theorem MapVector.mem_keys_assign {V : Type} (M : MapVector V) (Key : String) (Value : V) :
    Key ∈ MapVector.keys (MapVector.assign M Key Value) := by
  by_cases h : Key ∈ MapVector.keys M
  · rw [MapVector.keys_assign_of_mem M Key Value h]; exact h
  · rw [MapVector.keys_assign_of_not_mem M Key Value h]; simp

theorem MapVector.keys_subset_assign {V : Type} (M : MapVector V) (Key : String) (Value : V)
    (K : String) (h : K ∈ MapVector.keys M) :
    K ∈ MapVector.keys (MapVector.assign M Key Value) := by
  by_cases hm : Key ∈ MapVector.keys M
  · rw [MapVector.keys_assign_of_mem M Key Value hm]; exact h
  · rw [MapVector.keys_assign_of_not_mem M Key Value hm]; simp [h]

theorem MapVector.nodup_keys_assign {V : Type} (M : MapVector V) (Key : String) (Value : V)
    (h : (MapVector.keys M).Nodup) :
    (MapVector.keys (MapVector.assign M Key Value)).Nodup := by
  by_cases hm : Key ∈ MapVector.keys M
  · rw [MapVector.keys_assign_of_mem M Key Value hm]; exact h
  · rw [MapVector.keys_assign_of_not_mem M Key Value hm]
    exact List.Nodup.append h (List.nodup_singleton Key) (by simpa using hm)

theorem MapVector.length_assign_of_mem {V : Type} (M : MapVector V) (Key : String) (Value : V)
    (h : Key ∈ MapVector.keys M) :
    (MapVector.assign M Key Value).length = M.length := by
  have := congrArg List.length (MapVector.keys_assign_of_mem M Key Value h)
  simpa [MapVector.keys] using this

theorem MapVector.lookup_assign_self {V : Type} (M : MapVector V) (Key : String) (Value : V) :
    MapVector.lookup (MapVector.assign M Key Value) Key = some Value := by
  induction M with
  | nil => simp [MapVector.assign, MapVector.lookup]
  | cons E Rest ih =>
    obtain ⟨K, V0⟩ := E
    by_cases hk : K = Key
    · simp [MapVector.assign, MapVector.lookup, hk]
    · simp [MapVector.assign, MapVector.lookup, hk, ih]

theorem MapVector.lookup_assign_of_ne {V : Type} (M : MapVector V) (Key K2 : String) (Value : V)
    (h : K2 ≠ Key) :
    MapVector.lookup (MapVector.assign M Key Value) K2 = MapVector.lookup M K2 := by
  induction M with
  | nil =>
    have : Key ≠ K2 := fun e => h e.symm
    simp [MapVector.assign, MapVector.lookup, this]
  | cons E Rest ih =>
    obtain ⟨K, V0⟩ := E
    by_cases hk : K = Key
    · have : K ≠ K2 := fun e => h (e.symm.trans hk)
      subst hk
      simp [MapVector.assign, MapVector.lookup, this]
    · by_cases hk2 : K = K2
      · subst hk2
        simp [MapVector.assign, MapVector.lookup, hk]
      · simp [MapVector.assign, MapVector.lookup, hk, hk2, ih]

theorem MapVector.mem_assign {V : Type} (M : MapVector V) (Key : String) (Value : V)
    (E : String × V) (h : E ∈ MapVector.assign M Key Value) :
    E ∈ M ∨ E = (Key, Value) := by
  induction M with
  | nil => simpa [MapVector.assign] using h
  | cons E0 Rest ih =>
    obtain ⟨K, V0⟩ := E0
    by_cases hk : K = Key
    · subst hk
      simp only [MapVector.assign, if_true, List.mem_cons] at h
      rcases h with h | h
      · exact Or.inr h
      · exact Or.inl (List.mem_cons_of_mem _ h)
    · simp only [MapVector.assign, hk, if_false, List.mem_cons] at h
      rcases h with h | h
      · exact Or.inl (h ▸ List.mem_cons_self _ _)
      · rcases ih h with h2 | h2
        · exact Or.inl (List.mem_cons_of_mem _ h2)
        · exact Or.inr h2

/-- After `M[Key] = Value` on a map with distinct keys, the entry at each
position is the old one, with the new value when its key is `Key`. -/
theorem MapVector.getElem?_assign {V : Type} (M : MapVector V) (Key : String) (Value : V)
    (hm : Key ∈ MapVector.keys M) (hn : (MapVector.keys M).Nodup) (i : Nat) (E : String × V)
    (h : M[i]? = some E) :
    (MapVector.assign M Key Value)[i]? = some (if E.1 = Key then (E.1, Value) else E) := by
  induction M generalizing i with
  | nil => simp at h
  | cons E0 Rest ih =>
    obtain ⟨K, V0⟩ := E0
    simp only [MapVector.keys, List.map_cons, List.nodup_cons] at hn
    by_cases hk : K = Key
    · subst hk
      cases i with
      | zero =>
        simp only [List.getElem?_cons_zero, Option.some.injEq] at h
        subst h
        simp [MapVector.assign]
      | succ j =>
        simp only [List.getElem?_cons_succ] at h
        have hE : E.1 ≠ K := by
          intro e
          apply hn.1
          rw [← e]
          exact List.mem_map_of_mem Prod.fst (List.getElem?_mem h)
        simp [MapVector.assign, h, hE]
    · have hr : Key ∈ MapVector.keys Rest := by
        simp only [MapVector.keys, List.map_cons, List.mem_cons] at hm
        rcases hm with hm | hm
        · exact absurd hm.symm hk
        · exact hm
      cases i with
      | zero =>
        simp only [List.getElem?_cons_zero, Option.some.injEq] at h
        subst h
        simp [MapVector.assign, hk]
      | succ j =>
        simp only [List.getElem?_cons_succ] at h
        have := ih hr hn.2 j h
        simp [MapVector.assign, hk, this]

/-! ## Lemmas on `FullDependencyConsumer` -/

theorem FullDependencyConsumer.handle_AlreadySeen (C : FullDependencyConsumer)
    (Call : ConsumerCall) : (C.handle Call).AlreadySeen = C.AlreadySeen := by
  cases Call <;> rfl

theorem FullDependencyConsumer.feed_AlreadySeen (C : FullDependencyConsumer)
    (Calls : List ConsumerCall) : (C.feed Calls).AlreadySeen = C.AlreadySeen := by
  induction Calls generalizing C with
  | nil => rfl
  | cons Call Rest ih =>
    simp only [FullDependencyConsumer.feed, List.foldl_cons]
    exact (ih (C.handle Call)).trans (C.handle_AlreadySeen Call)

/-- One call changes the module map by at most one assignment. -/
theorem FullDependencyConsumer.handle_ClangModuleDeps (C : FullDependencyConsumer)
    (Call : ConsumerCall) :
    (C.handle Call).ClangModuleDeps = C.ClangModuleDeps ∨
    ∃ MD, Call = .handleModuleDependency MD ∧
      (C.handle Call).ClangModuleDeps = MapVector.assign C.ClangModuleDeps MD.ID.key MD := by
  cases Call
  case handleModuleDependency MD => exact Or.inr ⟨MD, rfl, rfl⟩
  all_goals exact Or.inl rfl

/-- The keys of the module map stay distinct: every state built from the
constructor by handler calls satisfies the invariant of `llvm::MapVector`. -/
theorem FullDependencyConsumer.feed_nodup (C : FullDependencyConsumer)
    (Calls : List ConsumerCall) (h : (MapVector.keys C.ClangModuleDeps).Nodup) :
    (MapVector.keys (C.feed Calls).ClangModuleDeps).Nodup := by
  induction Calls generalizing C with
  | nil => exact h
  | cons Call Rest ih =>
    simp only [FullDependencyConsumer.feed, List.foldl_cons]
    apply ih
    rcases C.handle_ClangModuleDeps Call with e | ⟨MD, _, e⟩
    · rw [e]; exact h
    · rw [e]; exact MapVector.nodup_keys_assign _ _ _ h

theorem FullDependencyConsumer.feed_keys_mono (C : FullDependencyConsumer)
    (Calls : List ConsumerCall) (K : String) (h : K ∈ MapVector.keys C.ClangModuleDeps) :
    K ∈ MapVector.keys (C.feed Calls).ClangModuleDeps := by
  induction Calls generalizing C with
  | nil => exact h
  | cons Call Rest ih =>
    simp only [FullDependencyConsumer.feed, List.foldl_cons]
    apply ih
    rcases C.handle_ClangModuleDeps Call with e | ⟨MD, _, e⟩
    · rw [e]; exact h
    · rw [e]; exact MapVector.keys_subset_assign _ _ _ _ h

/-- Every reported module has its key in the map. -/
theorem FullDependencyConsumer.feed_reported_mem (C : FullDependencyConsumer)
    (Calls : List ConsumerCall) (MD : ModuleDeps)
    (h : ConsumerCall.handleModuleDependency MD ∈ Calls) :
    MD.ID.key ∈ MapVector.keys (C.feed Calls).ClangModuleDeps := by
  induction Calls generalizing C with
  | nil => simp at h
  | cons Call Rest ih =>
    simp only [FullDependencyConsumer.feed, List.foldl_cons]
    rcases List.mem_cons.mp h with h | h
    · apply FullDependencyConsumer.feed_keys_mono
      rw [← h]
      exact MapVector.mem_keys_assign _ _ _
    · exact ih (C.handle Call) h

/-- Every entry of the map is an old entry or a reported module under its
own key. -/
theorem FullDependencyConsumer.feed_mem (C : FullDependencyConsumer)
    (Calls : List ConsumerCall) (E : String × ModuleDeps)
    (h : E ∈ (C.feed Calls).ClangModuleDeps) :
    E ∈ C.ClangModuleDeps ∨
    (ConsumerCall.handleModuleDependency E.2 ∈ Calls ∧ E.1 = E.2.ID.key) := by
  induction Calls generalizing C with
  | nil => exact Or.inl h
  | cons Call Rest ih =>
    simp only [FullDependencyConsumer.feed, List.foldl_cons] at h
    rcases ih (C.handle Call) h with h1 | ⟨h1, h2⟩
    · rcases C.handle_ClangModuleDeps Call with e | ⟨MD, hc, e⟩
      · rw [e] at h1; exact Or.inl h1
      · rw [e] at h1
        rcases MapVector.mem_assign _ _ _ _ h1 with h3 | h3
        · exact Or.inl h3
        · subst h3
          exact Or.inr ⟨by simp [hc], rfl⟩
    · exact Or.inr ⟨List.mem_cons_of_mem _ h1, h2⟩

theorem ModuleID.key_data (ID : ModuleID) :
    ID.key.data = ID.ContextHash.data ++ ID.ModuleName.data := by
  simp [ModuleID.key]

/-! ## Lemmas on the scanning action and the worker -/

theorem diagnosticOutput_append (T1 T2 : List Event) :
    diagnosticOutput (T1 ++ T2) = diagnosticOutput T1 ++ diagnosticOutput T2 := by
  induction T1 with
  | nil => rfl
  | cons e T ih => cases e <;> simp [diagnosticOutput, ih]

theorem consumerCalls_append (T1 T2 : List Event) :
    consumerCalls (T1 ++ T2) = consumerCalls T1 ++ consumerCalls T2 := by
  induction T1 with
  | nil => rfl
  | cons e T ih => cases e <;> simp [consumerCalls, ih]

theorem buildCommands_append (L1 L2 : List ConsumerCall) :
    buildCommands (L1 ++ L2) = buildCommands L1 ++ buildCommands L2 := by
  induction L1 with
  | nil => rfl
  | cons c L ih => cases c <;> simp [buildCommands, ih]

theorem mem_diagnosticOutput (T : List Event) (D : Diagnostic) :
    D ∈ diagnosticOutput T ↔ Event.diag D ∈ T := by
  induction T with
  | nil => simp [diagnosticOutput]
  | cons e T ih => cases e <;> simp [diagnosticOutput, ih]

theorem buildCommands_of_fromScan (T : List Event) (h : ∀ e ∈ T, e.fromScan = true) :
    buildCommands (consumerCalls T) = [] := by
  induction T with
  | nil => rfl
  | cons e T ih =>
    have h1 := h e (List.mem_cons_self _ _)
    have h2 := ih (fun x hx => h x (List.mem_cons_of_mem _ hx))
    cases e
    case consumer Call =>
      cases Call <;> simp_all [consumerCalls, buildCommands, Event.fromScan]
    all_goals simpa [consumerCalls] using h2

theorem ModuleReport.toCall_fromScan (R : ModuleReport) :
    (Event.consumer R.toCall).fromScan = true := by
  cases R <;> rfl

theorem collectorEvents_fromScan (A : DependencyScanningAction) (B : ScanBehaviour)
    (K : CollectorKind) : (collectorEvents A B K).all Event.fromScan = true := by
  cases K
  case DependencyConsumerForwarder =>
    simp only [collectorEvents, DependencyConsumerForwarder.finishedMainFile]
    split_ifs <;> simp [List.all_append, List.all_map, Event.fromScan]
  case IncludeTreeCollector =>
    simp only [collectorEvents, IncludeTreeCollector.finishedMainFile]
    split_ifs <;> simp [List.all_append, List.all_map, Event.fromScan]
  case ModuleDepCollector =>
    simp only [collectorEvents, List.all_eq_true, List.mem_map]
    rintro e ⟨R, _, rfl⟩
    exact R.toCall_fromScan

theorem DependencyScanningAction.setLastCC1Arguments_Scanned (W : World)
    (A : DependencyScanningAction) (CI : CompilerInvocation) :
    (A.setLastCC1Arguments W CI).Scanned = A.Scanned := rfl

theorem DependencyScanningAction.addDependencyCollector_Scanned
    (A : DependencyScanningAction) (CI : CompilerInvocation) :
    (A.addDependencyCollector CI).1.Scanned = A.Scanned := by
  unfold DependencyScanningAction.addDependencyCollector
  cases A.Format <;> rfl

/-- After any call of `runInvocation` the action has scanned. -/
theorem DependencyScanningAction.runInvocation_Scanned (W : World)
    (A : DependencyScanningAction) (Invocation : CompilerInvocation) :
    (A.runInvocation W Invocation).Action.Scanned = true := by
  unfold DependencyScanningAction.runInvocation
  by_cases hS : A.Scanned = true
  · simp [hS, DependencyScanningAction.setLastCC1Arguments_Scanned]
  · simp only [hS]
    by_cases hD : (W.scan Invocation).hasDiagnostics = true
    · by_cases hR : (W.scan Invocation).Result = true
      · simp [hD, hR, DependencyScanningAction.setLastCC1Arguments_Scanned,
          DependencyScanningAction.addDependencyCollector_Scanned]
      · simp [hD, hR, DependencyScanningAction.addDependencyCollector_Scanned]
    · simp [hD]

/-- On an action that has scanned, `runInvocation` only recomputes the last
cc1 arguments and returns true. -/
theorem DependencyScanningAction.runInvocation_of_Scanned (W : World)
    (A : DependencyScanningAction) (Invocation : CompilerInvocation) (h : A.Scanned = true) :
    (A.runInvocation W Invocation).Result = true ∧
    (A.runInvocation W Invocation).Events = [] ∧
    (A.runInvocation W Invocation).Action =
      A.setLastCC1Arguments W { Invocation with DisableFree := A.DisableFree } := by
  unfold DependencyScanningAction.runInvocation
  simp [h]

/-- The steps of a `runInvocation` call contain no `handleBuildCommand` call
and no expected-compiler-job diagnostic. -/
theorem DependencyScanningAction.runInvocation_fromScan (W : World)
    (A : DependencyScanningAction) (Invocation : CompilerInvocation) :
    (A.runInvocation W Invocation).Events.all Event.fromScan = true := by
  unfold DependencyScanningAction.runInvocation
  by_cases hS : A.Scanned = true
  · simp [hS]
  · simp only [hS]
    by_cases hD : (W.scan Invocation).hasDiagnostics = true
    · simp only [hD, Bool.not_true, Bool.false_eq_true, if_false, List.all_append,
        collectorEvents_fromScan, Bool.and_eq_true]
      and_intros
      all_goals first
        | (simp [Event.fromScan, List.all_map]; done)
        | (split_ifs <;> simp [Event.fromScan]; done)
        | (split_ifs <;>
            first
              | (simp [Event.fromScan]; done)
              | (cases (W.scan Invocation).Tree <;> simp [Event.fromScan]))
    · simp only [hD, Bool.not_false, if_true, List.all_append, Bool.and_eq_true]
      simp [Event.fromScan]

/-- A job that the `clang` tool did not create is reported as it is and the
action is not touched. -/
theorem jobCallback_of_not_clang (W : World) (Cmd : driver.Command) (S : ScanState)
    (h : Cmd.CreatorName ≠ "clang") :
    jobCallback W Cmd S =
      (true, { Action := S.Action,
               Trace := S.Trace ++
                 [Event.consumer (.handleBuildCommand
                   { Executable := Cmd.Executable, Arguments := Cmd.Arguments })] }) := by
  simp [jobCallback, h]

/-- The steps of one job callback: steps that are no build command and no
expected-compiler-job diagnostic, followed, when the callback succeeds, by
one `handleBuildCommand` call with the executable of the job. -/
theorem jobCallback_trace (W : World) (Cmd : driver.Command) (S : ScanState) :
    ∃ (New : List Event) (Args : List String), New.all Event.fromScan = true ∧
      (jobCallback W Cmd S).2.Trace = S.Trace ++ New ++
        (if (jobCallback W Cmd S).1 = true then
          [Event.consumer (.handleBuildCommand { Executable := Cmd.Executable, Arguments := Args })]
         else []) := by
  by_cases h : Cmd.CreatorName ≠ "clang"
  · exact ⟨[], Cmd.Arguments, rfl, by simp [jobCallback_of_not_clang W Cmd S h]⟩
  · have hc : Cmd.CreatorName = "clang" := not_not.mp h
    unfold jobCallback
    simp only [hc, ne_eq, not_true_eq_false, if_false]
    cases hI : (W.newInvocation (Cmd.Executable :: Cmd.Arguments)).2 with
    | none =>
      exact ⟨(W.newInvocation (Cmd.Executable :: Cmd.Arguments)).1.map
        (fun T => Event.diag (.collaborator T)), [],
        by simp [List.all_map, Event.fromScan], by simp⟩
    | some Invocation =>
      refine ⟨(W.newInvocation (Cmd.Executable :: Cmd.Arguments)).1.map
        (fun T => Event.diag (.collaborator T)) ++ (S.Action.runInvocation W Invocation).Events,
        (S.Action.runInvocation W Invocation).Action.takeLastCC1Arguments.1, ?_, ?_⟩
      · rw [List.all_append, DependencyScanningAction.runInvocation_fromScan]
        simp [List.all_map, Event.fromScan]
      · by_cases hR : (S.Action.runInvocation W Invocation).Result = true
        · simp [hR, List.append_assoc]
        · simp [hR, List.append_assoc]

theorem forEachDriverJob.loop_append (Callback : driver.Command → ScanState → Bool × ScanState)
    (Pre Post : List driver.Command) (S : ScanState)
    (h : (forEachDriverJob.loop Callback Pre S).1 = true) :
    forEachDriverJob.loop Callback (Pre ++ Post) S =
      forEachDriverJob.loop Callback Post (forEachDriverJob.loop Callback Pre S).2 := by
  induction Pre generalizing S with
  | nil => rfl
  | cons Job Rest ih =>
    by_cases hJ : (Callback Job S).1 = true
    · simp only [List.cons_append, forEachDriverJob.loop, hJ, if_true] at h ⊢
      exact ih _ h
    · simp [forEachDriverJob.loop, hJ] at h

/-- When the loop over the jobs succeeds, the build commands received carry
the executables of the jobs, in job order. -/
theorem forEachDriverJob.loop_buildCommands (W : World) (Jobs : List driver.Command)
    (S : ScanState) (h : (forEachDriverJob.loop (jobCallback W) Jobs S).1 = true) :
    (buildCommands (consumerCalls (forEachDriverJob.loop (jobCallback W) Jobs S).2.Trace)).map
        Command.Executable =
      (buildCommands (consumerCalls S.Trace)).map Command.Executable ++
        Jobs.map driver.Command.Executable := by
  induction Jobs generalizing S with
  | nil => simp [forEachDriverJob.loop]
  | cons Job Rest ih =>
    by_cases hJ : (jobCallback W Job S).1 = true
    · simp only [forEachDriverJob.loop, hJ, if_true] at h ⊢
      rw [ih _ h]
      obtain ⟨New, Args, hNew, hT⟩ := jobCallback_trace W Job S
      rw [hT]
      simp only [hJ, if_true, consumerCalls_append, buildCommands_append, List.map_append,
        buildCommands_of_fromScan New (by simpa [List.all_eq_true] using hNew)]
      simp [consumerCalls, buildCommands]
    · simp [forEachDriverJob.loop, hJ] at h

/-- The loop over the jobs reports no expected-compiler-job diagnostic. -/
theorem forEachDriverJob.loop_no_expected_job_diag (W : World) (Jobs : List driver.Command)
    (S : ScanState) (Text : String)
    (h : Event.diag (.err_fe_expected_compiler_job Text) ∉ S.Trace) :
    Event.diag (.err_fe_expected_compiler_job Text) ∉
      (forEachDriverJob.loop (jobCallback W) Jobs S).2.Trace := by
  induction Jobs generalizing S with
  | nil => simpa [forEachDriverJob.loop] using h
  | cons Job Rest ih =>
    have hstep : Event.diag (.err_fe_expected_compiler_job Text) ∉ (jobCallback W Job S).2.Trace := by
      obtain ⟨New, Args, hNew, hT⟩ := jobCallback_trace W Job S
      rw [hT]
      simp only [List.mem_append, not_or]
      refine ⟨⟨h, ?_⟩, ?_⟩
      · intro hm
        have := List.all_eq_true.mp hNew _ hm
        simp [Event.fromScan] at this
      · split_ifs <;> simp
    by_cases hJ : (jobCallback W Job S).1 = true
    · simp only [forEachDriverJob.loop, hJ, if_true]
      exact ih _ hstep
    · simpa [forEachDriverJob.loop, hJ] using hstep

/-- A loop over jobs that the `clang` tool did not create succeeds, reports
each job as it is, and does not touch the action. -/
theorem forEachDriverJob.loop_of_not_clang (W : World) (Jobs : List driver.Command)
    (S : ScanState) (h : ∀ J ∈ Jobs, J.CreatorName ≠ "clang") :
    forEachDriverJob.loop (jobCallback W) Jobs S =
      (true, { Action := S.Action,
               Trace := S.Trace ++ Jobs.map (fun J =>
                 Event.consumer (.handleBuildCommand
                   { Executable := J.Executable, Arguments := J.Arguments })) }) := by
  induction Jobs generalizing S with
  | nil => simp [forEachDriverJob.loop]
  | cons Job Rest ih =>
    have hJ := jobCallback_of_not_clang W Job S (h Job (List.mem_cons_self _ _))
    simp only [forEachDriverJob.loop, hJ, if_true]
    rw [ih _ (fun J hm => h J (List.mem_cons_of_mem _ hm))]
    simp

theorem FullDependencyConsumer.feed_Commands (C : FullDependencyConsumer)
    (Calls : List ConsumerCall) :
    (C.feed Calls).Commands = C.Commands ++ buildCommands Calls := by
  induction Calls generalizing C with
  | nil => simp [FullDependencyConsumer.feed, buildCommands]
  | cons Call Rest ih =>
    have := ih (C.handle Call)
    simp only [FullDependencyConsumer.feed, List.foldl_cons] at this ⊢
    rw [this]
    cases Call <;>
      simp [FullDependencyConsumer.handle, buildCommands,
        FullDependencyConsumer.handleBuildCommand, FullDependencyConsumer.handleFileDependency,
        FullDependencyConsumer.handlePrebuiltModuleDependency,
        FullDependencyConsumer.handleModuleDependency, FullDependencyConsumer.handleContextHash,
        FullDependencyConsumer.handleCASFileSystemRootID]

/-- The expected-compiler-job diagnostic that `runJobs` may add changes
neither the result, nor the action, nor the calls that the consumer received. -/
theorem DependencyScanningWorker.runJobs_eq (W : World) (Worker : DependencyScanningWorker)
    (WorkingDirectory : String) (CommandLine : List String) (ModuleName : Option String) :
    (Worker.runJobs W WorkingDirectory CommandLine ModuleName).1 =
      (forEachDriverJob W (FinalCommandLine CommandLine ModuleName) (jobCallback W)
        { Action := Worker.newAction WorkingDirectory ModuleName, Trace := [] }).1 ∧
    (Worker.runJobs W WorkingDirectory CommandLine ModuleName).2.Action =
      (forEachDriverJob W (FinalCommandLine CommandLine ModuleName) (jobCallback W)
        { Action := Worker.newAction WorkingDirectory ModuleName, Trace := [] }).2.Action ∧
    consumerCalls (Worker.runJobs W WorkingDirectory CommandLine ModuleName).2.Trace =
      consumerCalls (forEachDriverJob W (FinalCommandLine CommandLine ModuleName) (jobCallback W)
        { Action := Worker.newAction WorkingDirectory ModuleName, Trace := [] }).2.Trace := by
  unfold DependencyScanningWorker.runJobs
  simp only []
  split_ifs <;> simp [consumerCalls_append, consumerCalls]

theorem DependencyScanningWorker.computeDependencies_trace (W : World)
    (Worker : DependencyScanningWorker) (WorkingDirectory : String) (CommandLine : List String)
    (ModuleName : Option String) :
    (Worker.computeDependencies W WorkingDirectory CommandLine ModuleName).2 =
      (Worker.runJobs W WorkingDirectory CommandLine ModuleName).2.Trace := by
  unfold DependencyScanningWorker.computeDependencies
  simp only []
  split_ifs <;> rfl

/-- The result is success exactly when the body of `runWithDiags` returns
true. -/
theorem DependencyScanningWorker.computeDependencies_success_iff (W : World)
    (Worker : DependencyScanningWorker) (WorkingDirectory : String) (CommandLine : List String)
    (ModuleName : Option String) :
    (Worker.computeDependencies W WorkingDirectory CommandLine ModuleName).1 = LLVMError.success ↔
      ((forEachDriverJob W (FinalCommandLine CommandLine ModuleName) (jobCallback W)
        { Action := Worker.newAction WorkingDirectory ModuleName, Trace := [] }).1 = true ∧
       (forEachDriverJob W (FinalCommandLine CommandLine ModuleName) (jobCallback W)
        { Action := Worker.newAction WorkingDirectory ModuleName, Trace := [] }).2.Action.hasScanned
          = true) := by
  obtain ⟨h1, h2, _⟩ := Worker.runJobs_eq W WorkingDirectory CommandLine ModuleName
  unfold DependencyScanningWorker.computeDependencies
  simp only []
  rw [h1, h2]
  split_ifs with h
  · simpa using h
  · simpa using h

/-- A successful `forEachDriverJob` had a compilation and ran the loop over
its jobs. -/
theorem forEachDriverJob_of_true (W : World) (Args : List String) (S : ScanState)
    (h : (forEachDriverJob W Args (jobCallback W) S).1 = true) :
    ∃ Jobs : List driver.Command, (W.BuildCompilation Args).2 = some Jobs ∧
      forEachDriverJob W Args (jobCallback W) S =
        forEachDriverJob.loop (jobCallback W) Jobs
          { Action := S.Action,
            Trace := S.Trace ++ (W.BuildCompilation Args).1.map
              (fun T => Event.diag (.collaborator T)) } := by
  unfold forEachDriverJob at h ⊢
  cases hB : (W.BuildCompilation Args).2 with
  | none => simp [hB] at h
  | some Jobs => exact ⟨Jobs, rfl, rfl⟩

/-! ## Lemmas on paths -/

theorem is_separator_iff (c : Char) : is_separator c = true ↔ c = '/' := by
  simp [is_separator]

theorem pathComponents_ne_nil (p : List Char) : pathComponents p ≠ [] := by
  cases p with
  | nil => simp [pathComponents]
  | cons c rest =>
    simp only [pathComponents]
    split_ifs
    · simp
    · split <;> simp

theorem pathComponents_cons_of_ne (c : Char) (rest : List Char) (h : c ≠ '/') :
    ∃ first others, pathComponents rest = first :: others ∧
      pathComponents (c :: rest) = (c :: first) :: others := by
  cases hr : pathComponents rest with
  | nil => exact absurd hr (pathComponents_ne_nil rest)
  | cons first others =>
    refine ⟨first, others, rfl, ?_⟩
    simp [pathComponents, is_separator, h, hr]

theorem pathComponents_cons_sep (rest : List Char) :
    pathComponents ('/' :: rest) = [] :: pathComponents rest := by
  simp [pathComponents, is_separator]

theorem pathComponents_no_sep (p : List Char) : ∀ c ∈ pathComponents p, '/' ∉ c := by
  induction p with
  | nil => simp [pathComponents]
  | cons x rest ih =>
    by_cases hx : x = '/'
    · subst hx
      rw [pathComponents_cons_sep]
      intro c hc
      rcases List.mem_cons.mp hc with h | h
      · subst h; simp
      · exact ih c h
    · obtain ⟨first, others, h1, h2⟩ := pathComponents_cons_of_ne x rest hx
      rw [h2]
      rw [h1] at ih
      intro c hc
      rcases List.mem_cons.mp hc with h | h
      · subst h
        have := ih first (List.mem_cons_self _ _)
        simp only [List.mem_cons, not_or]
        exact ⟨fun e => hx e.symm, this⟩
      · exact ih c (List.mem_cons_of_mem _ h)

/-- The pieces of two paths joined by a separator are the pieces of the one
followed by the pieces of the other. -/
theorem pathComponents_append_sep (a b : List Char) :
    pathComponents (a ++ '/' :: b) = pathComponents a ++ pathComponents b := by
  induction a with
  | nil => simp [pathComponents, is_separator]
  | cons x rest ih =>
    by_cases hx : x = '/'
    · subst hx
      rw [List.cons_append, pathComponents_cons_sep, pathComponents_cons_sep, ih]
      rfl
    · obtain ⟨first, others, h1, h2⟩ := pathComponents_cons_of_ne x rest hx
      obtain ⟨first2, others2, h3, h4⟩ := pathComponents_cons_of_ne x (rest ++ '/' :: b) hx
      rw [List.cons_append, h4, h2]
      rw [ih, h1] at h3
      simp only [List.cons_append, List.cons.injEq] at h3
      rw [← h3.1, ← h3.2]
      rfl

theorem pathComponents_of_no_sep (c : List Char) (h : '/' ∉ c) : pathComponents c = [c] := by
  induction c with
  | nil => rfl
  | cons x rest ih =>
    simp only [List.mem_cons, not_or] at h
    obtain ⟨first, others, h1, h2⟩ := pathComponents_cons_of_ne x rest (fun e => h.1 e.symm)
    rw [h2]
    rw [ih h.2] at h1
    simp only [List.cons.injEq] at h1
    rw [← h1.1, ← h1.2]

theorem joinComponents_cons_cons (c d : List Char) (rest : List (List Char)) :
    joinComponents (c :: d :: rest) = c ++ '/' :: joinComponents (d :: rest) := rfl

/-- Splitting the joined components gives them back. -/
theorem pathComponents_joinComponents (cs : List (List Char)) (hne : cs ≠ [])
    (h : ∀ c ∈ cs, '/' ∉ c) : pathComponents (joinComponents cs) = cs := by
  induction cs with
  | nil => exact absurd rfl hne
  | cons c rest ih =>
    cases rest with
    | nil => exact pathComponents_of_no_sep c (h c (List.mem_cons_self _ _))
    | cons d rest2 =>
      rw [joinComponents_cons_cons, pathComponents_append_sep,
        pathComponents_of_no_sep c (h c (List.mem_cons_self _ _)),
        ih (by simp) (fun x hx => h x (List.mem_cons_of_mem _ hx))]
      rfl

theorem joinComponents_append (as bs : List (List Char)) (ha : as ≠ []) (hb : bs ≠ []) :
    joinComponents (as ++ bs) = joinComponents as ++ '/' :: joinComponents bs := by
  induction as with
  | nil => exact absurd rfl ha
  | cons c rest ih =>
    cases rest with
    | nil =>
      cases bs with
      | nil => exact absurd rfl hb
      | cons d bs2 => rfl
    | cons d rest2 =>
      rw [List.cons_append, List.cons_append, joinComponents_cons_cons,
        ← List.cons_append, ih (by simp), joinComponents_cons_cons]
      simp

theorem cleanComponent_dot_dot : cleanComponent ['.', '.'] := by
  refine ⟨by simp, by simp, ?_⟩
  decide

theorem remove_dots.step_wellStacked (absolute : Bool) (s : List (List Char)) (c : List Char)
    (hs : wellStacked s) (hc : '/' ∉ c) : wellStacked (remove_dots.step true absolute s c) := by
  unfold remove_dots.step
  by_cases h1 : c = [] ∨ c = ['.']
  · simp only [h1, if_true]; exact hs
  · simp only [h1, if_false]
    have hclean : cleanComponent c := ⟨fun e => h1 (Or.inl e), fun e => h1 (Or.inr e), hc⟩
    by_cases h2 : c = ['.', '.']
    · simp only [h2, and_self, if_true]
      cases s with
      | nil =>
        cases absolute
        · simp [wellStacked, cleanComponent_dot_dot]
        · simp [wellStacked]
      | cons back below =>
        simp only [wellStacked] at hs
        by_cases h3 : back = ['.', '.']
        · cases absolute
          · simp only [h3, ne_eq, not_true_eq_false, if_false, Bool.false_eq_true, wellStacked]
            refine ⟨cleanComponent_dot_dot, ⟨cleanComponent_dot_dot, hs.2.1, ?_⟩, ?_⟩
            · intro _; exact hs.2.2 h3
            · intro _ d hd
              rcases List.mem_cons.mp hd with h | h
              · exact h
              · exact hs.2.2 h3 d h
          · simp only [h3, ne_eq, not_true_eq_false, if_false, if_true, wellStacked]
            exact ⟨cleanComponent_dot_dot, hs.2.1, fun _ => hs.2.2 h3⟩
        · simp only [ne_eq, h3, not_false_eq_true, if_true]
          exact hs.2.1
    · simp only [h2, and_false, if_false]
      show cleanComponent c ∧ wellStacked s ∧ (c = ['.', '.'] → ∀ d ∈ s, d = ['.', '.'])
      exact ⟨hclean, hs, fun e => absurd e h2⟩

theorem remove_dots.step_names (s : List (List Char)) (c : List Char)
    (hs : ∀ d ∈ s, nameComponent d) (hc : '/' ∉ c) :
    ∀ d ∈ remove_dots.step true true s c, nameComponent d := by
  unfold remove_dots.step
  by_cases h1 : c = [] ∨ c = ['.']
  · simp only [h1, if_true]; exact hs
  · simp only [h1, if_false]
    by_cases h2 : c = ['.', '.']
    · simp only [h2, and_self, if_true]
      cases s with
      | nil => simp
      | cons back below =>
        by_cases h3 : back = ['.', '.']
        · simp only [h3, ne_eq, not_true_eq_false, if_false, if_true]
          rw [← h3]; exact hs
        · simp only [ne_eq, h3, not_false_eq_true, if_true]
          exact fun d hd => hs d (List.mem_cons_of_mem _ hd)
    · simp only [h2, and_false, if_false]
      intro d hd
      rcases List.mem_cons.mp hd with h | h
      · subst h
        exact ⟨⟨fun e => h1 (Or.inl e), fun e => h1 (Or.inr e), hc⟩, h2⟩
      · exact hs d h

theorem remove_dots.step_of_name (remove_dot_dot absolute : Bool) (s : List (List Char))
    (c : List Char) (hc : nameComponent c) :
    remove_dots.step remove_dot_dot absolute s c = c :: s := by
  unfold remove_dots.step
  have h1 : ¬ (c = [] ∨ c = ['.']) := fun h => h.elim hc.1.1 hc.1.2.1
  simp [h1, hc.2]

theorem remove_dots.foldl_wellStacked (absolute : Bool) (pieces : List (List Char))
    (s : List (List Char)) (hs : wellStacked s) (hp : ∀ c ∈ pieces, '/' ∉ c) :
    wellStacked (pieces.foldl (remove_dots.step true absolute) s) := by
  induction pieces generalizing s with
  | nil => exact hs
  | cons c rest ih =>
    exact ih _ (remove_dots.step_wellStacked absolute s c hs (hp c (List.mem_cons_self _ _)))
      (fun d hd => hp d (List.mem_cons_of_mem _ hd))

theorem remove_dots.foldl_names (pieces : List (List Char)) (s : List (List Char))
    (hs : ∀ d ∈ s, nameComponent d) (hp : ∀ c ∈ pieces, '/' ∉ c) :
    ∀ d ∈ pieces.foldl (remove_dots.step true true) s, nameComponent d := by
  induction pieces generalizing s with
  | nil => exact hs
  | cons c rest ih =>
    exact ih _ (remove_dots.step_names s c hs (hp c (List.mem_cons_self _ _)))
      (fun d hd => hp d (List.mem_cons_of_mem _ hd))

theorem remove_dots.foldl_of_names (remove_dot_dot absolute : Bool) (pieces : List (List Char))
    (s : List (List Char)) (hp : ∀ c ∈ pieces, nameComponent c) :
    pieces.foldl (remove_dots.step remove_dot_dot absolute) s = pieces.reverse ++ s := by
  induction pieces generalizing s with
  | nil => rfl
  | cons c rest ih =>
    rw [List.foldl_cons, remove_dots.step_of_name _ _ s c (hp c (List.mem_cons_self _ _)),
      ih _ (fun d hd => hp d (List.mem_cons_of_mem _ hd))]
    simp

theorem dotFree_cons_sep (x : List Char) : dotFree ('/' :: x) ↔ dotFree x := by
  unfold dotFree
  rw [pathComponents_cons_sep]
  simp

theorem dotFree_append_sep (a b : List Char) :
    dotFree (a ++ '/' :: b) ↔ dotFree a ∧ dotFree b := by
  unfold dotFree
  rw [pathComponents_append_sep]
  simp only [List.mem_append]
  constructor
  · intro h
    exact ⟨fun c hc => h c (Or.inl hc), fun c hc => h c (Or.inr hc)⟩
  · rintro ⟨h1, h2⟩ c (hc | hc)
    · exact h1 c hc
    · exact h2 c hc

theorem dotFree_nil : dotFree [] := by
  decide

theorem dotFree_joinComponents (ns : List (List Char)) (h : ∀ c ∈ ns, nameComponent c) :
    dotFree (joinComponents ns) := by
  cases ns with
  | nil => exact dotFree_nil
  | cons c rest =>
    unfold dotFree
    rw [pathComponents_joinComponents _ (by simp) (fun x hx => (h x hx).1.2.2)]
    intro d hd
    exact ⟨(h d hd).1.2.1, (h d hd).2⟩

/-- A stack whose lowest component is not `..` holds names only. -/
theorem wellStacked_names (s : List (List Char)) (hs : wellStacked s)
    (hb : s.getLast? ≠ some ['.', '.']) : ∀ d ∈ s, nameComponent d := by
  induction s with
  | nil => simp
  | cons c below ih =>
    obtain ⟨hc, hbelow, hdots⟩ := hs
    cases below with
    | nil =>
      intro d hd
      simp only [List.mem_singleton] at hd
      subst hd
      exact ⟨hc, fun e => hb (by simp [e])⟩
    | cons b below2 =>
      have hb2 : (b :: below2).getLast? ≠ some ['.', '.'] := by
        simpa [List.getLast?_cons_cons] using hb
      have hnames := ih hbelow hb2
      intro d hd
      rcases List.mem_cons.mp hd with h | h
      · subst h
        refine ⟨hc, fun e => ?_⟩
        exact (hnames b (List.mem_cons_self _ _)).2 (hdots e b (List.mem_cons_self _ _))
      · exact hnames d h

theorem joinComponents_head (ns : List (List Char)) (h : ∀ c ∈ ns, cleanComponent c) :
    (joinComponents ns).head? ≠ some '/' := by
  cases ns with
  | nil => simp [joinComponents]
  | cons c rest =>
    obtain ⟨hne, _, hsep⟩ := h c (List.mem_cons_self _ _)
    cases c with
    | nil => exact absurd rfl hne
    | cons x xs =>
      have hx : x ≠ '/' := fun e => hsep (by simp [e])
      cases rest with
      | nil => simpa [joinComponents] using hx
      | cons d rest2 => simpa [joinComponents] using hx

theorem joinComponents_ne_nil (ns : List (List Char)) (hne : ns ≠ [])
    (h : ∀ c ∈ ns, cleanComponent c) : joinComponents ns ≠ [] := by
  cases ns with
  | nil => exact absurd rfl hne
  | cons c rest =>
    have hc := (h c (List.mem_cons_self _ _)).1
    cases rest with
    | nil => simpa [joinComponents] using hc
    | cons d rest2 => simp [joinComponents]

theorem joinComponents_getLast (ns : List (List Char)) (hne : ns ≠ [])
    (h : ∀ c ∈ ns, cleanComponent c) : (joinComponents ns).getLast? ≠ some '/' := by
  induction ns with
  | nil => exact absurd rfl hne
  | cons c rest ih =>
    cases rest with
    | nil =>
      intro e
      exact (h c (List.mem_cons_self _ _)).2.2 (List.mem_of_getLast?_eq_some e)
    | cons d rest2 =>
      have hrest : ∀ x ∈ d :: rest2, cleanComponent x := fun x hx => h x (List.mem_cons_of_mem _ hx)
      have hn := joinComponents_ne_nil (d :: rest2) (by simp) hrest
      rw [joinComponents_cons_cons]
      have : (c ++ '/' :: joinComponents (d :: rest2)).getLast? =
          (joinComponents (d :: rest2)).getLast? := by
        cases hj : joinComponents (d :: rest2) with
        | nil => exact absurd hj hn
        | cons y ys =>
          rw [show c ++ '/' :: y :: ys = (c ++ ['/']) ++ (y :: ys) by simp]
          rw [List.getLast?_append_of_ne_nil _ (by simp)]
      rw [this]
      exact ih (by simp) hrest

theorem dropWhile_is_separator (q : List Char) (h : q.head? ≠ some '/') :
    q.dropWhile is_separator = q := by
  cases q with
  | nil => rfl
  | cons x xs =>
    have hx : x ≠ '/' := by simpa using h
    simp [List.dropWhile_cons, is_separator, hx]

theorem wellStacked_clean (s : List (List Char)) (hs : wellStacked s) :
    ∀ c ∈ s, cleanComponent c := by
  induction s with
  | nil => simp
  | cons c below ih =>
    intro d hd
    rcases List.mem_cons.mp hd with h | h
    · subst h; exact hs.1
    · exact ih hs.2.1 d h

/-- The characters before the first separator, and what follows them. -/
theorem takeWhile_not_separator (n t : List Char) (hn : '/' ∉ n)
    (ht : t = [] ∨ ∃ t1, t = '/' :: t1) :
    (n ++ t).takeWhile (fun c => !is_separator c) = n ∧
    (n ++ t).dropWhile (fun c => !is_separator c) = t := by
  induction n with
  | nil =>
    rcases ht with rfl | ⟨t1, rfl⟩
    · simp
    · simp [List.takeWhile_cons, List.dropWhile_cons, is_separator]
  | cons x xs ih =>
    simp only [List.mem_cons, not_or] at hn
    have hx : x ≠ '/' := fun e => hn.1 e.symm
    obtain ⟨h1, h2⟩ := ih hn.2
    simp only [is_separator] at h1 h2
    simp [List.takeWhile_cons, List.dropWhile_cons, is_separator, hx, h1, h2]

/-- The first component of a path that begins with exactly two separators is
the network root name. -/
theorem find_first_component_net (n t : List Char) (hne : n ≠ []) (hn : '/' ∉ n)
    (ht : t = [] ∨ ∃ t1, t = '/' :: t1) :
    find_first_component ('/' :: '/' :: (n ++ t)) = '/' :: '/' :: n := by
  cases n with
  | nil => exact absurd rfl hne
  | cons x xs =>
    have hx : x ≠ '/' := fun e => hn (by simp [e])
    have h := (takeWhile_not_separator (x :: xs) t hn ht).1
    simp only [List.cons_append] at h ⊢
    simp only [find_first_component, is_separator, decide_True, beq_self_eq_true, Bool.and_self,
      hx, decide_False, Bool.not_false, if_true]
    simp only [is_separator] at h
    rw [h]

/-- The roots of a path with a network root name. -/
theorem root_net (n t : List Char) (hne : n ≠ []) (hn : '/' ∉ n)
    (ht : t = [] ∨ ∃ t1, t = '/' :: t1) :
    root_name ('/' :: '/' :: (n ++ t)) = '/' :: '/' :: n ∧
    root_directory ('/' :: '/' :: (n ++ t)) = (if t = [] then [] else ['/']) ∧
    root_path ('/' :: '/' :: (n ++ t)) = '/' :: '/' :: n ++ (if t = [] then [] else ['/']) := by
  have hf := find_first_component_net n t hne hn ht
  have hnet : has_net ('/' :: '/' :: n) = true := by
    cases n with
    | nil => exact absurd rfl hne
    | cons x xs => simp [has_net, is_separator]
  have hdrop : ('/' :: '/' :: (n ++ t)).drop ('/' :: '/' :: n).length = t := by
    simp
  unfold root_name root_directory root_path
  rw [hf]
  simp only [hnet, if_true, hdrop]
  rcases ht with rfl | ⟨t1, rfl⟩
  · simp
  · simp [is_separator, List.take_append_eq_append_take]

/-- A path that does not begin with a separator has no root. -/
theorem root_of_relative (p : List Char) (h : p.head? ≠ some '/') :
    root_name p = [] ∧ root_directory p = [] ∧ root_path p = [] := by
  have key : ∀ (x : Char) (rest : List Char), x ≠ '/' →
      has_net (find_first_component (x :: rest)) = false ∧
      ∃ ys, find_first_component (x :: rest) = x :: ys := by
    intro x rest hx
    have e : find_first_component (x :: rest) =
        (x :: rest).takeWhile (fun c => !is_separator c) := by
      rcases rest with _ | ⟨c1, _ | ⟨c2, rest2⟩⟩ <;>
        simp [find_first_component, is_separator, hx]
    rw [e]
    simp only [List.takeWhile_cons, is_separator, hx, decide_False, Bool.not_false, if_true]
    refine ⟨?_, _, rfl⟩
    rcases List.takeWhile (fun c => !decide (c = '/')) rest with _ | ⟨a, _ | ⟨b, r⟩⟩ <;>
      simp [has_net, is_separator, hx]
  cases p with
  | nil => simp [root_name, root_directory, root_path, find_first_component, has_net]
  | cons x rest =>
    have hx : x ≠ '/' := by simpa using h
    obtain ⟨h1, ys, h2⟩ := key x rest hx
    rw [h2] at h1
    unfold root_name root_directory root_path
    simp [h1, h2, is_separator, hx]

/-- A path that begins with a separator has a network root name, or its root
is the single separator. -/
theorem root_cases (rest : List Char) :
    (∃ n t, n ≠ [] ∧ '/' ∉ n ∧ (t = [] ∨ ∃ t1, t = '/' :: t1) ∧
      '/' :: rest = '/' :: '/' :: (n ++ t)) ∨
    (root_name ('/' :: rest) = [] ∧ root_directory ('/' :: rest) = ['/'] ∧
      root_path ('/' :: rest) = ['/']) := by
  rcases rest with _ | ⟨c1, _ | ⟨c2, rest2⟩⟩
  · right
    simp [root_name, root_directory, root_path, find_first_component, has_net, is_separator]
  · right
    simp [root_name, root_directory, root_path, find_first_component, has_net, is_separator]
  · by_cases h : c1 = '/' ∧ c2 ≠ '/'
    · left
      obtain ⟨rfl, h2⟩ := h
      refine ⟨(c2 :: rest2).takeWhile (fun c => !is_separator c),
        (c2 :: rest2).dropWhile (fun c => !is_separator c), ?_, ?_, ?_, ?_⟩
      · simp [List.takeWhile_cons, is_separator, h2]
      · intro hm
        have := List.mem_takeWhile_imp hm
        simp [is_separator] at this
      · cases hd : (c2 :: rest2).dropWhile (fun c => !is_separator c) with
        | nil => exact Or.inl rfl
        | cons y ys =>
          right
          have := List.head_dropWhile_not (fun c => !is_separator c) (c2 :: rest2)
            (by rw [hd]; simp)
          simp only [hd, List.head_cons] at this
          simp only [is_separator, Bool.not_eq_true, Bool.not_eq_false', Bool.not_not,
            decide_eq_true_eq] at this
          exact ⟨ys, by rw [this]⟩
      · rw [List.takeWhile_append_dropWhile]
    · right
      have hf : find_first_component ('/' :: c1 :: c2 :: rest2) = ['/'] := by
        simp only [find_first_component, is_separator, decide_True, Bool.true_and, if_true]
        by_cases h1 : c1 = '/'
        · have h2 : c2 = '/' := by
            by_contra hc; exact h ⟨h1, hc⟩
          simp [h1, h2]
        · have : ('/' == c1) = false := by simpa using fun e => h1 e.symm
          simp [this]
      simp [root_name, root_directory, root_path, hf, has_net, is_separator]

/-- A path has a root directory when it begins with a separator and is not a
bare network root name. -/
theorem has_root_directory_iff (p : List Char) :
    has_root_directory p = true ↔
      ∃ rest, p = '/' :: rest ∧ ∀ n, rest = '/' :: n → n = [] ∨ '/' ∈ n := by
  unfold has_root_directory
  rw [decide_eq_true_eq]
  cases p with
  | nil => simp [(root_of_relative [] (by simp)).2.1]
  | cons c rest =>
    by_cases hc : c = '/'
    · subst hc
      rcases root_cases rest with ⟨n, t, hne, hn, ht, he⟩ | ⟨_, h2, _⟩
      · rw [he, (root_net n t hne hn ht).2.1]
        constructor
        · intro h
          refine ⟨_, rfl, ?_⟩
          intro m hm
          right
          have ht2 : t ≠ [] := by
            intro e; simp [e] at h
          rcases ht with e | ⟨t1, e⟩
          · exact absurd e ht2
          · simp only [List.cons.injEq, true_and] at hm
            rw [← hm, e]
            simp
        · rintro ⟨r, hr, hall⟩
          simp only [List.cons.injEq, true_and] at hr
          rcases hall _ hr.symm with e | hm
          · simp [hne] at e
          · have : t ≠ [] := by
              intro e
              rw [e, List.append_nil] at hm
              exact hn hm
            simp [this]
      · rw [h2]
        simp only [ne_eq, List.cons_ne_self, not_false_eq_true, List.cons.injEq, true_and,
          exists_eq_left', true_iff]
        intro m hm
        by_contra hcon
        simp only [not_or] at hcon
        have h3 := (root_net m [] hcon.1 hcon.2 (Or.inl rfl)).2.1
        rw [List.append_nil, ← hm, h2] at h3
        simp at h3
    · simp [(root_of_relative (c :: rest) (by simpa using hc)).2.1, hc]

/-- A path without root name and root directory does not begin with a
separator. -/
theorem relative_of_no_root (p : List Char) (hd : has_root_directory p = false)
    (hn : has_root_name p = false) : p.head? ≠ some '/' := by
  cases p with
  | nil => simp
  | cons c rest =>
    intro hc
    have hc2 : c = '/' := by simpa using hc
    subst hc2
    unfold has_root_directory at hd
    unfold has_root_name at hn
    rw [decide_eq_false_iff_not, not_not] at hd hn
    rcases root_cases rest with ⟨n, t, hne, hnn, ht, he⟩ | ⟨_, h2, _⟩
    · rw [he, (root_net n t hne hnn ht).1] at hn
      simp at hn
    · rw [h2] at hd
      simp at hd

/-- A path with a root name and without a root directory is a bare network
root name. -/
theorem bare_net_of_root_name (p : List Char) (hd : has_root_directory p = false)
    (hn : has_root_name p = true) :
    ∃ n, n ≠ [] ∧ '/' ∉ n ∧ p = '/' :: '/' :: n := by
  unfold has_root_directory at hd
  unfold has_root_name at hn
  rw [decide_eq_false_iff_not, not_not] at hd
  rw [decide_eq_true_eq] at hn
  cases p with
  | nil => exact absurd (root_of_relative [] (by simp)).1 hn
  | cons c rest =>
    by_cases hc : c = '/'
    · subst hc
      rcases root_cases rest with ⟨n, t, hne, hnn, ht, he⟩ | ⟨h1, _, _⟩
      · rw [he, (root_net n t hne hnn ht).2.1] at hd
        have ht2 : t = [] := by
          by_contra e
          simp [e] at hd
        subst ht2
        exact ⟨n, hne, hnn, by simpa using he⟩
      · exact absurd h1 hn
    · exact absurd (root_of_relative (c :: rest) (by simpa using hc)).1 hn

/-- The roots of a bare network root name. -/
theorem root_bare_net (n : List Char) (hne : n ≠ []) (hn : '/' ∉ n) :
    root_name ('/' :: '/' :: n) = '/' :: '/' :: n ∧
    root_directory ('/' :: '/' :: n) = [] ∧
    root_path ('/' :: '/' :: n) = '/' :: '/' :: n ∧
    has_root_directory ('/' :: '/' :: n) = false ∧
    has_root_name ('/' :: '/' :: n) = true := by
  have h := root_net n [] hne hn (Or.inl rfl)
  simp only [List.append_nil, if_true] at h
  refine ⟨h.1, h.2.1, h.2.2, ?_, ?_⟩
  · simp [has_root_directory, h.2.1]
  · simp [has_root_name, h.1]

/-- The root path of a path with a root directory is the separator, or a
network root name followed by the separator. -/
theorem root_of_absolute (p : List Char) (h : has_root_directory p = true) :
    (root_name p = [] ∧ root_path p = ['/']) ∨
    ∃ n, n ≠ [] ∧ '/' ∉ n ∧ root_name p = '/' :: '/' :: n ∧
      root_path p = '/' :: '/' :: (n ++ ['/']) := by
  unfold has_root_directory at h
  rw [decide_eq_true_eq] at h
  cases p with
  | nil => exact absurd (root_of_relative [] (by simp)).2.1 h
  | cons c rest =>
    by_cases hc : c = '/'
    · subst hc
      rcases root_cases rest with ⟨n, t, hne, hnn, ht, he⟩ | ⟨h1, _, h3⟩
      · right
        obtain ⟨r1, r2, r3⟩ := root_net n t hne hnn ht
        rw [he] at h ⊢
        rw [r2] at h
        have ht2 : t ≠ [] := by
          intro e; simp [e] at h
        exact ⟨n, hne, hnn, r1, by rw [r3]; simp [ht2]⟩
      · exact Or.inl ⟨h1, h3⟩
    · exact absurd (root_of_relative (c :: rest) (by simpa using hc)).2.1 h

/-- The roots of a root path followed by components joined by separators. -/
theorem root_root_join (r : List Char) (ns : List (List Char))
    (hr : r = ['/'] ∨ ∃ n, n ≠ [] ∧ '/' ∉ n ∧ r = '/' :: '/' :: (n ++ ['/']))
    (h : ∀ c ∈ ns, cleanComponent c) :
    root_path (r ++ joinComponents ns) = r ∧
    has_root_directory (r ++ joinComponents ns) = true := by
  have hh := joinComponents_head ns h
  rcases hr with rfl | ⟨n, hne, hn, rfl⟩
  · rcases root_cases (joinComponents ns) with ⟨n, t, _, _, _, he⟩ | ⟨_, h2, h3⟩
    · simp only [List.cons.injEq, true_and] at he
      rw [he] at hh
      simp at hh
    · exact ⟨h3, by simp [has_root_directory, h2]⟩
  · have e : '/' :: '/' :: (n ++ ['/']) ++ joinComponents ns =
        '/' :: '/' :: (n ++ '/' :: joinComponents ns) := by simp
    obtain ⟨_, r2, r3⟩ := root_net n ('/' :: joinComponents ns) hne hn (Or.inr ⟨_, rfl⟩)
    rw [e, r3]
    exact ⟨by simp, by simp [has_root_directory, r2]⟩

/-- On a path with a root directory `remove_dots` gives the root path followed
by names joined by separators. -/
theorem remove_dots_of_absolute (p : List Char) (h : has_root_directory p = true) :
    ∃ ns : List (List Char), (∀ c ∈ ns, nameComponent c) ∧
      remove_dots p true = root_path p ++ joinComponents ns := by
  have hroot : root_path p ≠ [] := by
    rcases root_of_absolute p h with ⟨_, e⟩ | ⟨n, _, _, _, e⟩ <;> rw [e] <;> simp
  refine ⟨((pathComponents (p.drop (root_path p).length)).foldl
    (remove_dots.step true true) []).reverse, ?_, ?_⟩
  · intro c hc
    exact remove_dots.foldl_names _ [] (by simp) (pathComponents_no_sep _) c
      (List.mem_reverse.mp hc)
  · simp [remove_dots, hroot]

/-- On a path that does not begin with a separator `remove_dots` gives the
kept components joined by separators, with `..` components in front only. -/
theorem remove_dots_of_relative (p : List Char) (h : p.head? ≠ some '/') :
    ∃ s : List (List Char), wellStacked s ∧
      remove_dots p true = joinComponents s.reverse := by
  refine ⟨(pathComponents p).foldl (remove_dots.step true false) [], ?_, ?_⟩
  · exact remove_dots.foldl_wellStacked false _ [] trivial (pathComponents_no_sep p)
  · simp [remove_dots, (root_of_relative p h).2.2]

/-- A bare network root name is left as it is by `remove_dots`. -/
theorem remove_dots_bare_net (n : List Char) (hne : n ≠ []) (hn : '/' ∉ n) :
    remove_dots ('/' :: '/' :: n) true = '/' :: '/' :: n := by
  unfold remove_dots
  rw [(root_bare_net n hne hn).2.2.1]
  simp [pathComponents, remove_dots.step, joinComponents]

/-- A root path followed by names joined by separators is left as it is by
`remove_dots`. -/
theorem remove_dots_root_join (r : List Char) (ns : List (List Char))
    (hr : r = ['/'] ∨ ∃ n, n ≠ [] ∧ '/' ∉ n ∧ r = '/' :: '/' :: (n ++ ['/']))
    (h : ∀ c ∈ ns, nameComponent c) :
    remove_dots (r ++ joinComponents ns) true = r ++ joinComponents ns := by
  have hroot := (root_root_join r ns hr (fun c hc => (h c hc).1)).1
  unfold remove_dots
  rw [hroot]
  simp only [List.drop_left, List.append_cancel_left_eq]
  cases ns with
  | nil => simp [joinComponents, pathComponents, remove_dots.step]
  | cons c rest =>
    rw [pathComponents_joinComponents _ (by simp) (fun x hx => (h x hx).1.2.2),
      remove_dots.foldl_of_names _ _ _ _ h]
    simp

/-- The canonical form of a root path followed by names is the path itself. -/
theorem CanonPath_root_join (W r : List Char) (ns : List (List Char))
    (hr : r = ['/'] ∨ ∃ n, n ≠ [] ∧ '/' ∉ n ∧ r = '/' :: '/' :: (n ++ ['/']))
    (h : ∀ c ∈ ns, nameComponent c) :
    CanonPath W (r ++ joinComponents ns) = r ++ joinComponents ns := by
  unfold CanonPath make_absolute
  rw [remove_dots_root_join r ns hr h]
  simp [(root_root_join r ns hr (fun c hc => (h c hc).1)).2]

/-- The root path of a path with a root directory has one of the two shapes
of a root path that ends in the root directory. -/
theorem root_path_shape (p : List Char) (h : has_root_directory p = true) :
    root_path p = ['/'] ∨ ∃ n, n ≠ [] ∧ '/' ∉ n ∧ root_path p = '/' :: '/' :: (n ++ ['/']) := by
  rcases root_of_absolute p h with ⟨_, e⟩ | ⟨n, hne, hn, _, e⟩
  · exact Or.inl e
  · exact Or.inr ⟨n, hne, hn, e⟩

/-- Appending a path that does not begin with a separator: one separator
stands between the two, unless the first path is empty. -/
theorem path_append_of_relative (W q : List Char) (hq : q.head? ≠ some '/') :
    path_append W q =
      if W.getLast? = some '/' then W ++ q else if W = [] then q else W ++ '/' :: q := by
  have hn : has_root_name q = false := by
    simp [has_root_name, (root_of_relative q hq).1]
  unfold path_append
  rw [dropWhile_is_separator q hq, hn]
  by_cases hl : W.getLast? = some '/'
  · simp [hl]
  · by_cases hW : W = []
    · simp [hW]
    · simp [hl, hW, hq]

/-- Appending a relative path to a directory puts exactly one separator
between the two. -/
theorem path_append_relative (W q : List Char) (hW : W ≠ []) (hq : q.head? ≠ some '/') :
    (W.getLast? ≠ some '/' ∧ path_append W q = W ++ '/' :: q) ∨
      ∃ W0, W = W0 ++ ['/'] ∧ path_append W q = W0 ++ '/' :: q := by
  rw [path_append_of_relative W q hq]
  by_cases hl : W.getLast? = some '/'
  · right
    obtain ⟨W0, hW0⟩ := List.getLast?_eq_some_iff.mp hl
    refine ⟨W0, hW0, ?_⟩
    simp only [hl, if_true]
    rw [hW0]
    simp
  · left
    simp [hl, hW]

/-- Components joined by separators have neither root name nor root
directory. -/
theorem has_root_directory_joinComponents (ns : List (List Char))
    (h : ∀ c ∈ ns, cleanComponent c) :
    has_root_directory (joinComponents ns) = false ∧
    has_root_name (joinComponents ns) = false := by
  obtain ⟨h1, h2, _⟩ := root_of_relative _ (joinComponents_head ns h)
  simp [has_root_directory, has_root_name, h1, h2]

/-- Appending names to a canonical absolute directory gives the root path
followed by the names of the directory and the appended names. -/
theorem path_append_root_join (r : List Char) (ws cs : List (List Char))
    (hr : r = ['/'] ∨ ∃ n, n ≠ [] ∧ '/' ∉ n ∧ r = '/' :: '/' :: (n ++ ['/']))
    (hws : ∀ c ∈ ws, nameComponent c)
    (hcs : ∀ c ∈ cs, nameComponent c) (hne : cs ≠ []) :
    path_append (r ++ joinComponents ws) (joinComponents cs) =
      r ++ joinComponents (ws ++ cs) := by
  have hq : (joinComponents cs).head? ≠ some '/' :=
    joinComponents_head cs (fun c hc => (hcs c hc).1)
  have hrl : r.getLast? = some '/' := by
    rcases hr with rfl | ⟨n, _, _, rfl⟩
    · rfl
    · rw [show '/' :: '/' :: (n ++ ['/']) = ('/' :: '/' :: n) ++ ['/'] from by simp,
        List.getLast?_append]
      simp
  have hrne : r ≠ [] := by
    intro e; rw [e] at hrl; simp at hrl
  rw [path_append_of_relative _ _ hq]
  cases ws with
  | nil =>
    simp [joinComponents, hrl]
  | cons w rest =>
    have hclean : ∀ c ∈ w :: rest, cleanComponent c := fun c hc => (hws c hc).1
    have hn := joinComponents_ne_nil (w :: rest) (by simp) hclean
    have hl := joinComponents_getLast (w :: rest) (by simp) hclean
    have hlast : (r ++ joinComponents (w :: rest)).getLast? ≠ some '/' := by
      rw [List.getLast?_append_of_ne_nil _ hn]
      exact hl
    simp only [hlast, if_false, List.append_eq_nil, hrne, false_and]
    rw [joinComponents_append (w :: rest) cs (by simp) hne]
    simp

/-- What `remove_dots` leaves of a path that does not begin with a separator
and not with `..` after the removal: names joined by separators. -/
theorem remove_dots_relative_names (p : List Char) (hrel : p.head? ≠ some '/')
    (hup : (pathComponents (remove_dots p true)).head? ≠ some ['.', '.']) :
    ∃ cs : List (List Char), (∀ c ∈ cs, nameComponent c) ∧
      remove_dots p true = joinComponents cs := by
  obtain ⟨s, hs, hq⟩ := remove_dots_of_relative p hrel
  refine ⟨s.reverse, ?_, hq⟩
  have hclean := wellStacked_clean s hs
  by_cases hne : s = []
  · subst hne; simp
  · have hb : s.getLast? ≠ some ['.', '.'] := by
      rw [hq, pathComponents_joinComponents _ (by simpa using hne)
        (fun c hc => (hclean c (List.mem_reverse.mp hc)).2.2)] at hup
      simpa using hup
    intro c hc
    exact wellStacked_names s hs hb c (List.mem_reverse.mp hc)

/-- The root directory of a path that has one is the single separator. -/
theorem root_directory_of_absolute (p : List Char) (h : has_root_directory p = true) :
    root_directory p = ['/'] := by
  unfold has_root_directory at h
  rw [decide_eq_true_eq] at h
  cases p with
  | nil => exact absurd (root_of_relative [] (by simp)).2.1 h
  | cons c rest =>
    by_cases hc : c = '/'
    · subst hc
      rcases root_cases rest with ⟨n, t, hne, hnn, ht, he⟩ | ⟨_, h2, _⟩
      · rw [he] at h ⊢
        rw [(root_net n t hne hnn ht).2.1] at h ⊢
        by_cases ht2 : t = []
        · simp [ht2] at h
        · simp [ht2]
      · exact h2
    · exact absurd (root_of_relative (c :: rest) (by simpa using hc)).2.1 h

theorem dotFree_dropWhile (Y : List Char) :
    dotFree (Y.dropWhile is_separator) ↔ dotFree Y := by
  induction Y with
  | nil => simp
  | cons c rest ih =>
    by_cases hc : c = '/'
    · subst hc
      rw [List.dropWhile_cons_of_pos (by simp [is_separator]), ih, dotFree_cons_sep]
    · rw [List.dropWhile_cons_of_neg (by simp [is_separator, hc])]

theorem dotFree_append_singleton_sep (Y : List Char) : dotFree (Y ++ ['/']) ↔ dotFree Y := by
  rw [dotFree_append_sep]
  simp [dotFree_nil]

/-- A network root name has a `.` or `..` piece exactly when its name is `.`
or `..`. -/
theorem dotFree_net (n : List Char) (hn : '/' ∉ n) :
    dotFree ('/' :: '/' :: n) ↔ n ≠ ['.'] ∧ n ≠ ['.', '.'] := by
  rw [dotFree_cons_sep, dotFree_cons_sep]
  unfold dotFree
  rw [pathComponents_of_no_sep n hn]
  simp

/-- What `make_absolute` gives for a bare network root name: the root name,
the root directory, and what is left of the relative path of the current
directory, closed by a separator. -/
theorem make_absolute_bare_net (W n : List Char) (hW : has_root_directory W = true)
    (hne : n ≠ []) (hn : '/' ∉ n) :
    ∃ Z, make_absolute W ('/' :: '/' :: n) = '/' :: '/' :: (n ++ '/' :: Z) ∧
      (dotFree Z ↔ dotFree (relative_path W)) := by
  obtain ⟨r1, _, r3, r4, r5⟩ := root_bare_net n hne hn
  have hrel : relative_path ('/' :: '/' :: n) = [] := by
    unfold relative_path
    rw [r3]
    simp
  have hlast : ('/' :: '/' :: n).getLast? ≠ some '/' := by
    rw [show '/' :: '/' :: n = ['/', '/'] ++ n from rfl, List.getLast?_append_of_ne_nil _ hne]
    intro e
    exact hn (List.mem_of_getLast?_eq_some e)
  have s1 : path_append [] ('/' :: '/' :: n) = '/' :: '/' :: n := by
    simp [path_append]
  have s2 : path_append ('/' :: '/' :: n) ['/'] = '/' :: '/' :: (n ++ ['/']) := by
    rw [path_append, if_neg hlast]
    simp
  have s3 : path_append ('/' :: '/' :: (n ++ ['/'])) (relative_path W) =
      '/' :: '/' :: (n ++ '/' :: (relative_path W).dropWhile is_separator) := by
    have hl : ('/' :: '/' :: (n ++ ['/'])).getLast? = some '/' := by
      rw [show '/' :: '/' :: (n ++ ['/']) = ('/' :: '/' :: n) ++ ['/'] from by simp,
        List.getLast?_append]
      simp
    unfold path_append
    simp [hl]
  have hnil : has_root_name [] = false := by
    simp [has_root_name, (root_of_relative [] (by simp)).1]
  unfold make_absolute
  simp only [r4, r5, Bool.false_eq_true, if_false, r1, root_directory_of_absolute W hW, s1, s2,
    s3, hrel, Bool.true_eq_false]
  by_cases hl : ('/' :: '/' :: (n ++ '/' :: (relative_path W).dropWhile is_separator)).getLast? =
      some '/'
  · refine ⟨(relative_path W).dropWhile is_separator, ?_, dotFree_dropWhile _⟩
    unfold path_append
    simp [hl]
  · refine ⟨(relative_path W).dropWhile is_separator ++ ['/'], ?_, ?_⟩
    · rw [path_append, if_neg hl]
      simp [hnil]
    · rw [dotFree_append_singleton_sep, dotFree_dropWhile]

/-- Appending a path that does not begin with a separator to a directory with
a root directory gives a path with a root directory, unless the directory is
`//` and the appended path is a single name. -/
theorem has_root_directory_path_append (W q : List Char) (hW : has_root_directory W = true)
    (hq : q.head? ≠ some '/') :
    has_root_directory (path_append W q) = true ↔
      ¬ (W = ['/', '/'] ∧ q ≠ [] ∧ '/' ∉ q) := by
  obtain ⟨rest0, rfl, hrest⟩ := (has_root_directory_iff W).mp hW
  rw [path_append_of_relative _ _ hq, has_root_directory_iff]
  by_cases hl : ('/' :: rest0).getLast? = some '/'
  · simp only [hl, if_true, List.cons_append, List.cons.injEq, true_and, exists_eq_left']
    cases rest0 with
    | nil =>
      refine iff_of_true ?_ (by simp)
      intro m hm
      rw [List.nil_append] at hm
      rw [hm] at hq
      simp at hq
    | cons c n0 =>
      by_cases hc : c = '/'
      · subst hc
        rcases hrest n0 rfl with e | hm
        · subst e
          simp only [List.nil_append, List.cons_append, List.cons.injEq, true_and, forall_eq',
            not_and, not_not]
          constructor
          · intro h hne
            rcases h with e | e
            · exact absurd e hne
            · exact e
          · intro h
            by_cases e : q = []
            · exact Or.inl e
            · exact Or.inr (h e)
        · have hne : n0 ≠ [] := by
            intro e; rw [e] at hm; simp at hm
          simp only [List.cons_append, List.cons.injEq, true_and, forall_eq', List.append_eq_nil,
            hne, false_and, List.mem_append, hm, true_or, or_true, false_and, not_false_eq_true]
      · simp [hc]
  · have hne : rest0 ≠ [] := by
      intro e; rw [e] at hl; simp at hl
    have h2 : '/' :: rest0 ≠ ['/', '/'] := by
      intro e
      rw [e] at hl
      simp at hl
    simp only [hl, if_false, List.cons_ne_nil, List.cons_append, List.cons.injEq, true_and,
      exists_eq_left', h2, false_and, not_false_eq_true, iff_true]
    intro m hm
    right
    cases rest0 with
    | nil => exact absurd rfl hne
    | cons c n0 =>
      simp only [List.cons_append, List.cons.injEq] at hm
      rw [← hm.2]
      simp

/-- What `remove_dots` leaves of a path that does not begin with a separator
has no `.` and no `..` piece exactly when it does not begin with `..`. -/
theorem dotFree_remove_dots_relative (p : List Char) (hrel : p.head? ≠ some '/') :
    dotFree (remove_dots p true) ↔
      (pathComponents (remove_dots p true)).head? ≠ some ['.', '.'] := by
  constructor
  · intro h e
    exact (h _ (List.mem_of_mem_head? e)).2 rfl
  · intro hup
    obtain ⟨cs, hcs, hq⟩ := remove_dots_relative_names p hrel hup
    rw [hq]
    exact dotFree_joinComponents cs hcs

theorem path_append_ne_nil (W c : List Char) (h : W ≠ [] ∨ c ≠ []) :
    path_append W c ≠ [] := by
  unfold path_append
  split_ifs with h1 h2
  · intro e
    rw [(List.append_eq_nil.mp e).1] at h1
    simp at h1
  · simp
  · intro e
    rcases h with h | h
    · exact h (List.append_eq_nil.mp e).1
    · exact h (List.append_eq_nil.mp e).2

/-- A non-empty path made absolute is not empty. -/
theorem make_absolute_ne_nil (W p : List Char) (hp : p ≠ []) : make_absolute W p ≠ [] := by
  unfold make_absolute
  split_ifs with h1 h2
  · exact hp
  · exact path_append_ne_nil _ _ (Or.inr hp)
  · have hn : root_name p ≠ [] := by
      cases hr : has_root_name p
      · exact absurd hr h2
      · simpa [has_root_name] using hr
    exact path_append_ne_nil _ _ (Or.inl (path_append_ne_nil _ _ (Or.inl
      (path_append_ne_nil _ _ (Or.inl (path_append_ne_nil _ _ (Or.inr hn)))))))

theorem consumerCalls_map_diag (Texts : List String) :
    consumerCalls (Texts.map (fun T => Event.diag (Diagnostic.collaborator T))) = [] := by
  induction Texts with
  | nil => rfl
  | cons T Rest ih => simpa [consumerCalls] using ih

theorem mem_consumerCalls (T : List Event) (Call : ConsumerCall) :
    Call ∈ consumerCalls T ↔ Event.consumer Call ∈ T := by
  induction T with
  | nil => simp [consumerCalls]
  | cons e T ih => cases e <;> simp [consumerCalls, ih]

/-- The collectors neither finalize the consumer nor report a file-system
root. -/
theorem collectorEvents_calls (A : DependencyScanningAction) (B : ScanBehaviour)
    (K : CollectorKind) :
    ∀ Call ∈ consumerCalls (collectorEvents A B K),
      Call ≠ ConsumerCall.finalize ∧ ∀ ID, Call ≠ ConsumerCall.handleCASFileSystemRootID ID := by
  intro Call hCall
  rw [mem_consumerCalls] at hCall
  cases K
  case DependencyConsumerForwarder =>
    simp only [collectorEvents, DependencyConsumerForwarder.finishedMainFile] at hCall
    split_ifs at hCall <;> simp at hCall
    all_goals rcases hCall with h | ⟨F, _, h⟩ <;> subst h <;> simp
  case IncludeTreeCollector =>
    simp only [collectorEvents, IncludeTreeCollector.finishedMainFile] at hCall
    split_ifs at hCall <;> simp at hCall
  case ModuleDepCollector =>
    simp only [collectorEvents, List.mem_map] at hCall
    obtain ⟨R, _, hR⟩ := hCall
    simp only [Event.consumer.injEq] at hR
    subst hR
    cases R <;> simp [ModuleReport.toCall]

/-- The consumer calls of a scanning `runInvocation` call that got its
diagnostics engine: the calls of the collector, `finalize`, and the
file-system root when content addressing is on and the tree was created. The
result of `ExecuteAction` plays no part. -/
theorem DependencyScanningAction.runInvocation_calls (W : World)
    (A : DependencyScanningAction) (Invocation : CompilerInvocation)
    (hS : A.Scanned = false) (hD : (W.scan Invocation).hasDiagnostics = true) :
    ∃ Scan : List ConsumerCall,
      consumerCalls (A.runInvocation W Invocation).Events =
        Scan ++ [ConsumerCall.finalize] ++
          (if A.CacheFS = true then
            match (W.scan Invocation).Tree with
            | .ok ID => [ConsumerCall.handleCASFileSystemRootID ID]
            | .error _ => []
           else []) ∧
      (∀ Call ∈ Scan, Call ≠ ConsumerCall.finalize ∧
        ∀ ID, Call ≠ ConsumerCall.handleCASFileSystemRootID ID) ∧
      (A.runInvocation W Invocation).Result = (W.scan Invocation).Result := by
  have hCache : ∀ CI, (({ A with Scanned := true } : DependencyScanningAction).addDependencyCollector
      CI).1.CacheFS = A.CacheFS := by
    intro CI
    unfold DependencyScanningAction.addDependencyCollector
    cases A.Format <;> rfl
  refine ⟨consumerCalls (collectorEvents
    (({ A with Scanned := true } : DependencyScanningAction).addDependencyCollector
      { Invocation with DisableFree := A.DisableFree }).1 (W.scan Invocation)
    (({ A with Scanned := true } : DependencyScanningAction).addDependencyCollector
      { Invocation with DisableFree := A.DisableFree }).2), ?_, collectorEvents_calls _ _ _, ?_⟩
  · unfold DependencyScanningAction.runInvocation
    simp only [hS, hD, Bool.false_eq_true, if_false, Bool.not_true, consumerCalls_append,
      consumerCalls_map_diag, hCache]
    have e1 : consumerCalls (if A.CacheFS = true then [Event.trackNewAccesses] else []) = [] := by
      split_ifs <;> rfl
    have e2 : consumerCalls [Event.createScanInstance] = [] := rfl
    have e3 : consumerCalls (if Invocation.ImplicitPCHInclude ≠ "" then
        [Event.visitPrebuiltModule Invocation.ImplicitPCHInclude
          ({ A with Scanned := true } : DependencyScanningAction).hasDepScanFS] else []) = [] := by
      split_ifs <;> rfl
    have e4 : ∀ K, consumerCalls [Event.addDependencyCollector K, Event.ExecuteAction] = [] :=
      fun _ => rfl
    have e5 : ∀ b : Bool, consumerCalls (if b = true then [Event.clearStatCache] else []) = [] := by
      intro b; split_ifs <;> rfl
    have e6 : consumerCalls (if A.CacheFS = true then
        (match (W.scan Invocation).Tree with
          | .ok ID => [Event.consumer (.handleCASFileSystemRootID ID)]
          | .error Err => [Event.diag (.err_cas_depscan_failed Err)])
        else []) =
        (if A.CacheFS = true then
          match (W.scan Invocation).Tree with
          | .ok ID => [ConsumerCall.handleCASFileSystemRootID ID]
          | .error _ => []
         else []) := by
      split_ifs
      · cases (W.scan Invocation).Tree <;> rfl
      · rfl
    rw [e1, e2, e3, e4, e5, e6]
    simp [consumerCalls]
  · unfold DependencyScanningAction.runInvocation
    simp [hS, hD]

/-- The callback of a `clang` job succeeds exactly when the tool invocation
builds an invocation and `runInvocation` returns true on it. -/
theorem jobCallback_clang_iff (W : World) (Cmd : driver.Command) (S : ScanState)
    (h : Cmd.CreatorName = "clang") :
    (jobCallback W Cmd S).1 = true ↔
      ∃ Invocation, (W.newInvocation (Cmd.Executable :: Cmd.Arguments)).2 = some Invocation ∧
        (S.Action.runInvocation W Invocation).Result = true := by
  unfold jobCallback
  simp only [h, ne_eq, not_true_eq_false, if_false]
  cases hI : (W.newInvocation (Cmd.Executable :: Cmd.Arguments)).2 with
  | none => simp
  | some Invocation =>
    by_cases hR : (S.Action.runInvocation W Invocation).Result = true
    · simp [hR]
    · simp [hR]

/-- After a successful callback the action has scanned exactly when it had
before or the job is a `clang` job. -/
theorem jobCallback_Scanned (W : World) (Cmd : driver.Command) (S : ScanState)
    (h : (jobCallback W Cmd S).1 = true) :
    (jobCallback W Cmd S).2.Action.Scanned = true ↔
      (S.Action.Scanned = true ∨ Cmd.CreatorName = "clang") := by
  by_cases hc : Cmd.CreatorName = "clang"
  · simp only [hc, or_true, iff_true]
    unfold jobCallback at h ⊢
    simp only [hc, ne_eq, not_true_eq_false, if_false] at h ⊢
    cases hI : (W.newInvocation (Cmd.Executable :: Cmd.Arguments)).2 with
    | none => simp [hI] at h
    | some Invocation =>
      simp only [hI] at h ⊢
      by_cases hR : (S.Action.runInvocation W Invocation).Result = true
      · simp only [hR, Bool.not_true, Bool.false_eq_true, if_false,
          DependencyScanningAction.takeLastCC1Arguments]
        exact DependencyScanningAction.runInvocation_Scanned W S.Action Invocation
      · simp [hR] at h
  · rw [jobCallback_of_not_clang W Cmd S hc]
    simp [hc]

theorem forEachDriverJob.loop_Scanned (W : World) (Jobs : List driver.Command) (S : ScanState)
    (h : (forEachDriverJob.loop (jobCallback W) Jobs S).1 = true) :
    (forEachDriverJob.loop (jobCallback W) Jobs S).2.Action.Scanned = true ↔
      (S.Action.Scanned = true ∨ ∃ J ∈ Jobs, J.CreatorName = "clang") := by
  induction Jobs generalizing S with
  | nil => simp [forEachDriverJob.loop]
  | cons Job Rest ih =>
    by_cases hJ : (jobCallback W Job S).1 = true
    · simp only [forEachDriverJob.loop, hJ, if_true] at h ⊢
      rw [ih _ h, jobCallback_Scanned W Job S hJ]
      simp only [List.mem_cons, exists_eq_or_imp]
      tauto
    · simp [forEachDriverJob.loop, hJ] at h

/-- The loop succeeds exactly when every callback succeeds on the state that
the jobs before it left. -/
theorem forEachDriverJob.loop_true_iff (Callback : driver.Command → ScanState → Bool × ScanState)
    (Jobs : List driver.Command) (S : ScanState) :
    (forEachDriverJob.loop Callback Jobs S).1 = true ↔
      ∀ Pre J Post, Jobs = Pre ++ J :: Post →
        (Callback J (forEachDriverJob.loop Callback Pre S).2).1 = true := by
  induction Jobs generalizing S with
  | nil =>
    simp only [forEachDriverJob.loop, true_iff]
    intro Pre J Post h
    simp at h
  | cons Job Rest ih =>
    constructor
    · intro h Pre J Post hEq
      by_cases hJ : (Callback Job S).1 = true
      · simp only [forEachDriverJob.loop, hJ, if_true] at h
        cases Pre with
        | nil =>
          simp only [List.nil_append, List.cons.injEq] at hEq
          rw [← hEq.1]
          simpa [forEachDriverJob.loop] using hJ
        | cons P Pre2 =>
          simp only [List.cons_append, List.cons.injEq] at hEq
          rw [← hEq.1]
          simp only [forEachDriverJob.loop, hJ, if_true]
          exact (ih _).mp h Pre2 J Post hEq.2
      · simp [forEachDriverJob.loop, hJ] at h
    · intro h
      have hJ : (Callback Job S).1 = true := by
        simpa [forEachDriverJob.loop] using h [] Job Rest rfl
      simp only [forEachDriverJob.loop, hJ, if_true]
      apply (ih _).mpr
      intro Pre J Post hEq
      have := h (Job :: Pre) J Post (by rw [hEq]; rfl)
      simpa [forEachDriverJob.loop, hJ] using this

/-- The first failing callback ends the loop: the jobs behind it are not
run. -/
theorem forEachDriverJob.loop_stops (Callback : driver.Command → ScanState → Bool × ScanState)
    (Pre Post : List driver.Command) (J : driver.Command) (S : ScanState)
    (hPre : (forEachDriverJob.loop Callback Pre S).1 = true)
    (hJ : (Callback J (forEachDriverJob.loop Callback Pre S).2).1 = false) :
    forEachDriverJob.loop Callback (Pre ++ J :: Post) S =
      (false, (Callback J (forEachDriverJob.loop Callback Pre S).2).2) := by
  rw [forEachDriverJob.loop_append Callback Pre (J :: Post) S hPre]
  simp [forEachDriverJob.loop, hJ]

theorem FullDependencyConsumer.feed_ClangModuleDeps_congr (C1 C2 : FullDependencyConsumer)
    (Calls : List ConsumerCall) (h : C1.ClangModuleDeps = C2.ClangModuleDeps) :
    (C1.feed Calls).ClangModuleDeps = (C2.feed Calls).ClangModuleDeps := by
  induction Calls generalizing C1 C2 with
  | nil => exact h
  | cons Call Rest ih =>
    simp only [FullDependencyConsumer.feed, List.foldl_cons]
    apply ih
    cases Call <;>
      simp [FullDependencyConsumer.handle, FullDependencyConsumer.handleBuildCommand,
        FullDependencyConsumer.handleFileDependency,
        FullDependencyConsumer.handlePrebuiltModuleDependency,
        FullDependencyConsumer.handleModuleDependency, FullDependencyConsumer.handleContextHash,
        FullDependencyConsumer.handleCASFileSystemRootID, h]

theorem MapVector.mem_of_lookup {V : Type} (M : MapVector V) (Key : String) (Value : V)
    (h : MapVector.lookup M Key = some Value) : (Key, Value) ∈ M := by
  induction M with
  | nil => simp [MapVector.lookup] at h
  | cons E Rest ih =>
    obtain ⟨K, V0⟩ := E
    by_cases hk : K = Key
    · simp only [MapVector.lookup, hk, if_true, Option.some.injEq] at h
      rw [hk, h]
      exact List.mem_cons_self _ _
    · simp only [MapVector.lookup, hk, if_false] at h
      exact List.mem_cons_of_mem _ (ih h)

theorem installedCollectors_append (T1 T2 : List Event) :
    installedCollectors (T1 ++ T2) = installedCollectors T1 ++ installedCollectors T2 := by
  induction T1 with
  | nil => rfl
  | cons e T ih => cases e <;> simp [installedCollectors, ih]

theorem installedCollectors_of_fromCollector (T : List Event)
    (h : ∀ e ∈ T, ∀ K, e ≠ Event.addDependencyCollector K) : installedCollectors T = [] := by
  induction T with
  | nil => rfl
  | cons e T ih =>
    have h1 := h e (List.mem_cons_self _ _)
    have h2 := ih (fun x hx => h x (List.mem_cons_of_mem _ hx))
    cases e
    case addDependencyCollector K => exact absurd rfl (h1 K)
    all_goals simpa [installedCollectors] using h2

theorem installedCollectors_map_consumer {α : Type} (f : α → ConsumerCall) (L : List α) :
    installedCollectors (L.map (fun x => Event.consumer (f x))) = [] := by
  induction L with
  | nil => rfl
  | cons x Rest ih => simpa [installedCollectors] using ih

theorem installedCollectors_map_includeAction {α : Type} (f : α → PPIncludeAction) (L : List α) :
    installedCollectors (L.map (fun x => Event.includeAction (f x))) = [] := by
  induction L with
  | nil => rfl
  | cons x Rest ih => simpa [installedCollectors] using ih

theorem collectorEvents_installs_nothing (A : DependencyScanningAction) (B : ScanBehaviour)
    (K : CollectorKind) : installedCollectors (collectorEvents A B K) = [] := by
  cases K
  case DependencyConsumerForwarder =>
    simp only [collectorEvents, DependencyConsumerForwarder.finishedMainFile]
    split_ifs <;>
      simp [installedCollectors_append, installedCollectors_map_consumer, installedCollectors]
  case IncludeTreeCollector =>
    simp only [collectorEvents, IncludeTreeCollector.finishedMainFile]
    split_ifs <;>
      simp [installedCollectors_append, installedCollectors_map_includeAction, installedCollectors]
  case ModuleDepCollector =>
    simp only [collectorEvents]
    exact installedCollectors_map_consumer _ _

/-- The collector that the scanning call installs, and the collector it
leaves in `MDC`. -/
theorem DependencyScanningAction.runInvocation_collector (W : World)
    (A : DependencyScanningAction) (Invocation : CompilerInvocation)
    (hS : A.Scanned = false) (hD : (W.scan Invocation).hasDiagnostics = true) :
    installedCollectors (A.runInvocation W Invocation).Events =
      [(({ A with Scanned := true } : DependencyScanningAction).addDependencyCollector
        { Invocation with DisableFree := A.DisableFree }).2] ∧
    (A.runInvocation W Invocation).Action.MDC =
      (({ A with Scanned := true } : DependencyScanningAction).addDependencyCollector
        { Invocation with DisableFree := A.DisableFree }).1.MDC := by
  constructor
  · unfold DependencyScanningAction.runInvocation
    simp only [hS, hD, Bool.false_eq_true, if_false, Bool.not_true, installedCollectors_append,
      collectorEvents_installs_nothing]
    have e1 : installedCollectors (if A.CacheFS = true then [Event.trackNewAccesses] else []) = [] := by
      split_ifs <;> rfl
    have e3 : installedCollectors (if Invocation.ImplicitPCHInclude ≠ "" then
        [Event.visitPrebuiltModule Invocation.ImplicitPCHInclude
          ({ A with Scanned := true } : DependencyScanningAction).hasDepScanFS] else []) = [] := by
      split_ifs <;> rfl
    have e4 : installedCollectors (List.map (fun T => Event.diag (Diagnostic.collaborator T))
        (W.scan Invocation).Diags) = [] :=
      installedCollectors_of_fromCollector _ (by simp)
    have e5 : ∀ b : Bool, installedCollectors (if b = true then [Event.clearStatCache] else []) = [] := by
      intro b; split_ifs <;> rfl
    have e6 : ∀ b : Bool, installedCollectors (if b = true then
        (match (W.scan Invocation).Tree with
          | .ok ID => [Event.consumer (.handleCASFileSystemRootID ID)]
          | .error Err => [Event.diag (.err_cas_depscan_failed Err)])
        else []) = [] := by
      intro b
      split_ifs
      · cases (W.scan Invocation).Tree <;> rfl
      · rfl
    rw [e1, e3, e4, e5, e6]
    simp [installedCollectors]
  · unfold DependencyScanningAction.runInvocation
    simp only [hS, hD, Bool.false_eq_true, if_false, Bool.not_true]
    split_ifs <;> rfl

/-- Making the dependency output file absolute keeps an empty name empty and
a non-empty name non-empty. -/
theorem absoluteDepFile_ne_empty_iff (WorkingDirectory DepFile : String) :
    absoluteDepFile WorkingDirectory DepFile ≠ "" ↔ DepFile ≠ "" := by
  unfold absoluteDepFile
  by_cases h : DepFile ≠ "" ∧ has_root_directory DepFile.data = false
  · simp only [h, and_self, if_true, ne_eq, not_false_eq_true, iff_true]
    intro e
    have hd := congrArg String.data e
    have hne : DepFile.data ≠ [] := by
      intro e2
      apply h.1
      exact String.ext e2
    exact make_absolute_ne_nil _ _ hne hd
  · simp only [h, if_false]



/-- The collector writes the dependency file exactly when the flag of the
action is set, the end of the main file is reached, and the collector is the
forwarder or the include-tree collector. -/
theorem mem_collectorEvents_writeDependencyFile (A : DependencyScanningAction)
    (B : ScanBehaviour) (K : CollectorKind) :
    Event.writeDependencyFile ∈ collectorEvents A B K ↔
      A.EmitDependencyFile = true ∧ B.MainFileFinished = true ∧
        K ≠ CollectorKind.ModuleDepCollector := by
  cases K
  case DependencyConsumerForwarder =>
    simp only [collectorEvents, DependencyConsumerForwarder.finishedMainFile]
    cases B.MainFileFinished <;> cases A.EmitDependencyFile <;> simp
  case IncludeTreeCollector =>
    simp only [collectorEvents, IncludeTreeCollector.finishedMainFile]
    cases B.MainFileFinished <;> cases A.EmitDependencyFile <;> simp
  case ModuleDepCollector =>
    simp [collectorEvents]

/-- The format switch leaves the flag and the working directory of the action
as they are, and installs the module collector exactly for `Full` and
`FullTree`. -/
theorem DependencyScanningAction.addDependencyCollector_frame (A : DependencyScanningAction)
    (CI : CompilerInvocation) :
    (A.addDependencyCollector CI).1.EmitDependencyFile = A.EmitDependencyFile ∧
    (A.addDependencyCollector CI).1.WorkingDirectory = A.WorkingDirectory ∧
    (A.addDependencyCollector CI).1.LastCC1Arguments = A.LastCC1Arguments ∧
    ((A.addDependencyCollector CI).2 ≠ CollectorKind.ModuleDepCollector ↔
      (A.Format = .Make ∨ A.Format = .Tree ∨ A.Format = .IncludeTree)) := by
  unfold DependencyScanningAction.addDependencyCollector
  cases A.Format <;> simp

/-- A `runInvocation` call writes the dependency file exactly when it scans,
gets its diagnostics engine, the flag of the action is set, the end of the
main file is reached, and the format is `Make`, `Tree` or `IncludeTree`. -/
theorem DependencyScanningAction.runInvocation_writeDependencyFile (W : World)
    (A : DependencyScanningAction) (Invocation : CompilerInvocation) :
    Event.writeDependencyFile ∈ (A.runInvocation W Invocation).Events ↔
      A.Scanned = false ∧ (W.scan Invocation).hasDiagnostics = true ∧
      A.EmitDependencyFile = true ∧ (W.scan Invocation).MainFileFinished = true ∧
      (A.Format = .Make ∨ A.Format = .Tree ∨ A.Format = .IncludeTree) := by
  have hF := DependencyScanningAction.addDependencyCollector_frame
    ({ A with Scanned := true }) { Invocation with DisableFree := A.DisableFree }
  unfold DependencyScanningAction.runInvocation
  by_cases hS : A.Scanned = true
  · simp [hS]
  · have hS2 : A.Scanned = false := by simpa using hS
    by_cases hD : (W.scan Invocation).hasDiagnostics = true
    · simp only [hS2, hD, Bool.false_eq_true, if_false, Bool.not_true, List.mem_append,
        mem_collectorEvents_writeDependencyFile, hF.1, hF.2.2.2, true_and]
      constructor
      · intro h
        rcases h with ((((h | h) | h) | h) | h) | h
        · rcases h with h | h
          · split_ifs at h <;> simp at h
          · simp at h
        · split_ifs at h <;> simp at h
        · rcases h with (h | h) | h
          · simp at h
          · simp at h
          · exact h
        · simp at h
        · split_ifs at h <;> simp at h
        · split_ifs at h
          · cases hT : (W.scan Invocation).Tree <;> simp [hT] at h
          · simp at h
      · intro h
        exact Or.inl (Or.inl (Or.inl (Or.inr (Or.inr h))))
    · have hD2 : (W.scan Invocation).hasDiagnostics = false := by simpa using hD
      simp only [hS2, hD2, Bool.false_eq_true, if_false, Bool.not_false, if_true,
        List.mem_append, false_and, and_false, iff_false, not_or]
      constructor
      · split_ifs <;> simp
      · simp

/-- A `runInvocation` call leaves the flag of the action as it is. -/
theorem DependencyScanningAction.runInvocation_EmitDependencyFile (W : World)
    (A : DependencyScanningAction) (Invocation : CompilerInvocation) :
    (A.runInvocation W Invocation).Action.EmitDependencyFile = A.EmitDependencyFile := by
  have hF := DependencyScanningAction.addDependencyCollector_frame
    ({ A with Scanned := true }) { Invocation with DisableFree := A.DisableFree }
  unfold DependencyScanningAction.runInvocation
  by_cases hS : A.Scanned = true
  · simp [hS, DependencyScanningAction.setLastCC1Arguments]
  · simp only [hS, Bool.false_eq_true, if_false]
    split_ifs <;> simp [DependencyScanningAction.setLastCC1Arguments, hF.1]

/-- Neither the flag of the action nor the absence of a written dependency
file changes in a job callback that starts with the flag off. -/
theorem jobCallback_no_writeDependencyFile (W : World) (Cmd : driver.Command) (S : ScanState)
    (hE : S.Action.EmitDependencyFile = false) (hT : Event.writeDependencyFile ∉ S.Trace) :
    (jobCallback W Cmd S).2.Action.EmitDependencyFile = false ∧
    Event.writeDependencyFile ∉ (jobCallback W Cmd S).2.Trace := by
  unfold jobCallback
  by_cases hc : Cmd.CreatorName ≠ "clang"
  · simp [hc, hE, hT]
  · simp only [hc, if_false]
    cases hI : (W.newInvocation (Cmd.Executable :: Cmd.Arguments)).2 with
    | none => simp [hE, hT]
    | some Invocation =>
      have h1 := DependencyScanningAction.runInvocation_EmitDependencyFile W S.Action Invocation
      have h2 := (DependencyScanningAction.runInvocation_writeDependencyFile W S.Action
        Invocation).not.mpr (by rw [hE]; simp)
      simp only []
      split_ifs <;>
        simp [h1, hE, hT, h2, DependencyScanningAction.takeLastCC1Arguments]

/-- The loop over the jobs keeps the flag off and writes no dependency file. -/
theorem forEachDriverJob.loop_no_writeDependencyFile (W : World) (Jobs : List driver.Command)
    (S : ScanState)
    (hE : S.Action.EmitDependencyFile = false) (hT : Event.writeDependencyFile ∉ S.Trace) :
    (forEachDriverJob.loop (jobCallback W) Jobs S).2.Action.EmitDependencyFile = false ∧
    Event.writeDependencyFile ∉ (forEachDriverJob.loop (jobCallback W) Jobs S).2.Trace := by
  induction Jobs generalizing S with
  | nil => exact ⟨hE, hT⟩
  | cons Job Rest ih =>
    obtain ⟨h1, h2⟩ := jobCallback_no_writeDependencyFile W Job S hE hT
    unfold forEachDriverJob.loop
    split_ifs
    · exact ih _ h1 h2
    · exact ⟨h1, h2⟩

/-- No step of `computeDependencies` writes the dependency file. -/
theorem DependencyScanningWorker.computeDependencies_no_writeDependencyFile (W : World)
    (Worker : DependencyScanningWorker) (WorkingDirectory : String) (CommandLine : List String)
    (ModuleName : Option String) :
    Event.writeDependencyFile ∉
      (Worker.computeDependencies W WorkingDirectory CommandLine ModuleName).2 := by
  have hjobs : Event.writeDependencyFile ∉
      (forEachDriverJob W (FinalCommandLine CommandLine ModuleName) (jobCallback W)
        { Action := Worker.newAction WorkingDirectory ModuleName, Trace := [] }).2.Trace := by
    unfold forEachDriverJob
    cases hB : (W.BuildCompilation (FinalCommandLine CommandLine ModuleName)).2 with
    | none => simp
    | some Jobs =>
      simp only []
      exact (forEachDriverJob.loop_no_writeDependencyFile W Jobs _ rfl (by simp)).2
  have hrun : Event.writeDependencyFile ∉
      (Worker.runJobs W WorkingDirectory CommandLine ModuleName).2.Trace := by
    unfold DependencyScanningWorker.runJobs
    simp only []
    split_ifs
    · simp [hjobs]
    · exact hjobs
  unfold DependencyScanningWorker.computeDependencies
  simp only []
  split_ifs <;> exact hrun

/-- The consumer calls of a `runInvocation` call do not depend on the flag
of the action. -/
theorem DependencyScanningAction.runInvocation_calls_congr (W : World)
    (A : DependencyScanningAction) (Invocation : CompilerInvocation) (b : Bool) :
    consumerCalls (({ A with EmitDependencyFile := b }).runInvocation W Invocation).Events =
      consumerCalls (A.runInvocation W Invocation).Events := by
  have hcol : ∀ (A1 : DependencyScanningAction) (B : ScanBehaviour) (K : CollectorKind),
      consumerCalls (collectorEvents ({ A1 with EmitDependencyFile := b }) B K) =
        consumerCalls (collectorEvents A1 B K) := by
    intro A1 B K
    cases K
    case DependencyConsumerForwarder =>
      simp only [collectorEvents, DependencyConsumerForwarder.finishedMainFile]
      split_ifs <;> simp [consumerCalls_append, consumerCalls]
    case IncludeTreeCollector =>
      simp only [collectorEvents, IncludeTreeCollector.finishedMainFile, consumerCalls_append]
      split_ifs <;> simp [consumerCalls]
    case ModuleDepCollector => rfl
  have hadd : ∀ (A1 : DependencyScanningAction) (CI : CompilerInvocation),
      (({ A1 with EmitDependencyFile := b }).addDependencyCollector CI) =
        ({ (A1.addDependencyCollector CI).1 with EmitDependencyFile := b },
         (A1.addDependencyCollector CI).2) := by
    intro A1 CI
    obtain ⟨f1, f2, f3, f4, Format, f6, f7, f8, f9, f10, f11, f12, f13, f14⟩ := A1
    unfold DependencyScanningAction.addDependencyCollector
    cases Format <;> rfl
  unfold DependencyScanningAction.runInvocation
  by_cases hS : A.Scanned = true
  · simp [hS]
  · simp only [hS, Bool.false_eq_true, if_false]
    by_cases hD : (W.scan Invocation).hasDiagnostics = true
    · simp only [hD, Bool.not_true, Bool.false_eq_true, if_false, consumerCalls_append]
      have e := hadd ({ A with Scanned := true }) { Invocation with DisableFree := A.DisableFree }
      simp only [] at e
      rw [e]
      simp only [hcol]
      rfl
    · simp [hD]

/-! ## Lemmas on the prebuilt module visitor -/

/-- `visitImport` leaves the listener as it is when the module name is in the
table, and otherwise adds the entry and pushes the file. -/
theorem PrebuiltModuleListener.visitImport_eq (L : PrebuiltModuleListener)
    (ModuleName Filename : String) :
    L.visitImport ModuleName Filename =
      if ModuleName ∈ MapVector.keys L.PrebuiltModuleFiles then L
      else { L with PrebuiltModuleFiles := L.PrebuiltModuleFiles ++ [(ModuleName, Filename)],
                    NewModuleFiles := Filename :: L.NewModuleFiles } := by
  unfold PrebuiltModuleListener.visitImport PrebuiltModuleFilesT.insert
  by_cases h : ModuleName ∈ MapVector.keys L.PrebuiltModuleFiles <;> simp [h]

theorem missingNames_le (Names : List String) (M : PrebuiltModuleFilesT) :
    missingNames Names M ≤ Names.length := by
  unfold missingNames
  exact (Finset.card_le_card Finset.sdiff_subset).trans (List.toFinset_card_le Names)

theorem missingNames_append (Names : List String) (M : PrebuiltModuleFilesT)
    (Name File : String) (hN : Name ∈ Names) (hM : Name ∉ MapVector.keys M) :
    missingNames Names (M ++ [(Name, File)]) + 1 = missingNames Names M := by
  unfold missingNames
  have hk : (MapVector.keys (M ++ [(Name, File)])).toFinset =
      insert Name (MapVector.keys M).toFinset := by
    ext x
    simp [MapVector.keys, or_comm]
  rw [hk, Finset.sdiff_insert]
  have hmem : Name ∈ Names.toFinset \ (MapVector.keys M).toFinset := by
    simp [hN, hM]
  rw [Finset.card_erase_of_mem hmem]
  have : 0 < (Names.toFinset \ (MapVector.keys M).toFinset).card :=
    Finset.card_pos.mpr ⟨Name, hmem⟩
  omega

/-- What the imports of one control block do to the listener: entries of the
block with new, distinct names are added behind the table, their files are
pushed, and afterwards every imported name is in the table. -/
theorem importsFold_spec (Imports : List (String × String)) (L : PrebuiltModuleListener) :
    ∃ New : List (String × String),
      (Imports.foldl (fun L0 I => L0.visitImport I.1 I.2) L).PrebuiltModuleFiles =
        L.PrebuiltModuleFiles ++ New ∧
      (Imports.foldl (fun L0 I => L0.visitImport I.1 I.2) L).NewModuleFiles =
        (New.map Prod.snd).reverse ++ L.NewModuleFiles ∧
      (Imports.foldl (fun L0 I => L0.visitImport I.1 I.2) L).InputFiles = L.InputFiles ∧
      (Imports.foldl (fun L0 I => L0.visitImport I.1 I.2) L).VisitInputFiles = L.VisitInputFiles ∧
      (∀ E ∈ New, E ∈ Imports) ∧
      (∀ E ∈ New, E.1 ∉ MapVector.keys L.PrebuiltModuleFiles) ∧
      (New.map Prod.fst).Nodup ∧
      (∀ I ∈ Imports, I.1 ∈ MapVector.keys
        (Imports.foldl (fun L0 I => L0.visitImport I.1 I.2) L).PrebuiltModuleFiles) := by
  induction Imports generalizing L with
  | nil => exact ⟨[], by simp⟩
  | cons I Rest ih =>
    simp only [List.foldl_cons]
    by_cases hI : I.1 ∈ MapVector.keys L.PrebuiltModuleFiles
    · have hv : L.visitImport I.1 I.2 = L := by
        rw [L.visitImport_eq]; simp [hI]
      rw [hv]
      obtain ⟨New, h1, h2, h3, h4, h5, h6, h7, h8⟩ := ih L
      refine ⟨New, h1, h2, h3, h4, fun E hE => List.mem_cons_of_mem _ (h5 E hE), h6, h7, ?_⟩
      intro J hJ
      rcases List.mem_cons.mp hJ with h | h
      · rw [h, h1]
        simp only [MapVector.keys, List.map_append, List.mem_append]
        exact Or.inl hI
      · exact h8 J h
    · have hv : L.visitImport I.1 I.2 =
          { L with PrebuiltModuleFiles := L.PrebuiltModuleFiles ++ [(I.1, I.2)],
                   NewModuleFiles := I.2 :: L.NewModuleFiles } := by
        rw [L.visitImport_eq]; simp [hI]
      rw [hv]
      obtain ⟨New, h1, h2, h3, h4, h5, h6, h7, h8⟩ := ih
        { L with PrebuiltModuleFiles := L.PrebuiltModuleFiles ++ [(I.1, I.2)],
                 NewModuleFiles := I.2 :: L.NewModuleFiles }
      simp only [] at h1 h2 h3 h4 h6
      refine ⟨(I.1, I.2) :: New, ?_, ?_, h3, h4, ?_, ?_, ?_, ?_⟩
      · rw [h1]; simp
      · rw [h2]; simp
      · intro E hE
        rcases List.mem_cons.mp hE with h | h
        · rw [h]; exact List.mem_cons_self _ _
        · exact List.mem_cons_of_mem _ (h5 E h)
      · intro E hE
        rcases List.mem_cons.mp hE with h | h
        · rw [h]; exact hI
        · intro hc
          apply h6 E h
          simp only [MapVector.keys, List.map_append, List.mem_append]
          exact Or.inl hc
      · simp only [List.map_cons, List.nodup_cons]
        refine ⟨?_, h7⟩
        intro hc
        obtain ⟨E, hE, hEq⟩ := List.mem_map.mp hc
        apply h6 E hE
        rw [hEq]
        simp [MapVector.keys]
      · intro J hJ
        rcases List.mem_cons.mp hJ with h | h
        · rw [h, h1]
          simp [MapVector.keys]
        · exact h8 J h

/-- The imports of one control block keep the sum of the length of the
worklist and the number of names missing from the table. -/
theorem importsFold_measure (Names : List String) (Imports : List (String × String))
    (L : PrebuiltModuleListener) (h : ∀ I ∈ Imports, I.1 ∈ Names) :
    (Imports.foldl (fun L0 I => L0.visitImport I.1 I.2) L).NewModuleFiles.length +
      missingNames Names (Imports.foldl (fun L0 I => L0.visitImport I.1 I.2) L).PrebuiltModuleFiles =
    L.NewModuleFiles.length + missingNames Names L.PrebuiltModuleFiles := by
  induction Imports generalizing L with
  | nil => rfl
  | cons I Rest ih =>
    simp only [List.foldl_cons]
    rw [ih _ (fun J hJ => h J (List.mem_cons_of_mem _ hJ)), L.visitImport_eq]
    by_cases hI : I.1 ∈ MapVector.keys L.PrebuiltModuleFiles
    · simp [hI]
    · simp only [hI, if_false, List.length_cons]
      have := missingNames_append Names L.PrebuiltModuleFiles I.1 I.2
        (h I (List.mem_cons_self _ _)) hI
      omega

theorem inputsFold_spec (Files : List String) (L : PrebuiltModuleListener) :
    (Files.foldl PrebuiltModuleListener.visitInputFile L).PrebuiltModuleFiles =
      L.PrebuiltModuleFiles ∧
    (Files.foldl PrebuiltModuleListener.visitInputFile L).NewModuleFiles = L.NewModuleFiles ∧
    (Files.foldl PrebuiltModuleListener.visitInputFile L).VisitInputFiles = L.VisitInputFiles ∧
    (∀ f ∈ L.InputFiles, f ∈ (Files.foldl PrebuiltModuleListener.visitInputFile L).InputFiles) ∧
    (∀ f ∈ Files, f ∈ (Files.foldl PrebuiltModuleListener.visitInputFile L).InputFiles) := by
  induction Files generalizing L with
  | nil => simp
  | cons f Rest ih =>
    obtain ⟨h1, h2, h3, h4, h5⟩ := ih (L.visitInputFile f)
    simp only [List.foldl_cons]
    have hsub : ∀ x ∈ L.InputFiles, x ∈ (L.visitInputFile f).InputFiles := by
      intro x hx
      simp only [PrebuiltModuleListener.visitInputFile, StringSet.insert]
      split_ifs
      · exact hx
      · exact List.mem_append_left _ hx
    have hf : f ∈ (L.visitInputFile f).InputFiles := by
      simp only [PrebuiltModuleListener.visitInputFile, StringSet.insert]
      split_ifs with hm
      · exact hm
      · simp
    refine ⟨h1, h2, h3, fun x hx => h4 x (hsub x hx), ?_⟩
    intro x hx
    rcases List.mem_cons.mp hx with h | h
    · rw [h]; exact h4 f hf
    · exact h5 x h

/-- What reading one control block does to the listener. -/
theorem readASTFileControlBlock_spec (Block : ControlBlock) (L : PrebuiltModuleListener) :
    ∃ New : List (String × String),
      (readASTFileControlBlock Block L).PrebuiltModuleFiles = L.PrebuiltModuleFiles ++ New ∧
      (readASTFileControlBlock Block L).NewModuleFiles =
        (New.map Prod.snd).reverse ++ L.NewModuleFiles ∧
      (readASTFileControlBlock Block L).VisitInputFiles = L.VisitInputFiles ∧
      (∀ E ∈ New, E ∈ Block.Imports) ∧
      (∀ E ∈ New, E.1 ∉ MapVector.keys L.PrebuiltModuleFiles) ∧
      (New.map Prod.fst).Nodup ∧
      (∀ I ∈ Block.Imports, I.1 ∈ MapVector.keys
        (readASTFileControlBlock Block L).PrebuiltModuleFiles) ∧
      (∀ f ∈ L.InputFiles, f ∈ (readASTFileControlBlock Block L).InputFiles) ∧
      (L.VisitInputFiles = true →
        ∀ f ∈ Block.InputFiles, f ∈ (readASTFileControlBlock Block L).InputFiles) ∧
      (L.VisitInputFiles = false →
        (readASTFileControlBlock Block L).InputFiles = L.InputFiles) := by
  obtain ⟨New, h1, h2, h3, h4, h5, h6, h7, h8⟩ := importsFold_spec Block.Imports L
  obtain ⟨g1, g2, g3, g4, g5⟩ := inputsFold_spec Block.InputFiles
    (Block.Imports.foldl (fun L0 I => L0.visitImport I.1 I.2) L)
  by_cases hV : L.VisitInputFiles = true
  · have e : readASTFileControlBlock Block L =
        Block.InputFiles.foldl PrebuiltModuleListener.visitInputFile
          (Block.Imports.foldl (fun L0 I => L0.visitImport I.1 I.2) L) := by
      unfold readASTFileControlBlock
      simp [PrebuiltModuleListener.needsInputFileVisitation, h4, hV]
    rw [e]
    refine ⟨New, by rw [g1, h1], by rw [g2, h2], by rw [g3, h4], h5, h6, h7, ?_, ?_, ?_, ?_⟩
    · rw [g1]; exact h8
    · intro f hf; exact g4 f (by rw [h3]; exact hf)
    · intro _ f hf; exact g5 f hf
    · intro hc; rw [hV] at hc; exact absurd hc (by simp)
  · have e : readASTFileControlBlock Block L =
        Block.Imports.foldl (fun L0 I => L0.visitImport I.1 I.2) L := by
      unfold readASTFileControlBlock
      simp [PrebuiltModuleListener.needsInputFileVisitation, h4, hV]
    rw [e]
    refine ⟨New, h1, h2, h4, h5, h6, h7, h8, ?_, ?_, ?_⟩
    · intro f hf; rw [h3]; exact hf
    · intro hc; exact absurd hc hV
    · intro _; exact h3

theorem readASTFileControlBlock_measure (Names : List String) (Block : ControlBlock)
    (L : PrebuiltModuleListener) (h : ∀ I ∈ Block.Imports, I.1 ∈ Names) :
    (readASTFileControlBlock Block L).NewModuleFiles.length +
      missingNames Names (readASTFileControlBlock Block L).PrebuiltModuleFiles =
    L.NewModuleFiles.length + missingNames Names L.PrebuiltModuleFiles := by
  obtain ⟨g1, g2, _, _, _⟩ := inputsFold_spec Block.InputFiles
    (Block.Imports.foldl (fun L0 I => L0.visitImport I.1 I.2) L)
  unfold readASTFileControlBlock
  split_ifs
  · rw [g1, g2]; exact importsFold_measure Names Block.Imports L h
  · exact importsFold_measure Names Block.Imports L h

/-- The loop returns when the bound exceeds the length of the worklist plus
the number of module names that are not yet in the table. -/
theorem visitPrebuiltModule.loop_returns (Blocks : String → ControlBlock) (Names : List String)
    (hfin : ∀ F, ∀ I ∈ (Blocks F).Imports, I.1 ∈ Names) (fuel : Nat) (S : VisitState)
    (h : S.Listener.NewModuleFiles.length +
      missingNames Names S.Listener.PrebuiltModuleFiles < fuel) :
    ∃ S1, visitPrebuiltModule.loop Blocks fuel S = some S1 := by
  induction fuel generalizing S with
  | zero => omega
  | succ n ih =>
    unfold visitPrebuiltModule.loop
    cases hW : S.Listener.NewModuleFiles with
    | nil => exact ⟨S, rfl⟩
    | cons File Rest =>
      simp only []
      apply ih
      have hm := readASTFileControlBlock_measure Names (Blocks File)
        { S.Listener with NewModuleFiles := Rest } (hfin File)
      simp only [visitPrebuiltModule.step]
      rw [hm]
      rw [hW] at h
      simp only [List.length_cons] at h
      simp only []
      omega

/-- A property that every round of the loop keeps holds for the result, whose
worklist is empty. -/
theorem visitPrebuiltModule.loop_invariant (Blocks : String → ControlBlock)
    (P : VisitState → Prop)
    (hstep : ∀ (S : VisitState) (File : String) (Rest : List String),
      S.Listener.NewModuleFiles = File :: Rest → P S →
      P (visitPrebuiltModule.step Blocks File Rest S))
    (fuel : Nat) (S S1 : VisitState) (hrun : visitPrebuiltModule.loop Blocks fuel S = some S1)
    (hP : P S) : P S1 ∧ S1.Listener.NewModuleFiles = [] := by
  induction fuel generalizing S with
  | zero => simp [visitPrebuiltModule.loop] at hrun
  | succ n ih =>
    unfold visitPrebuiltModule.loop at hrun
    cases hW : S.Listener.NewModuleFiles with
    | nil =>
      simp only [hW, Option.some.injEq] at hrun
      subst hrun
      exact ⟨hP, hW⟩
    | cons File Rest =>
      simp only [hW] at hrun
      exact ih _ hrun (hstep S File Rest hW hP)

theorem visitPrebuiltModule.step_visitCount (Blocks : String → ControlBlock)
    (ModuleFiles : PrebuiltModuleFilesT) (S : VisitState) (File : String) (Rest : List String)
    (hW : S.Listener.NewModuleFiles = File :: Rest) (hP : visitCount ModuleFiles S) :
    visitCount ModuleFiles (visitPrebuiltModule.step Blocks File Rest S) := by
  obtain ⟨New, h1, h2, h3, h4⟩ := hP
  obtain ⟨New2, r1, r2, _, _, r5, r6, _⟩ := readASTFileControlBlock_spec (Blocks File)
    { S.Listener with NewModuleFiles := Rest }
  simp only [] at r1 r2 r5
  refine ⟨New ++ New2, ?_, ?_, ?_, ?_⟩
  · simp only [visitPrebuiltModule.step]
    rw [r1, h1, List.append_assoc]
  · rw [List.map_append]
    refine List.Nodup.append h2 r6 ?_
    intro x hx1 hx2
    obtain ⟨E, hE, hEq⟩ := List.mem_map.mp hx2
    apply r5 E hE
    rw [h1, hEq]
    simp only [MapVector.keys, List.map_append, List.mem_append]
    exact Or.inr hx1
  · intro E hE
    rcases List.mem_append.mp hE with h | h
    · exact h3 E h
    · intro hc
      apply r5 E h
      rw [h1]
      simp only [MapVector.keys, List.map_append, List.mem_append]
      exact Or.inl hc
  · simp only [visitPrebuiltModule.step]
    rw [r2]
    rw [hW] at h4
    simp only [List.length_append, List.length_cons, List.length_nil, List.length_reverse,
      List.length_map] at h4 ⊢
    omega

theorem visitPrebuiltModule.step_visitInvariant (Blocks : String → ControlBlock)
    (Root : String) (S : VisitState) (File : String) (Rest : List String)
    (hW : S.Listener.NewModuleFiles = File :: Rest) (hP : visitInvariant Blocks Root S) :
    visitInvariant Blocks Root (visitPrebuiltModule.step Blocks File Rest S) := by
  obtain ⟨ha, hb, hc, hd, he, hf⟩ := hP
  obtain ⟨New2, r1, r2, r3, r4, _, _, r7, r8, r9, _⟩ := readASTFileControlBlock_spec (Blocks File)
    { S.Listener with NewModuleFiles := Rest }
  simp only [] at r1 r2 r3 r8 r9
  have hFile : Reaches Blocks Root File := hb File (Or.inr (by rw [hW]; exact List.mem_cons_self _ _))
  unfold visitInvariant
  simp only [visitPrebuiltModule.step]
  rw [r1, r2, r3]
  refine ⟨?_, ?_, ?_, ?_, ?_, ?_⟩
  · intro E hE
    rcases List.mem_append.mp hE with h | h
    · obtain ⟨G, hG, hGE⟩ := ha E h
      exact ⟨G, List.mem_append_left _ hG, hGE⟩
    · exact ⟨File, by simp, r4 E h⟩
  · intro G hG
    rcases hG with hG | hG
    · rcases List.mem_append.mp hG with h | h
      · exact hb G (Or.inl h)
      · simp only [List.mem_singleton] at h; rw [h]; exact hFile
    · rcases List.mem_append.mp hG with h | h
      · obtain ⟨E, hE, hEq⟩ := List.mem_map.mp (List.mem_reverse.mp h)
        rw [← hEq]
        exact Reaches.step File E hFile (r4 E hE)
      · exact hb G (Or.inr (by rw [hW]; exact List.mem_cons_of_mem _ h))
  · intro E hE
    rcases List.mem_append.mp hE with h | h
    · rcases hc E h with h2 | h2
      · rw [hW] at h2
        rcases List.mem_cons.mp h2 with h3 | h3
        · right; rw [h3]; simp
        · left; exact List.mem_append_right _ h3
      · right; exact List.mem_append_left _ h2
    · left
      exact List.mem_append_left _ (List.mem_reverse.mpr (List.mem_map_of_mem Prod.snd h))
  · rcases hd with h2 | h2
    · rw [hW] at h2
      rcases List.mem_cons.mp h2 with h3 | h3
      · right; rw [h3]; simp
      · left; exact List.mem_append_right _ h3
    · right; exact List.mem_append_left _ h2
  · intro G hG I hI
    rcases List.mem_append.mp hG with h | h
    · have := he G h I hI
      simp only [MapVector.keys, List.map_append, List.mem_append]
      exact Or.inl this
    · simp only [List.mem_singleton] at h
      rw [h] at hI
      have := r7 I hI
      rw [r1] at this
      exact this
  · intro hV G hG f hf2
    rcases List.mem_append.mp hG with h | h
    · exact r8 f (hf hV G h f hf2)
    · simp only [List.mem_singleton] at h
      rw [h] at hf2
      exact r9 hV f hf2

theorem exampleCyclicBlocks_imports (F : String) (I : String × String)
    (h : I ∈ (exampleCyclicBlocks F).Imports) : I = ("A", "a.pcm") ∨ I = ("B", "b.pcm") := by
  unfold exampleCyclicBlocks at h
  split_ifs at h <;> simp at h
  · exact h
  · exact Or.inr h
  · exact Or.inl h

/-- One round of the loop keeps `visitFrame`. -/
theorem visitPrebuiltModule.step_visitFrame (Blocks : String → ControlBlock) (Root : String)
    (ModuleFiles : PrebuiltModuleFilesT) (InputFiles : List String) (S : VisitState)
    (File : String) (Rest : List String)
    (hW : S.Listener.NewModuleFiles = File :: Rest)
    (hP : visitFrame Blocks Root ModuleFiles InputFiles S) :
    visitFrame Blocks Root ModuleFiles InputFiles (visitPrebuiltModule.step Blocks File Rest S) := by
  obtain ⟨New, h1, h2, h3, h4, h5, h6, h7⟩ := hP
  obtain ⟨New2, r1, r2, r3, r4, r5, _, _, r8, _, r10⟩ :=
    readASTFileControlBlock_spec (Blocks File) { S.Listener with NewModuleFiles := Rest }
  simp only [] at r1 r2 r3 r5 r8 r10
  have hFile : Reaches Blocks Root File :=
    h4 File (Or.inr (by rw [hW]; exact List.mem_cons_self _ _))
  have hFile2 : File = Root ∨ ∃ E ∈ New, E.2 = File :=
    h5 File (Or.inr (by rw [hW]; exact List.mem_cons_self _ _))
  refine ⟨New ++ New2, ?_, ?_, ?_, ?_, ?_, ?_, ?_⟩
  · simp only [visitPrebuiltModule.step]
    rw [r1, h1, List.append_assoc]
  · intro E hE
    rcases List.mem_append.mp hE with h | h
    · exact h2 E h
    · intro hk
      apply r5 E h
      rw [h1]
      simp only [MapVector.keys, List.map_append, List.mem_append]
      exact Or.inl hk
  · intro E hE
    simp only [visitPrebuiltModule.step]
    rcases List.mem_append.mp hE with h | h
    · obtain ⟨G, hG, hGE⟩ := h3 E h
      exact ⟨G, List.mem_append_left _ hG, hGE⟩
    · exact ⟨File, by simp, r4 E h⟩
  · intro G hG
    simp only [visitPrebuiltModule.step] at hG
    rw [r2] at hG
    rcases hG with hG | hG
    · rcases List.mem_append.mp hG with h | h
      · exact h4 G (Or.inl h)
      · rw [List.mem_singleton.mp h]; exact hFile
    · rcases List.mem_append.mp hG with h | h
      · obtain ⟨E, hE, hEq⟩ := List.mem_map.mp (List.mem_reverse.mp h)
        rw [← hEq]
        exact Reaches.step File E hFile (r4 E hE)
      · exact h4 G (Or.inr (by rw [hW]; exact List.mem_cons_of_mem _ h))
  · intro G hG
    simp only [visitPrebuiltModule.step] at hG
    rw [r2] at hG
    have lift : ∀ X : String, (X = Root ∨ ∃ E ∈ New, E.2 = X) →
        X = Root ∨ ∃ E ∈ New ++ New2, E.2 = X := by
      rintro X (h | ⟨E, hE, hEq⟩)
      · exact Or.inl h
      · exact Or.inr ⟨E, List.mem_append_left _ hE, hEq⟩
    rcases hG with hG | hG
    · rcases List.mem_append.mp hG with h | h
      · exact lift G (h5 G (Or.inl h))
      · rw [List.mem_singleton.mp h]; exact lift File hFile2
    · rcases List.mem_append.mp hG with h | h
      · obtain ⟨E, hE, hEq⟩ := List.mem_map.mp (List.mem_reverse.mp h)
        exact Or.inr ⟨E, List.mem_append_right _ hE, hEq⟩
      · exact lift G (h5 G (Or.inr (by rw [hW]; exact List.mem_cons_of_mem _ h)))
  · intro hV
    simp only [visitPrebuiltModule.step] at hV ⊢
    rw [r3] at hV
    rw [r10 hV]
    exact h6 hV
  · intro f hf
    simp only [visitPrebuiltModule.step]
    exact r8 f (h7 f hf)

/-- The value stored under a key of a table is not changed by entries added
behind the table. -/
theorem MapVector.lookup_append_of_mem {V : Type} (M New : MapVector V) (Key : String)
    (h : Key ∈ MapVector.keys M) :
    MapVector.lookup (M ++ New) Key = MapVector.lookup M Key := by
  induction M with
  | nil => simp [MapVector.keys] at h
  | cons E Rest ih =>
    obtain ⟨K, V0⟩ := E
    simp only [List.cons_append, MapVector.lookup]
    by_cases hK : K = Key
    · simp [hK]
    · simp only [hK, if_false]
      apply ih
      simp only [MapVector.keys, List.map_cons, List.mem_cons] at h
      rcases h with h | h
      · exact absurd h.symm hK
      · exact h

/-! ## Claims -/

/-- C1: for every sequence of consumer calls fed to a fresh
`FullDependencyConsumer` and every `AlreadySeen` set, every module in the
`DiscoveredModules` returned by `takeFullDependencies` is a reported module
whose key `ContextHash + ModuleName` is not in `AlreadySeen`, and every
reported module whose key is not in `AlreadySeen` has its key exactly once
among the keys of `DiscoveredModules`. -/
theorem takeFullDependencies_DiscoveredModules (AlreadySeen : List String)
    (Calls : List ConsumerCall) :
    (∀ MD ∈ (((FullDependencyConsumer.new AlreadySeen).feed Calls).takeFullDependencies).DiscoveredModules,
        MD.ID.key ∉ AlreadySeen ∧ ConsumerCall.handleModuleDependency MD ∈ Calls) ∧
    (∀ MD, ConsumerCall.handleModuleDependency MD ∈ Calls → MD.ID.key ∉ AlreadySeen →
        List.count MD.ID.key
          ((((FullDependencyConsumer.new AlreadySeen).feed Calls).takeFullDependencies).DiscoveredModules.map
            (fun M => M.ID.key)) = 1) := by
  have hAS : ((FullDependencyConsumer.new AlreadySeen).feed Calls).AlreadySeen = AlreadySeen :=
    FullDependencyConsumer.feed_AlreadySeen _ _
  have hinv : ∀ E ∈ ((FullDependencyConsumer.new AlreadySeen).feed Calls).ClangModuleDeps,
      ConsumerCall.handleModuleDependency E.2 ∈ Calls ∧ E.1 = E.2.ID.key := by
    intro E hE
    rcases FullDependencyConsumer.feed_mem _ _ _ hE with h | h
    · simp [FullDependencyConsumer.new] at h
    · exact h
  have hnd : (MapVector.keys ((FullDependencyConsumer.new AlreadySeen).feed Calls).ClangModuleDeps).Nodup :=
    FullDependencyConsumer.feed_nodup _ _ (by simp [FullDependencyConsumer.new, MapVector.keys])
  have hrep : ∀ MD, ConsumerCall.handleModuleDependency MD ∈ Calls →
      MD.ID.key ∈ MapVector.keys ((FullDependencyConsumer.new AlreadySeen).feed Calls).ClangModuleDeps :=
    fun MD h => FullDependencyConsumer.feed_reported_mem _ Calls MD h
  simp only [FullDependencyConsumer.takeFullDependencies, hAS]
  generalize ((FullDependencyConsumer.new AlreadySeen).feed Calls).ClangModuleDeps = M at hinv hnd hrep
  refine ⟨?_, ?_⟩
  · intro MD hMD
    obtain ⟨E, hE, rfl⟩ := List.mem_map.mp hMD
    obtain ⟨hEM, hp⟩ := List.mem_filter.mp hE
    have := hinv E hEM
    refine ⟨?_, this.1⟩
    rw [← this.2]
    simpa using hp
  · intro MD hMD hns
    have hkeys : List.map (fun M => M.ID.key)
        (List.map Prod.snd (List.filter (fun E => decide (E.1 ∉ AlreadySeen)) M)) =
        List.map Prod.fst (List.filter (fun E => decide (E.1 ∉ AlreadySeen)) M) := by
      rw [List.map_map]
      apply List.map_congr_left
      intro E hE
      exact ((hinv E (List.mem_filter.mp hE).1).2).symm
    rw [hkeys]
    apply List.count_eq_one_of_mem
    · exact List.Nodup.sublist (List.Sublist.map _ (List.filter_sublist _)) hnd
    · have hk : MD.ID.key ∈ MapVector.keys M := hrep MD hMD
      obtain ⟨E, hE, hEk⟩ := List.mem_map.mp hk
      exact List.mem_map.mpr ⟨E, List.mem_filter.mpr ⟨hE, by simpa [hEk] using hns⟩, hEk⟩

/-- C2: for every consumer state whose module map has distinct keys (the
invariant of `llvm::MapVector`, see `FullDependencyConsumer.feed_nodup`) and
every two reports `MD1` then `MD2` with the same `ModuleID`, after both calls
the key occurs exactly once, its value is `MD2`, the map has as many entries
as after the first report alone, the keys stand in the same positions, and
every entry is the one the first report left at that position, with value
`MD2` where the key is the reported one. -/
theorem handleModuleDependency_same_ModuleID (C : FullDependencyConsumer)
    (MD1 MD2 : ModuleDeps) (hID : MD1.ID = MD2.ID)
    (hWF : (MapVector.keys C.ClangModuleDeps).Nodup) :
    List.count MD2.ID.key
      (MapVector.keys ((C.handleModuleDependency MD1).handleModuleDependency MD2).ClangModuleDeps) = 1 ∧
    MapVector.lookup ((C.handleModuleDependency MD1).handleModuleDependency MD2).ClangModuleDeps
      MD2.ID.key = some MD2 ∧
    ((C.handleModuleDependency MD1).handleModuleDependency MD2).ClangModuleDeps.length =
      (C.handleModuleDependency MD1).ClangModuleDeps.length ∧
    MapVector.keys ((C.handleModuleDependency MD1).handleModuleDependency MD2).ClangModuleDeps =
      MapVector.keys (C.handleModuleDependency MD1).ClangModuleDeps ∧
    ∀ (i : Nat) (E : String × ModuleDeps),
      (C.handleModuleDependency MD1).ClangModuleDeps[i]? = some E →
      ((C.handleModuleDependency MD1).handleModuleDependency MD2).ClangModuleDeps[i]? =
        some (if E.1 = MD2.ID.key then (E.1, MD2) else E) := by
  simp only [FullDependencyConsumer.handleModuleDependency, hID]
  have hm : MD2.ID.key ∈ MapVector.keys (MapVector.assign C.ClangModuleDeps MD2.ID.key MD1) :=
    MapVector.mem_keys_assign _ _ _
  have hn : (MapVector.keys (MapVector.assign C.ClangModuleDeps MD2.ID.key MD1)).Nodup :=
    MapVector.nodup_keys_assign _ _ _ hWF
  have hk := MapVector.keys_assign_of_mem _ MD2.ID.key MD2 hm
  refine ⟨?_, MapVector.lookup_assign_self _ _ _, MapVector.length_assign_of_mem _ _ _ hm, hk, ?_⟩
  · rw [hk]
    exact List.count_eq_one_of_mem hn hm
  · intro i E hE
    exact MapVector.getElem?_assign _ _ _ hm hn i E hE

/-- C2 at a concrete state: a map holding modules `A` and `M`, then a second
report of `M` with other file dependencies. -/
theorem handleModuleDependency_same_ModuleID_witness :
    ((exampleModule "h1" "M" ["m.h"]).ID = (exampleModule "h1" "M" ["m.h", "n.h"]).ID ∧
      (MapVector.keys (((FullDependencyConsumer.new []).handleModuleDependency
        (exampleModule "h0" "A" [])).handleModuleDependency
        (exampleModule "h1" "M" [])).ClangModuleDeps).Nodup) ∧
    MapVector.lookup
      (((((FullDependencyConsumer.new []).handleModuleDependency
        (exampleModule "h0" "A" [])).handleModuleDependency
        (exampleModule "h1" "M" [])).handleModuleDependency
        (exampleModule "h1" "M" ["m.h"])).handleModuleDependency
        (exampleModule "h1" "M" ["m.h", "n.h"])).ClangModuleDeps
      (exampleModule "h1" "M" ["m.h", "n.h"]).ID.key =
      some (exampleModule "h1" "M" ["m.h", "n.h"]) :=
  ⟨⟨rfl, by decide⟩,
   (handleModuleDependency_same_ModuleID
      (((FullDependencyConsumer.new []).handleModuleDependency
        (exampleModule "h0" "A" [])).handleModuleDependency (exampleModule "h1" "M" []))
      (exampleModule "h1" "M" ["m.h"]) (exampleModule "h1" "M" ["m.h", "n.h"])
      rfl (by decide)).2.1⟩

/-- C3: for every consumer state and every two reports with the same module
name and different context hashes, the two keys differ, and after
`handleModuleDependency` of the first and then of the second the map holds
the first module under the first key and the second module under the second
key; on a fresh consumer the map is exactly these two entries, in report
order. -/
theorem handleModuleDependency_same_name_distinct_hash (C : FullDependencyConsumer)
    (MD1 MD2 : ModuleDeps) (hN : MD1.ID.ModuleName = MD2.ID.ModuleName)
    (hH : MD1.ID.ContextHash ≠ MD2.ID.ContextHash) :
    MD1.ID.key ≠ MD2.ID.key ∧
    MapVector.lookup ((C.handleModuleDependency MD1).handleModuleDependency MD2).ClangModuleDeps
      MD1.ID.key = some MD1 ∧
    MapVector.lookup ((C.handleModuleDependency MD1).handleModuleDependency MD2).ClangModuleDeps
      MD2.ID.key = some MD2 ∧
    (C.ClangModuleDeps = [] →
      ((C.handleModuleDependency MD1).handleModuleDependency MD2).ClangModuleDeps =
        [(MD1.ID.key, MD1), (MD2.ID.key, MD2)]) := by
  have hne : MD1.ID.key ≠ MD2.ID.key := by
    intro e
    apply hH
    have hd := congrArg String.data e
    rw [ModuleID.key_data, ModuleID.key_data, hN] at hd
    exact String.ext (List.append_cancel_right hd)
  refine ⟨hne, ?_, ?_, ?_⟩
  · simp only [FullDependencyConsumer.handleModuleDependency]
    rw [MapVector.lookup_assign_of_ne _ _ _ _ hne]
    exact MapVector.lookup_assign_self _ _ _
  · exact MapVector.lookup_assign_self _ _ _
  · intro hC
    simp [FullDependencyConsumer.handleModuleDependency, hC, MapVector.assign, hne]

/-- C3 at a concrete input: module `M` under the context hashes `h1` and
`h2`, reported to a fresh consumer. -/
theorem handleModuleDependency_same_name_distinct_hash_witness :
    ((exampleModule "h1" "M" []).ID.ModuleName = (exampleModule "h2" "M" []).ID.ModuleName ∧
      (exampleModule "h1" "M" []).ID.ContextHash ≠ (exampleModule "h2" "M" []).ID.ContextHash) ∧
    (((FullDependencyConsumer.new []).handleModuleDependency
      (exampleModule "h1" "M" [])).handleModuleDependency
      (exampleModule "h2" "M" [])).ClangModuleDeps =
      [("h1M", exampleModule "h1" "M" []), ("h2M", exampleModule "h2" "M" [])] :=
  ⟨⟨rfl, by decide⟩,
   (handleModuleDependency_same_name_distinct_hash (FullDependencyConsumer.new [])
      (exampleModule "h1" "M" []) (exampleModule "h2" "M" []) rfl (by decide)).2.2.2 rfl⟩

/-- C4 fails for arbitrary strings: the modules `(bc, a)` and `(c, ab)`
differ in name and in context hash and have the same key `abc`, so the second
report overwrites the first in the module map. -/
theorem moduleKey_collision :
    (ModuleID.mk "a" "bc").key = (ModuleID.mk "ab" "c").key ∧
    ¬ ("bc" = "c" ∧ "a" = "ab") ∧
    (((FullDependencyConsumer.new []).handleModuleDependency
      (exampleModule "a" "bc" [])).handleModuleDependency
      (exampleModule "ab" "c" [])).ClangModuleDeps = [("abc", exampleModule "ab" "c" [])] := by
  decide

/-- C4, amended: two reports with equal names and equal context hashes have
the same key, and for context hashes of the same length two reports have the
same key `ContextHash + ModuleName` if and only if their names are equal and
their context hashes are equal. -/
theorem moduleKey_eq_iff_of_length_eq (N1 N2 H1 H2 : String)
    (hlen : H1.length = H2.length) :
    (ModuleID.mk H1 N1).key = (ModuleID.mk H2 N2).key ↔ N1 = N2 ∧ H1 = H2 := by
  constructor
  · intro e
    have hd := congrArg String.data e
    rw [ModuleID.key_data, ModuleID.key_data] at hd
    have := List.append_inj hd (show H1.data.length = H2.data.length from hlen)
    exact ⟨String.ext this.2, String.ext this.1⟩
  · rintro ⟨rfl, rfl⟩
    rfl

/-- C4, amended, at a concrete input: two context hashes of length two. -/
theorem moduleKey_eq_iff_of_length_eq_witness :
    "h1".length = "h2".length ∧
    ((ModuleID.mk "h1" "M").key = (ModuleID.mk "h2" "M").key ↔ "M" = "M" ∧ "h1" = "h2") :=
  ⟨by decide, moduleKey_eq_iff_of_length_eq "M" "M" "h1" "h2" (by decide)⟩

/-- C5: when the driver decomposes the command line into jobs none of which
the `clang` tool created (an empty list included), `computeDependencies`
returns a `StringError` with the captured diagnostics, every job having been
reported to the consumer as it is, and the last step is the
expected-compiler-job diagnostic for the command line. For every command line
that diagnostic is in the captured output exactly when `forEachDriverJob`
returned true and the action has not scanned. -/
theorem computeDependencies_no_clang_job (W : World) (Worker : DependencyScanningWorker)
    (WorkingDirectory : String) (CommandLine : List String) (ModuleName : Option String) :
    (∀ Jobs : List driver.Command,
      (W.BuildCompilation (FinalCommandLine CommandLine ModuleName)).2 = some Jobs →
      (∀ J ∈ Jobs, J.CreatorName ≠ "clang") →
      (Worker.computeDependencies W WorkingDirectory CommandLine ModuleName).1 =
        LLVMError.StringError (diagnosticOutput
          (Worker.computeDependencies W WorkingDirectory CommandLine ModuleName).2) ∧
      (Worker.computeDependencies W WorkingDirectory CommandLine ModuleName).2 =
        (W.BuildCompilation (FinalCommandLine CommandLine ModuleName)).1.map
            (fun T => Event.diag (.collaborator T)) ++
          Jobs.map (fun J => Event.consumer (.handleBuildCommand
            { Executable := J.Executable, Arguments := J.Arguments })) ++
          [Event.diag (.err_fe_expected_compiler_job
            (String.intercalate " " (FinalCommandLine CommandLine ModuleName)))]) ∧
    ((∃ Text, Diagnostic.err_fe_expected_compiler_job Text ∈
        diagnosticOutput (Worker.computeDependencies W WorkingDirectory CommandLine ModuleName).2) ↔
      ((forEachDriverJob W (FinalCommandLine CommandLine ModuleName) (jobCallback W)
          { Action := Worker.newAction WorkingDirectory ModuleName, Trace := [] }).1 = true ∧
       (forEachDriverJob W (FinalCommandLine CommandLine ModuleName) (jobCallback W)
          { Action := Worker.newAction WorkingDirectory ModuleName, Trace := [] }).2.Action.hasScanned
          = false)) := by
  constructor
  · intro Jobs hJobs hNo
    have hloop : forEachDriverJob W (FinalCommandLine CommandLine ModuleName) (jobCallback W)
        { Action := Worker.newAction WorkingDirectory ModuleName, Trace := [] } =
        (true, { Action := Worker.newAction WorkingDirectory ModuleName,
                 Trace := (W.BuildCompilation (FinalCommandLine CommandLine ModuleName)).1.map
                     (fun T => Event.diag (.collaborator T)) ++
                   Jobs.map (fun J => Event.consumer (.handleBuildCommand
                     { Executable := J.Executable, Arguments := J.Arguments })) }) := by
      simp only [forEachDriverJob, hJobs]
      rw [forEachDriverJob.loop_of_not_clang W Jobs _ hNo]
      simp
    have hS : (Worker.newAction WorkingDirectory ModuleName).hasScanned = false := rfl
    simp [DependencyScanningWorker.computeDependencies, DependencyScanningWorker.runJobs,
      hloop, hS]
  · have hno : ∀ Text, Event.diag (.err_fe_expected_compiler_job Text) ∉
        (forEachDriverJob W (FinalCommandLine CommandLine ModuleName) (jobCallback W)
          { Action := Worker.newAction WorkingDirectory ModuleName, Trace := [] }).2.Trace := by
      intro Text
      unfold forEachDriverJob
      cases hB : (W.BuildCompilation (FinalCommandLine CommandLine ModuleName)).2 with
      | none => simp
      | some Jobs =>
        apply forEachDriverJob.loop_no_expected_job_diag
        simp
    have htrace : (Worker.computeDependencies W WorkingDirectory CommandLine ModuleName).2 =
        (Worker.runJobs W WorkingDirectory CommandLine ModuleName).2.Trace := by
      unfold DependencyScanningWorker.computeDependencies
      simp only []
      split_ifs <;> rfl
    rw [htrace]
    unfold DependencyScanningWorker.runJobs
    generalize forEachDriverJob W (FinalCommandLine CommandLine ModuleName) (jobCallback W)
      { Action := Worker.newAction WorkingDirectory ModuleName, Trace := [] } = R at hno
    by_cases h1 : R.1 = true <;> by_cases h2 : R.2.Action.hasScanned = true
    · simp [h1, h2, mem_diagnosticOutput, hno]
    · simp [h1, h2, mem_diagnosticOutput, hno]
    · simp [h1, h2, mem_diagnosticOutput, hno]
    · simp [h1, h2, mem_diagnosticOutput, hno]

/-- C5 at a concrete input: a command line that decomposes into a single link
job. -/
theorem computeDependencies_no_clang_job_witness :
    (exampleWorker.computeDependencies (exampleWorld [exampleLinkJob]) "/wd" ["ld", "a.o"] none).1 =
        LLVMError.StringError [Diagnostic.err_fe_expected_compiler_job "ld a.o"] ∧
    consumerCalls
        (exampleWorker.computeDependencies (exampleWorld [exampleLinkJob]) "/wd" ["ld", "a.o"] none).2 =
      [ConsumerCall.handleBuildCommand { Executable := "ld", Arguments := ["a.o", "-o", "a.out"] }] := by
  have h := (computeDependencies_no_clang_job (exampleWorld [exampleLinkJob]) exampleWorker
    "/wd" ["ld", "a.o"] none).1 [exampleLinkJob] rfl (by decide)
  rw [h.1, h.2]
  decide

/-- C6: when `computeDependencies` succeeds, the driver built a job list, the
`handleBuildCommand` calls that the consumer received carry the executables of
the jobs, one call per job in job order, and the `Commands` of a
`FullDependencyConsumer` that received the calls are these commands in this
order. -/
theorem computeDependencies_Commands (W : World) (Worker : DependencyScanningWorker)
    (WorkingDirectory : String) (CommandLine : List String) (ModuleName : Option String)
    (h : (Worker.computeDependencies W WorkingDirectory CommandLine ModuleName).1 =
      LLVMError.success) :
    ∃ Jobs : List driver.Command,
      (W.BuildCompilation (FinalCommandLine CommandLine ModuleName)).2 = some Jobs ∧
      (buildCommands (consumerCalls
          (Worker.computeDependencies W WorkingDirectory CommandLine ModuleName).2)).map
        Command.Executable = Jobs.map driver.Command.Executable ∧
      ∀ AlreadySeen : List String,
        ((FullDependencyConsumer.new AlreadySeen).feed (consumerCalls
          (Worker.computeDependencies W WorkingDirectory CommandLine ModuleName).2)).Commands =
        buildCommands (consumerCalls
          (Worker.computeDependencies W WorkingDirectory CommandLine ModuleName).2) := by
  have hfeed : ∀ (AlreadySeen : List String) (Calls : List ConsumerCall),
      ((FullDependencyConsumer.new AlreadySeen).feed Calls).Commands = buildCommands Calls := by
    intro AlreadySeen Calls
    rw [FullDependencyConsumer.feed_Commands]
    simp [FullDependencyConsumer.new]
  have hok := (Worker.computeDependencies_success_iff W WorkingDirectory CommandLine ModuleName).mp h
  obtain ⟨Jobs, hJobs, hloop⟩ := forEachDriverJob_of_true W _ _ hok.1
  refine ⟨Jobs, hJobs, ?_, fun AlreadySeen => hfeed AlreadySeen _⟩
  rw [Worker.computeDependencies_trace, (Worker.runJobs_eq W WorkingDirectory CommandLine
    ModuleName).2.2]
  rw [hloop] at hok ⊢
  rw [forEachDriverJob.loop_buildCommands W Jobs _ hok.1]
  have : buildCommands (consumerCalls
      (List.map (fun T => Event.diag (Diagnostic.collaborator T))
        (W.BuildCompilation (FinalCommandLine CommandLine ModuleName)).1)) = [] :=
    buildCommands_of_fromScan _ (by simp [Event.fromScan])
  simp [this]

/-- C6 at a concrete input: a command line that decomposes into a compile job
and a link job. -/
theorem computeDependencies_Commands_witness :
    (exampleWorker.computeDependencies (exampleWorld [exampleCompileJob, exampleLinkJob]) "/wd"
        ["clang", "a.cpp"] none).1 = LLVMError.success ∧
    (buildCommands (consumerCalls
        (exampleWorker.computeDependencies (exampleWorld [exampleCompileJob, exampleLinkJob]) "/wd"
          ["clang", "a.cpp"] none).2)).map Command.Executable = ["clang", "ld"] := by
  have h0 : (exampleWorker.computeDependencies (exampleWorld [exampleCompileJob, exampleLinkJob])
      "/wd" ["clang", "a.cpp"] none).1 = LLVMError.success := by decide
  obtain ⟨Jobs, hJ, hE, _⟩ := computeDependencies_Commands
    (exampleWorld [exampleCompileJob, exampleLinkJob]) exampleWorker "/wd" ["clang", "a.cpp"] none h0
  refine ⟨h0, ?_⟩
  rw [hE]
  have : Jobs = [exampleCompileJob, exampleLinkJob] := (Option.some.inj hJ).symm
  rw [this]
  rfl

/-- C7: a fresh action has not scanned. For every action and every sequence
of `runInvocation` calls on it, there is one result per call, after every call
the action has scanned, and every call after the first returns true, performs
no step at all (no setup, no preprocessing run, no `finalize`) and leaves the
action that the previous call left with the last cc1 arguments recomputed from
its own invocation. -/
theorem runInvocation_scans_once :
    (∀ (WorkingDirectory : String) (DepFS DepCASFS CacheFS : Bool) (Format : ScanningOutputFormat)
        (OptimizeArgs EagerLoadModules DisableFree EmitDependencyFile
          DiagGenerationAsCompilation : Bool) (ModuleName : Option String),
      (DependencyScanningAction.new WorkingDirectory DepFS DepCASFS CacheFS Format OptimizeArgs
        EagerLoadModules DisableFree EmitDependencyFile DiagGenerationAsCompilation
        ModuleName).Scanned = false) ∧
    ∀ (W : World) (A : DependencyScanningAction) (Invocations : List CompilerInvocation),
      (A.runInvocations W Invocations).length = Invocations.length ∧
      (∀ (k : Nat) (R : RunResult), (A.runInvocations W Invocations)[k]? = some R →
        R.Action.Scanned = true) ∧
      (∀ (k : Nat) (Prev R : RunResult) (Invocation : CompilerInvocation),
        (A.runInvocations W Invocations)[k]? = some Prev →
        (A.runInvocations W Invocations)[k + 1]? = some R →
        Invocations[k + 1]? = some Invocation →
        R.Result = true ∧ R.Events = [] ∧
        R.Action = Prev.Action.setLastCC1Arguments W
          { Invocation with DisableFree := Prev.Action.DisableFree }) := by
  refine ⟨fun _ _ _ _ _ _ _ _ _ _ _ => rfl, ?_⟩
  intro W A Invocations
  induction Invocations generalizing A with
  | nil => simp [DependencyScanningAction.runInvocations]
  | cons Inv Rest ih =>
    obtain ⟨ihL, ihS, ihN⟩ := ih (A.runInvocation W Inv).Action
    refine ⟨by simp [DependencyScanningAction.runInvocations, ihL], ?_, ?_⟩
    · intro k R hR
      cases k with
      | zero =>
        simp only [DependencyScanningAction.runInvocations, List.getElem?_cons_zero,
          Option.some.injEq] at hR
        rw [← hR]
        exact DependencyScanningAction.runInvocation_Scanned W A Inv
      | succ j =>
        simp only [DependencyScanningAction.runInvocations, List.getElem?_cons_succ] at hR
        exact ihS j R hR
    · intro k Prev R Invocation hP hR hI
      simp only [DependencyScanningAction.runInvocations, List.getElem?_cons_succ] at hR hI
      cases k with
      | zero =>
        simp only [DependencyScanningAction.runInvocations, List.getElem?_cons_zero,
          Option.some.injEq] at hP
        cases Rest with
        | nil => simp at hI
        | cons Inv2 Rest2 =>
          simp only [DependencyScanningAction.runInvocations, List.getElem?_cons_zero,
            Option.some.injEq] at hR hI
          subst hP hR hI
          exact DependencyScanningAction.runInvocation_of_Scanned W _ _
            (DependencyScanningAction.runInvocation_Scanned W A Inv)
      | succ j =>
        simp only [DependencyScanningAction.runInvocations, List.getElem?_cons_succ] at hP
        exact ihN j Prev R Invocation hP hR hI

/-- C8: when the jobs before it succeeded, a job that the `clang` tool did not
create makes the callback return true with the action unchanged and with one
more step, the `handleBuildCommand` call with the executable and the arguments
of the job, and the loop goes on with the jobs behind it. -/
theorem jobCallback_passes_non_clang_job (W : World) (Pre Post : List driver.Command)
    (Cmd : driver.Command) (S : ScanState)
    (hPre : (forEachDriverJob.loop (jobCallback W) Pre S).1 = true)
    (hCmd : Cmd.CreatorName ≠ "clang") :
    jobCallback W Cmd (forEachDriverJob.loop (jobCallback W) Pre S).2 =
      (true, { Action := (forEachDriverJob.loop (jobCallback W) Pre S).2.Action,
               Trace := (forEachDriverJob.loop (jobCallback W) Pre S).2.Trace ++
                 [Event.consumer (.handleBuildCommand
                   { Executable := Cmd.Executable, Arguments := Cmd.Arguments })] }) ∧
    forEachDriverJob.loop (jobCallback W) (Pre ++ Cmd :: Post) S =
      forEachDriverJob.loop (jobCallback W) Post
        { Action := (forEachDriverJob.loop (jobCallback W) Pre S).2.Action,
          Trace := (forEachDriverJob.loop (jobCallback W) Pre S).2.Trace ++
            [Event.consumer (.handleBuildCommand
              { Executable := Cmd.Executable, Arguments := Cmd.Arguments })] } := by
  have hcb := jobCallback_of_not_clang W Cmd (forEachDriverJob.loop (jobCallback W) Pre S).2 hCmd
  refine ⟨hcb, ?_⟩
  rw [forEachDriverJob.loop_append _ Pre (Cmd :: Post) S hPre]
  simp only [forEachDriverJob.loop, hcb, if_true]

/-- C8 at a concrete input: a link job behind a compile job. -/
theorem jobCallback_passes_non_clang_job_witness :
    ((forEachDriverJob.loop (jobCallback (exampleWorld [])) [exampleCompileJob]
        { Action := exampleWorker.newAction "/wd" none, Trace := [] }).1 = true ∧
      exampleLinkJob.CreatorName ≠ "clang") ∧
    (jobCallback (exampleWorld []) exampleLinkJob
        (forEachDriverJob.loop (jobCallback (exampleWorld [])) [exampleCompileJob]
          { Action := exampleWorker.newAction "/wd" none, Trace := [] }).2).2.Action.Scanned = true ∧
    consumerCalls (forEachDriverJob.loop (jobCallback (exampleWorld []))
        ([exampleCompileJob] ++ exampleLinkJob :: [])
        { Action := exampleWorker.newAction "/wd" none, Trace := [] }).2.Trace =
      [ConsumerCall.handleContextHash "h1", ConsumerCall.finalize,
       ConsumerCall.handleBuildCommand { Executable := "clang", Arguments := ["-cc1", "a.cpp"] },
       ConsumerCall.handleBuildCommand { Executable := "ld", Arguments := ["a.o", "-o", "a.out"] }] := by
  have h := jobCallback_passes_non_clang_job (exampleWorld []) [exampleCompileJob] []
    exampleLinkJob { Action := exampleWorker.newAction "/wd" none, Trace := [] }
    (by decide) (by decide)
  refine ⟨⟨by decide, by decide⟩, ?_, ?_⟩
  · rw [h.1]; decide
  · rw [h.2]; decide

/-- C9 fails on a relative path that begins with `..` and on a working
directory that holds a `..`: in `/wd` the dependency `../b.h` is handed to the
consumer as `/wd/../b.h`, and in `/a/../b` the dependency `x.h` is handed over
as `/a/../b/x.h`. It also fails where a network root name comes up: in the
working directory `//` the dependency `x` is handed over as `//x`, a network
root name without root directory; the root name of `//../x` is kept as it is;
and in `/wd` the bare root name `//..` is handed over as `//../wd/`. -/
theorem CanonPath_keeps_dot_dot :
    has_root_directory "/wd".data = true ∧
    CanonPath "/wd".data "../b.h".data = "/wd/../b.h".data ∧
    ¬ dotFree (CanonPath "/wd".data "../b.h".data) ∧
    DependencyConsumerForwarder.finishedMainFile "/wd" ["../b.h"] false =
      [Event.consumer .handleDependencyOutputOpts,
       Event.consumer (.handleFileDependency "/wd/../b.h")] ∧
    has_root_directory "/a/../b".data = true ∧
    CanonPath "/a/../b".data "x.h".data = "/a/../b/x.h".data ∧
    ¬ dotFree (CanonPath "/a/../b".data "x.h".data) ∧
    has_root_directory "//".data = true ∧
    CanonPath "//".data "x".data = "//x".data ∧
    has_root_directory (CanonPath "//".data "x".data) = false ∧
    CanonPath "/wd".data "//../x".data = "//../x".data ∧
    ¬ dotFree (CanonPath "/wd".data "//../x".data) ∧
    CanonPath "/wd".data "//..".data = "//../wd/".data ∧
    ¬ dotFree (CanonPath "/wd".data "//..".data) := by
  decide

/-- C9, amended: for every working directory with a root directory and every
collected path, the path handed to `handleFileDependency` has a root directory
unless the working directory is `//` and what `remove_dots` leaves of the path
is a single name. It has no `.` and no `..` piece exactly when: for a path
with a root directory, its network root name is not `//.` or `//..`; for a
path with neither root name nor root directory, the working directory has no
such piece and what `remove_dots` leaves of the path does not begin with `..`;
for a bare network root name, the name is not `//.` or `//..` and the relative
path of the working directory has no such piece. -/
theorem CanonPath_absolute_dotFree (W p : List Char) (hW : has_root_directory W = true) :
    (has_root_directory (CanonPath W p) = true ↔
      ¬ (W = ['/', '/'] ∧ remove_dots p true ≠ [] ∧ '/' ∉ remove_dots p true)) ∧
    (has_root_directory p = true →
      (dotFree (CanonPath W p) ↔ dotRootName p = false)) ∧
    (has_root_directory p = false → has_root_name p = false →
      (dotFree (CanonPath W p) ↔
        dotFree W ∧ (pathComponents (remove_dots p true)).head? ≠ some ['.', '.'])) ∧
    (has_root_directory p = false → has_root_name p = true →
      (dotFree (CanonPath W p) ↔ dotRootName p = false ∧ dotFree (relative_path W))) := by
  have habs : has_root_directory p = true →
      CanonPath W p = remove_dots p true ∧ has_root_directory (remove_dots p true) = true ∧
      ∃ ns : List (List Char), (∀ c ∈ ns, nameComponent c) ∧
        remove_dots p true = root_path p ++ joinComponents ns := by
    intro hp
    obtain ⟨ns, hns, hq⟩ := remove_dots_of_absolute p hp
    have hr := (root_root_join (root_path p) ns (root_path_shape p hp)
      (fun c hc => (hns c hc).1)).2
    rw [← hq] at hr
    refine ⟨?_, hr, ns, hns, hq⟩
    unfold CanonPath make_absolute
    simp [hr]
  have hrel : has_root_directory p = false → has_root_name p = false →
      p.head? ≠ some '/' ∧ (remove_dots p true).head? ≠ some '/' ∧
      CanonPath W p = path_append W (remove_dots p true) := by
    intro hp hn
    have hh := relative_of_no_root p hp hn
    obtain ⟨s, hs, hq⟩ := remove_dots_of_relative p hh
    have hclean : ∀ c ∈ s.reverse, cleanComponent c :=
      fun c hc => wellStacked_clean s hs c (List.mem_reverse.mp hc)
    have hj := has_root_directory_joinComponents s.reverse hclean
    refine ⟨hh, ?_, ?_⟩
    · rw [hq]; exact joinComponents_head _ hclean
    · unfold CanonPath make_absolute
      rw [hq]
      simp [hj.1, hj.2]
  have hbare : has_root_directory p = false → has_root_name p = true →
      ∃ n, n ≠ [] ∧ '/' ∉ n ∧ p = '/' :: '/' :: n ∧ remove_dots p true = '/' :: '/' :: n ∧
      ∃ Z, CanonPath W p = '/' :: '/' :: (n ++ '/' :: Z) ∧
        (dotFree Z ↔ dotFree (relative_path W)) := by
    intro hp hn
    obtain ⟨n, hne, hnn, rfl⟩ := bare_net_of_root_name p hp hn
    obtain ⟨Z, hZ, hd⟩ := make_absolute_bare_net W n hW hne hnn
    refine ⟨n, hne, hnn, rfl, remove_dots_bare_net n hne hnn, Z, ?_, hd⟩
    unfold CanonPath
    rw [remove_dots_bare_net n hne hnn]
    exact hZ
  refine ⟨?_, ?_, ?_, ?_⟩
  · cases hp : has_root_directory p
    · cases hn : has_root_name p
      · obtain ⟨_, hq, hc⟩ := hrel hp hn
        rw [hc]
        exact has_root_directory_path_append W _ hW hq
      · obtain ⟨n, hne, hnn, _, hq, Z, hc, _⟩ := hbare hp hn
        rw [hc, hq]
        refine iff_of_true ?_ (by simp)
        have h2 := (root_net n ('/' :: Z) hne hnn (Or.inr ⟨_, rfl⟩)).2.1
        simp [has_root_directory, h2]
    · obtain ⟨hc, hr, ns, _, hq⟩ := habs hp
      rw [hc]
      refine iff_of_true hr ?_
      rintro ⟨_, _, h3⟩
      apply h3
      rw [hq]
      rcases root_path_shape p hp with e | ⟨n, _, _, e⟩ <;> rw [e] <;> simp
  · intro hp
    obtain ⟨hc, _, ns, hns, hq⟩ := habs hp
    rw [hc, hq]
    rcases root_of_absolute p hp with ⟨e1, e2⟩ | ⟨n, hne, hnn, e1, e2⟩
    · rw [e2]
      refine iff_of_true ?_ (by simp [dotRootName, e1])
      exact (dotFree_cons_sep _).mpr (dotFree_joinComponents ns hns)
    · rw [e2, show '/' :: '/' :: (n ++ ['/']) ++ joinComponents ns =
        ('/' :: '/' :: n) ++ '/' :: joinComponents ns from by simp, dotFree_append_sep,
        dotFree_net n hnn]
      simp [dotRootName, e1, dotFree_joinComponents ns hns]
  · intro hp hn
    obtain ⟨hh, hq, hc⟩ := hrel hp hn
    have hWne : W ≠ [] := by
      obtain ⟨rest, e, _⟩ := (has_root_directory_iff W).mp hW
      rw [e]; simp
    rw [hc, ← dotFree_remove_dots_relative p hh]
    rcases path_append_relative W _ hWne hq with ⟨_, h⟩ | ⟨W0, hW0, h⟩
    · rw [h, dotFree_append_sep]
    · rw [h, dotFree_append_sep, hW0, dotFree_append_singleton_sep]
  · intro hp hn
    obtain ⟨n, hne, hnn, e, _, Z, hc, hd⟩ := hbare hp hn
    rw [hc, show '/' :: '/' :: (n ++ '/' :: Z) = ('/' :: '/' :: n) ++ '/' :: Z from by simp,
      dotFree_append_sep, dotFree_net n hnn, hd, e]
    simp [dotRootName, (root_bare_net n hne hnn).1]

/-- C9, amended, at concrete inputs: the dependencies `a/./b/../c.h` and
`//net/../x` in the working directory `/wd`. -/
theorem CanonPath_absolute_dotFree_witness :
    has_root_directory "/wd".data = true ∧
    CanonPath "/wd".data "a/./b/../c.h".data = "/wd/a/c.h".data ∧
    has_root_directory (CanonPath "/wd".data "a/./b/../c.h".data) = true ∧
    dotFree (CanonPath "/wd".data "a/./b/../c.h".data) ∧
    CanonPath "/wd".data "//net/../x".data = "//net/x".data ∧
    dotFree (CanonPath "/wd".data "//net/../x".data) :=
  ⟨by decide, by decide,
   (CanonPath_absolute_dotFree "/wd".data "a/./b/../c.h".data (by decide)).1.mpr (by decide),
   ((CanonPath_absolute_dotFree "/wd".data "a/./b/../c.h".data (by decide)).2.2.1
      (by decide) (by decide)).mpr ⟨by decide, by decide⟩,
   by decide,
   ((CanonPath_absolute_dotFree "/wd".data "//net/../x".data (by decide)).2.1
      (by decide)).mpr (by decide)⟩

/-- C10 fails on a relative path that begins with `..`: in `/wd` the
canonical form of `../b.h` is `/wd/../b.h`, whose canonical form is `/b.h`.
It also fails for the relative path `x.h` in a working directory that holds a
`..` (`/a/../b`) or is relative (`wd`), for the path `.` in `/wd`, whose
canonical form `/wd/` loses its last separator in a second pass, and for the
bare network root name `//net` in `/wd`, whose canonical form `//net/wd/`
loses its last separator in a second pass. -/
theorem CanonPath_not_idempotent :
    CanonPath "/wd".data "../b.h".data = "/wd/../b.h".data ∧
    CanonPath "/wd".data (CanonPath "/wd".data "../b.h".data) = "/b.h".data ∧
    CanonPath "/wd".data (CanonPath "/wd".data "../b.h".data) ≠
      CanonPath "/wd".data "../b.h".data ∧
    CanonPath "/a/../b".data "x.h".data = "/a/../b/x.h".data ∧
    CanonPath "/a/../b".data (CanonPath "/a/../b".data "x.h".data) = "/b/x.h".data ∧
    CanonPath "wd".data "x.h".data = "wd/x.h".data ∧
    CanonPath "wd".data (CanonPath "wd".data "x.h".data) = "wd/wd/x.h".data ∧
    CanonPath "/wd".data ".".data = "/wd/".data ∧
    CanonPath "/wd".data (CanonPath "/wd".data ".".data) = "/wd".data ∧
    CanonPath "/wd".data "//net".data = "//net/wd/".data ∧
    CanonPath "/wd".data (CanonPath "/wd".data "//net".data) = "//net/wd".data := by
  decide

/-- C10, amended: `canon(canon(p)) = canon(p)` holds for every path `p` with
a root directory and every working directory, and for every path `p` with
neither root name nor root directory when the working directory has a root
directory and is left as it is by `remove_dots`, and what `remove_dots` leaves
of `p` is not empty and does not begin with `..`. -/
theorem CanonPath_idempotent (W p : List Char) :
    (has_root_directory p = true → CanonPath W (CanonPath W p) = CanonPath W p) ∧
    (has_root_directory p = false → has_root_name p = false →
      has_root_directory W = true → remove_dots W true = W →
      remove_dots p true ≠ [] →
      (pathComponents (remove_dots p true)).head? ≠ some ['.', '.'] →
      CanonPath W (CanonPath W p) = CanonPath W p) := by
  refine ⟨?_, ?_⟩
  · intro hp
    obtain ⟨ns, hns, hq⟩ := remove_dots_of_absolute p hp
    have hr := (root_root_join (root_path p) ns (root_path_shape p hp)
      (fun c hc => (hns c hc).1)).2
    have hc : CanonPath W p = root_path p ++ joinComponents ns := by
      unfold CanonPath make_absolute
      rw [hq]
      simp [hr]
    rw [hc]
    exact CanonPath_root_join W _ ns (root_path_shape p hp) hns
  · intro hp hn hW hWc hne hup
    obtain ⟨ws, hws, hWq⟩ := remove_dots_of_absolute W hW
    rw [hWc] at hWq
    obtain ⟨cs, hcs, hq⟩ := remove_dots_relative_names p (relative_of_no_root p hp hn) hup
    have hclean : ∀ c ∈ cs, cleanComponent c := fun c hc => (hcs c hc).1
    have hj := has_root_directory_joinComponents cs hclean
    have hcsne : cs ≠ [] := by
      intro e
      apply hne
      rw [hq, e]
      rfl
    have hc : CanonPath W p = root_path W ++ joinComponents (ws ++ cs) := by
      unfold CanonPath make_absolute
      rw [hq]
      simp only [hj.1, hj.2, Bool.false_eq_true, if_false, if_true]
      have key : ∀ r : List Char,
          (r = ['/'] ∨ ∃ n, n ≠ [] ∧ '/' ∉ n ∧ r = '/' :: '/' :: (n ++ ['/'])) →
          W = r ++ joinComponents ws →
          path_append W (joinComponents cs) = r ++ joinComponents (ws ++ cs) := by
        intro r hr e
        rw [e]
        exact path_append_root_join r ws cs hr hws hcs hcsne
      exact key _ (root_path_shape W hW) hWq
    rw [hc]
    apply CanonPath_root_join _ _ _ (root_path_shape W hW)
    intro c hc2
    rcases List.mem_append.mp hc2 with h | h
    · exact hws c h
    · exact hcs c h

/-- C10, amended, at concrete inputs: the dependencies `a/./b/../c.h` and
`//net/../x` in the working directory `/wd`. -/
theorem CanonPath_idempotent_witness :
    CanonPath "/wd".data "a/./b/../c.h".data = "/wd/a/c.h".data ∧
    CanonPath "/wd".data (CanonPath "/wd".data "a/./b/../c.h".data) =
      CanonPath "/wd".data "a/./b/../c.h".data ∧
    CanonPath "/wd".data "//net/../x".data = "//net/x".data ∧
    CanonPath "/wd".data (CanonPath "/wd".data "//net/../x".data) =
      CanonPath "/wd".data "//net/../x".data :=
  ⟨by decide,
   (CanonPath_idempotent "/wd".data "a/./b/../c.h".data).2
      (by decide) (by decide) (by decide) (by decide) (by decide) (by decide),
   by decide,
   (CanonPath_idempotent "/wd".data "//net/../x".data).1 (by decide)⟩

/-- C11 fails when one module name is imported from two files: `root.pch`
imports `M` from `m1.pcm` and from `m2.pcm`, and `m2.pcm` imports `N` from
`n.pcm`; the visit started on the empty table ends with the single entry of
`M` for `m1.pcm`, without an entry for `N` and without the input file `n.h`. -/
theorem visitPrebuiltModule_misses_second_file :
    ("M", "m2.pcm") ∈ (exampleBlocks "root.pch").Imports ∧
    ("N", "n.pcm") ∈ (exampleBlocks "m2.pcm").Imports ∧
    "n.h" ∈ (exampleBlocks "n.pcm").InputFiles ∧
    visitPrebuiltModule exampleBlocks 5 "root.pch" [] [] true =
      some { Listener := { PrebuiltModuleFiles := [("M", "m1.pcm")],
                           InputFiles := ["root.h", "m.h"],
                           VisitInputFiles := true, NewModuleFiles := [] },
             Reads := ["root.pch", "m1.pcm"] } ∧
    "N" ∉ MapVector.keys [("M", "m1.pcm")] ∧
    "n.h" ∉ ["root.h", "m.h"] := by
  decide

/-- C11, amended: for every import relation with finitely many module names
in which every module name is imported from one file wherever it is imported
on the way from the root, `visitPrebuiltModule` started with an empty module
table returns, and its table holds every import of the root and of every file
reached from the root; when input-file visitation is requested, its
input-file set holds every input file of the root and of every file reached
from the root. -/
theorem visitPrebuiltModule_complete (Blocks : String → ControlBlock) (Names : List String)
    (Root : String) (VisitInputFiles : Bool) (fuel : Nat)
    (hfin : ∀ F, ∀ I ∈ (Blocks F).Imports, I.1 ∈ Names)
    (hone : ∀ F G I J, Reaches Blocks Root F → Reaches Blocks Root G →
      I ∈ (Blocks F).Imports → J ∈ (Blocks G).Imports → I.1 = J.1 → I.2 = J.2)
    (hfuel : Names.length + 2 ≤ fuel) :
    ∃ S, visitPrebuiltModule Blocks fuel Root [] [] VisitInputFiles = some S ∧
      (∀ F I, Reaches Blocks Root F → I ∈ (Blocks F).Imports →
        I ∈ S.Listener.PrebuiltModuleFiles) ∧
      (VisitInputFiles = true → ∀ F, Reaches Blocks Root F →
        ∀ f ∈ (Blocks F).InputFiles, f ∈ S.Listener.InputFiles) := by
  have hm := missingNames_le Names []
  obtain ⟨S, hS⟩ := visitPrebuiltModule.loop_returns Blocks Names hfin fuel
    { Listener := { PrebuiltModuleFiles := [], InputFiles := [],
                    VisitInputFiles := VisitInputFiles, NewModuleFiles := [Root] },
      Reads := [] } (by simp only [List.length_singleton]; omega)
  have hinv := visitPrebuiltModule.loop_invariant Blocks
    (fun T => visitInvariant Blocks Root T ∧ T.Listener.VisitInputFiles = VisitInputFiles)
    (by
      intro T File Rest hW hP
      refine ⟨visitPrebuiltModule.step_visitInvariant Blocks Root T File Rest hW hP.1, ?_⟩
      obtain ⟨_, _, _, r3, _⟩ := readASTFileControlBlock_spec (Blocks File)
        { T.Listener with NewModuleFiles := Rest }
      simp only [visitPrebuiltModule.step]
      rw [r3]
      exact hP.2)
    fuel _ S hS
    (by
      refine ⟨⟨by simp, ?_, by simp, by simp, by simp, by simp⟩, rfl⟩
      intro G hG
      simp only [List.not_mem_nil, List.mem_singleton, false_or] at hG
      rw [hG]
      exact Reaches.root)
  obtain ⟨⟨⟨ha, hb, hc, hd, he, hf⟩, hV⟩, hW⟩ := hinv
  have hread : ∀ F, Reaches Blocks Root F → F ∈ S.Reads := by
    intro F hF
    induction hF with
    | root =>
      rcases hd with h | h
      · rw [hW] at h; simp at h
      · exact h
    | step File Import hFile hI ih =>
      obtain ⟨E, hE, hEq⟩ := List.mem_map.mp (he File ih Import hI)
      obtain ⟨G, hG, hGE⟩ := ha E hE
      have := hone File G Import E hFile (hb G (Or.inl hG)) hI hGE hEq.symm
      rw [this]
      rcases hc E hE with h | h
      · rw [hW] at h; simp at h
      · exact h
  refine ⟨S, hS, ?_, ?_⟩
  · intro F I hF hI
    obtain ⟨E, hE, hEq⟩ := List.mem_map.mp (he F (hread F hF) I hI)
    obtain ⟨G, hG, hGE⟩ := ha E hE
    have h2 := hone F G I E hF (hb G (Or.inl hG)) hI hGE hEq.symm
    have : I = E := Prod.ext hEq.symm h2
    rw [this]
    exact hE
  · intro hVis F hF f hf2
    exact hf (by rw [hV]; exact hVis) F (hread F hF) f hf2

/-- C11, amended, at a concrete input: the root imports `A` and `B`, and each
of the two imports the other. -/
theorem visitPrebuiltModule_complete_witness :
    ∃ S, visitPrebuiltModule exampleCyclicBlocks 4 "root.pch" [] [] true = some S ∧
      (∀ F I, Reaches exampleCyclicBlocks "root.pch" F → I ∈ (exampleCyclicBlocks F).Imports →
        I ∈ S.Listener.PrebuiltModuleFiles) ∧
      (true = true → ∀ F, Reaches exampleCyclicBlocks "root.pch" F →
        ∀ f ∈ (exampleCyclicBlocks F).InputFiles, f ∈ S.Listener.InputFiles) :=
  visitPrebuiltModule_complete exampleCyclicBlocks ["A", "B"] "root.pch" true 4
    (by
      intro F I hI
      rcases exampleCyclicBlocks_imports F I hI with h | h <;> simp [h])
    (by
      intro F G I J _ _ hI hJ hEq
      rcases exampleCyclicBlocks_imports F I hI with h | h <;>
        rcases exampleCyclicBlocks_imports G J hJ with h2 | h2 <;>
        simp_all)
    (by decide)

/-- C12: `visitImport` pushes the file exactly when the module name is not in
the table, and then adds the entry. For every import relation with finitely
many module names, cyclic or not, and every initial table, `visitPrebuiltModule`
returns with an empty worklist; the table is the initial one followed by
entries with new, distinct names, and the number of control blocks read is
one plus the number of entries added. -/
theorem visitPrebuiltModule_terminates (Blocks : String → ControlBlock) (Names : List String)
    (Root : String) (ModuleFiles : PrebuiltModuleFilesT) (InputFiles : List String)
    (VisitInputFiles : Bool) (fuel : Nat)
    (hfin : ∀ F, ∀ I ∈ (Blocks F).Imports, I.1 ∈ Names)
    (hfuel : Names.length + 2 ≤ fuel) :
    (∀ (L : PrebuiltModuleListener) (ModuleName Filename : String),
      L.visitImport ModuleName Filename =
        if ModuleName ∈ MapVector.keys L.PrebuiltModuleFiles then L
        else { L with PrebuiltModuleFiles := L.PrebuiltModuleFiles ++ [(ModuleName, Filename)],
                      NewModuleFiles := Filename :: L.NewModuleFiles }) ∧
    ∃ (S : VisitState) (New : List (String × String)),
      visitPrebuiltModule Blocks fuel Root ModuleFiles InputFiles VisitInputFiles = some S ∧
      S.Listener.NewModuleFiles = [] ∧
      S.Listener.PrebuiltModuleFiles = ModuleFiles ++ New ∧
      (New.map Prod.fst).Nodup ∧
      (∀ E ∈ New, E.1 ∉ MapVector.keys ModuleFiles) ∧
      S.Reads.length = 1 + New.length := by
  refine ⟨PrebuiltModuleListener.visitImport_eq, ?_⟩
  have hm := missingNames_le Names ModuleFiles
  obtain ⟨S, hS⟩ := visitPrebuiltModule.loop_returns Blocks Names hfin fuel
    { Listener := { PrebuiltModuleFiles := ModuleFiles, InputFiles := InputFiles,
                    VisitInputFiles := VisitInputFiles, NewModuleFiles := [Root] },
      Reads := [] } (by simp only [List.length_singleton]; omega)
  obtain ⟨⟨New, h1, h2, h3, h4⟩, hW⟩ := visitPrebuiltModule.loop_invariant Blocks
    (visitCount ModuleFiles)
    (fun T File Rest hW hP => visitPrebuiltModule.step_visitCount Blocks ModuleFiles T File Rest hW hP)
    fuel _ S hS ⟨[], by simp, by simp, by simp, by simp⟩
  refine ⟨S, New, hS, hW, h1, h2, h3, ?_⟩
  rw [hW] at h4
  simpa using h4

/-- C12 at a concrete input: the root imports `A` and `B`, which import each
other; three control blocks are read. -/
theorem visitPrebuiltModule_terminates_witness :
    ∃ (S : VisitState) (New : List (String × String)),
      visitPrebuiltModule exampleCyclicBlocks 4 "root.pch" [] [] false = some S ∧
      S.Listener.NewModuleFiles = [] ∧
      S.Listener.PrebuiltModuleFiles = [] ++ New ∧
      (New.map Prod.fst).Nodup ∧
      (∀ E ∈ New, E.1 ∉ MapVector.keys ([] : PrebuiltModuleFilesT)) ∧
      S.Reads.length = 1 + New.length :=
  (visitPrebuiltModule_terminates exampleCyclicBlocks ["A", "B"] "root.pch" [] [] false 4
    (by
      intro F I hI
      rcases exampleCyclicBlocks_imports F I hI with h | h <;> simp [h])
    (by decide)).2

/-- C13 fails when the preprocessing action fails: with content addressing on,
a scan whose `ExecuteAction` returns false still finalizes the consumer and
reports the file-system root of the tree. -/
theorem runInvocation_finalizes_on_failure :
    ((exampleScanWorld false (Except.ok "tree")).scan exampleInvocation).Result = false ∧
    ((exampleCASWorker.newAction "/wd" none).runInvocation
      (exampleScanWorld false (Except.ok "tree")) exampleInvocation).Result = false ∧
    consumerCalls ((exampleCASWorker.newAction "/wd" none).runInvocation
      (exampleScanWorld false (Except.ok "tree")) exampleInvocation).Events =
      [ConsumerCall.handleContextHash "h1", ConsumerCall.finalize,
       ConsumerCall.handleCASFileSystemRootID "tree"] := by
  decide

/-- C13, amended: in the scanning call of `runInvocation` that got its
diagnostics engine, the consumer receives the calls of the collector, then
`finalize` exactly once, then, when content addressing is on and the tree was
created, the file-system root, whatever `ExecuteAction` returned, which is the
result of the call; a call that did not get its diagnostics engine returns
false without any call on the consumer. The steps of the call are the same for
both results of `ExecuteAction`; `setLastCC1Arguments` is applied to the
action when the result is true; when it is false the action is left as the
collector was added to it, or as it was marked scanned when there is no
diagnostics engine, and its last cc1 arguments stay as they were. -/
theorem runInvocation_finalize_unconditional (W : World) (A : DependencyScanningAction)
    (Invocation : CompilerInvocation) (hS : A.Scanned = false) :
    ((W.scan Invocation).hasDiagnostics = true →
      ∃ Scan : List ConsumerCall,
        consumerCalls (A.runInvocation W Invocation).Events =
          Scan ++ [ConsumerCall.finalize] ++
            (if A.CacheFS = true then
              match (W.scan Invocation).Tree with
              | .ok ID => [ConsumerCall.handleCASFileSystemRootID ID]
              | .error _ => []
             else []) ∧
        (∀ Call ∈ Scan, Call ≠ ConsumerCall.finalize ∧
          ∀ ID, Call ≠ ConsumerCall.handleCASFileSystemRootID ID) ∧
        (A.runInvocation W Invocation).Result = (W.scan Invocation).Result) ∧
    ((W.scan Invocation).hasDiagnostics = false →
      consumerCalls (A.runInvocation W Invocation).Events = [] ∧
      (A.runInvocation W Invocation).Result = false) ∧
    (∀ b : Bool,
      (A.runInvocation { W with scan := fun I => { W.scan I with Result := b } }
        Invocation).Events = (A.runInvocation W Invocation).Events) ∧
    ((A.runInvocation W Invocation).Result = true →
      (A.runInvocation W Invocation).Action =
        ((({ A with Scanned := true } : DependencyScanningAction).addDependencyCollector
          { Invocation with DisableFree := A.DisableFree }).1).setLastCC1Arguments W
          { Invocation with DisableFree := A.DisableFree }) ∧
    ((A.runInvocation W Invocation).Result = false →
      (A.runInvocation W Invocation).Action =
        (if (W.scan Invocation).hasDiagnostics = true then
          (({ A with Scanned := true } : DependencyScanningAction).addDependencyCollector
            { Invocation with DisableFree := A.DisableFree }).1
         else { A with Scanned := true }) ∧
      (A.runInvocation W Invocation).Action.LastCC1Arguments = A.LastCC1Arguments) := by
  refine ⟨fun hD => DependencyScanningAction.runInvocation_calls W A Invocation hS hD, ?_, ?_, ?_, ?_⟩
  · intro hD
    unfold DependencyScanningAction.runInvocation
    simp only [hS, hD, Bool.false_eq_true, if_false, Bool.not_false, if_true, and_true]
    rw [consumerCalls_append]
    split_ifs <;> rfl
  · intro b
    unfold DependencyScanningAction.runInvocation
    simp only [hS, Bool.false_eq_true, if_false]
    split_ifs <;> rfl
  · intro hR
    unfold DependencyScanningAction.runInvocation at hR ⊢
    simp only [hS, Bool.false_eq_true, if_false] at hR ⊢
    by_cases hD : (W.scan Invocation).hasDiagnostics = true
    · simp only [hD, Bool.not_true, Bool.false_eq_true, if_false] at hR ⊢
      simp only [hR, if_true]
    · simp [hD] at hR
  · intro hR
    have hF := (DependencyScanningAction.addDependencyCollector_frame
      ({ A with Scanned := true }) { Invocation with DisableFree := A.DisableFree }).2.2.1
    unfold DependencyScanningAction.runInvocation at hR ⊢
    simp only [hS, Bool.false_eq_true, if_false] at hR ⊢
    by_cases hD : (W.scan Invocation).hasDiagnostics = true
    · simp only [hD, Bool.not_true, Bool.false_eq_true, if_false] at hR ⊢
      simp only [hR, Bool.false_eq_true, if_false, if_true]
      exact ⟨trivial, hF⟩
    · simp [hD]

/-- C13, amended, at a concrete input: a failing scan with content
addressing. -/
theorem runInvocation_finalize_unconditional_witness :
    (exampleCASWorker.newAction "/wd" none).Scanned = false ∧
    ((exampleScanWorld false (Except.ok "tree")).scan exampleInvocation).Result = false ∧
    ConsumerCall.finalize ∈ consumerCalls ((exampleCASWorker.newAction "/wd" none).runInvocation
      (exampleScanWorld false (Except.ok "tree")) exampleInvocation).Events ∧
    ConsumerCall.handleCASFileSystemRootID "tree" ∈
      consumerCalls ((exampleCASWorker.newAction "/wd" none).runInvocation
        (exampleScanWorld false (Except.ok "tree")) exampleInvocation).Events ∧
    ((exampleCASWorker.newAction "/wd" none).runInvocation
      (exampleScanWorld false (Except.ok "tree")) exampleInvocation).Action.LastCC1Arguments = [] := by
  have T := runInvocation_finalize_unconditional
    (exampleScanWorld false (Except.ok "tree")) (exampleCASWorker.newAction "/wd" none)
    exampleInvocation rfl
  obtain ⟨Scan, h, _, _⟩ := T.1 rfl
  refine ⟨rfl, rfl, ?_, ?_, (T.2.2.2.2 (by decide)).2⟩
  · rw [h]; simp
  · rw [h]
    simp [exampleCASWorker, DependencyScanningWorker.newAction, DependencyScanningAction.new,
      exampleScanWorld]

/-- C14 at the failing input: with content addressing on, a scan whose
preprocessing succeeds and whose tree creation fails makes `runInvocation`
return true and `computeDependencies` return success; the diagnostic of the
failed tree creation is written to the captured output, which a success does
not carry, and no file-system root reaches the consumer. -/
theorem computeDependencies_succeeds_on_tree_failure :
    ((exampleCASWorker.newAction "/wd" none).runInvocation
      (exampleScanWorld true (Except.error "store error")) exampleInvocation).Result = true ∧
    (exampleCASWorker.computeDependencies (exampleScanWorld true (Except.error "store error"))
      "/wd" ["clang", "a.cpp"] none).1 = LLVMError.success ∧
    diagnosticOutput (exampleCASWorker.computeDependencies
      (exampleScanWorld true (Except.error "store error")) "/wd" ["clang", "a.cpp"] none).2 =
      [Diagnostic.err_cas_depscan_failed "store error"] ∧
    consumerCalls (exampleCASWorker.computeDependencies
      (exampleScanWorld true (Except.error "store error")) "/wd" ["clang", "a.cpp"] none).2 =
      [ConsumerCall.handleContextHash "h1", ConsumerCall.finalize,
       ConsumerCall.handleBuildCommand { Executable := "clang", Arguments := ["-cc1", "a.cpp"] }] := by
  decide

/-- C15: `computeDependencies` returns success exactly when the driver built
a job list, every job callback succeeded on the state that the jobs before it
left, and one of the jobs is a `clang` job; the callback of a `clang` job
succeeds exactly when its tool invocation reaches the action and
`runInvocation` returns true. The result is success or a `StringError` with
the captured diagnostics. When a callback fails behind successful ones, the
steps performed are those up to and including the failing callback, with
nothing of the jobs behind it. -/
theorem computeDependencies_all_or_nothing (W : World) (Worker : DependencyScanningWorker)
    (WorkingDirectory : String) (CommandLine : List String) (ModuleName : Option String) :
    ((Worker.computeDependencies W WorkingDirectory CommandLine ModuleName).1 = LLVMError.success ↔
      ∃ Jobs : List driver.Command,
        (W.BuildCompilation (FinalCommandLine CommandLine ModuleName)).2 = some Jobs ∧
        (∀ Pre J Post, Jobs = Pre ++ J :: Post →
          (jobCallback W J (forEachDriverJob.loop (jobCallback W) Pre
            { Action := Worker.newAction WorkingDirectory ModuleName,
              Trace := (W.BuildCompilation (FinalCommandLine CommandLine ModuleName)).1.map
                (fun T => Event.diag (.collaborator T)) }).2).1 = true) ∧
        ∃ J ∈ Jobs, J.CreatorName = "clang") ∧
    (∀ (Cmd : driver.Command) (S : ScanState), Cmd.CreatorName = "clang" →
      ((jobCallback W Cmd S).1 = true ↔
        ∃ Invocation, (W.newInvocation (Cmd.Executable :: Cmd.Arguments)).2 = some Invocation ∧
          (S.Action.runInvocation W Invocation).Result = true)) ∧
    ((Worker.computeDependencies W WorkingDirectory CommandLine ModuleName).1 = LLVMError.success ∨
      (Worker.computeDependencies W WorkingDirectory CommandLine ModuleName).1 =
        LLVMError.StringError (diagnosticOutput
          (Worker.computeDependencies W WorkingDirectory CommandLine ModuleName).2)) ∧
    (∀ (Pre Post : List driver.Command) (J : driver.Command),
      (W.BuildCompilation (FinalCommandLine CommandLine ModuleName)).2 = some (Pre ++ J :: Post) →
      (forEachDriverJob.loop (jobCallback W) Pre
        { Action := Worker.newAction WorkingDirectory ModuleName,
          Trace := (W.BuildCompilation (FinalCommandLine CommandLine ModuleName)).1.map
            (fun T => Event.diag (.collaborator T)) }).1 = true →
      (jobCallback W J (forEachDriverJob.loop (jobCallback W) Pre
        { Action := Worker.newAction WorkingDirectory ModuleName,
          Trace := (W.BuildCompilation (FinalCommandLine CommandLine ModuleName)).1.map
            (fun T => Event.diag (.collaborator T)) }).2).1 = false →
      Worker.computeDependencies W WorkingDirectory CommandLine ModuleName =
        (LLVMError.StringError (diagnosticOutput
          (jobCallback W J (forEachDriverJob.loop (jobCallback W) Pre
            { Action := Worker.newAction WorkingDirectory ModuleName,
              Trace := (W.BuildCompilation (FinalCommandLine CommandLine ModuleName)).1.map
                (fun T => Event.diag (.collaborator T)) }).2).2.Trace),
         (jobCallback W J (forEachDriverJob.loop (jobCallback W) Pre
            { Action := Worker.newAction WorkingDirectory ModuleName,
              Trace := (W.BuildCompilation (FinalCommandLine CommandLine ModuleName)).1.map
                (fun T => Event.diag (.collaborator T)) }).2).2.Trace)) := by
  have hrun : ∀ Jobs, (W.BuildCompilation (FinalCommandLine CommandLine ModuleName)).2 = some Jobs →
      forEachDriverJob W (FinalCommandLine CommandLine ModuleName) (jobCallback W)
        { Action := Worker.newAction WorkingDirectory ModuleName, Trace := [] } =
      forEachDriverJob.loop (jobCallback W) Jobs
        { Action := Worker.newAction WorkingDirectory ModuleName,
          Trace := (W.BuildCompilation (FinalCommandLine CommandLine ModuleName)).1.map
            (fun T => Event.diag (.collaborator T)) } := by
    intro Jobs hJ
    simp [forEachDriverJob, hJ]
  have hnew : (Worker.newAction WorkingDirectory ModuleName).Scanned = false := rfl
  refine ⟨?_, fun Cmd S h => jobCallback_clang_iff W Cmd S h, ?_, ?_⟩
  · rw [Worker.computeDependencies_success_iff]
    constructor
    · rintro ⟨h1, h2⟩
      obtain ⟨Jobs, hJobs, _⟩ := forEachDriverJob_of_true W _ _ h1
      rw [hrun Jobs hJobs] at h1 h2
      refine ⟨Jobs, hJobs, (forEachDriverJob.loop_true_iff _ _ _).mp h1, ?_⟩
      have := (forEachDriverJob.loop_Scanned W Jobs _ h1).mp h2
      simpa [hnew] using this
    · rintro ⟨Jobs, hJobs, hall, hclang⟩
      rw [hrun Jobs hJobs]
      have h1 := (forEachDriverJob.loop_true_iff _ _ _).mpr hall
      exact ⟨h1, (forEachDriverJob.loop_Scanned W Jobs _ h1).mpr (Or.inr hclang)⟩
  · unfold DependencyScanningWorker.computeDependencies
    simp only []
    split_ifs
    · exact Or.inl rfl
    · exact Or.inr rfl
  · intro Pre Post J hJobs hPre hJ
    have hloop := forEachDriverJob.loop_stops (jobCallback W) Pre Post J _ hPre hJ
    have hf := hrun _ hJobs
    rw [hloop] at hf
    unfold DependencyScanningWorker.computeDependencies DependencyScanningWorker.runJobs
    simp only [hf]
    simp

/-- C15 at a concrete input: a compile job whose scan fails, in front of a
link job that is not reported. -/
theorem computeDependencies_all_or_nothing_witness :
    exampleWorker.computeDependencies
        { exampleScanWorld false (Except.error "no store") with
          BuildCompilation := fun _ => ([], some ([] ++ exampleCompileJob :: [exampleLinkJob])) }
        "/wd" ["clang", "a.cpp"] none =
      (LLVMError.StringError [],
       [Event.createScanInstance,
        Event.addDependencyCollector CollectorKind.ModuleDepCollector, Event.ExecuteAction,
        Event.consumer (ConsumerCall.handleContextHash "h1"),
        Event.consumer ConsumerCall.finalize, Event.clearStatCache]) := by
  rw [(computeDependencies_all_or_nothing
    { exampleScanWorld false (Except.error "no store") with
      BuildCompilation := fun _ => ([], some ([] ++ exampleCompileJob :: [exampleLinkJob])) }
    exampleWorker "/wd" ["clang", "a.cpp"] none).2.2.2 [] [exampleLinkJob] exampleCompileJob
    rfl (by decide) (by decide)]
  decide

/-- C16 fails: the consumer holds `AlreadySeen` by constant reference and no
handler changes it. After module `M` was reported to a consumer with an empty
`AlreadySeen` and put into `DiscoveredModules`, `AlreadySeen` is still empty,
and a second identical scan with the same set discovers `M` again. -/
theorem takeFullDependencies_keeps_AlreadySeen :
    (((FullDependencyConsumer.new []).feed
      [ConsumerCall.handleModuleDependency (exampleModule "h1" "M" [])]).takeFullDependencies).DiscoveredModules =
      [exampleModule "h1" "M" []] ∧
    ((FullDependencyConsumer.new []).feed
      [ConsumerCall.handleModuleDependency (exampleModule "h1" "M" [])]).AlreadySeen = [] ∧
    (exampleModule "h1" "M" []).ID.key ∉
      ((FullDependencyConsumer.new []).feed
        [ConsumerCall.handleModuleDependency (exampleModule "h1" "M" [])]).AlreadySeen ∧
    (((FullDependencyConsumer.new
        ((FullDependencyConsumer.new []).feed
          [ConsumerCall.handleModuleDependency (exampleModule "h1" "M" [])]).AlreadySeen).feed
      [ConsumerCall.handleModuleDependency (exampleModule "h1" "M" [])]).takeFullDependencies).DiscoveredModules ≠
      [] := by
  decide

/-- C16, amended: the aggregation step leaves the `AlreadySeen` set of the
caller as it is; a second identical scan returns an empty `DiscoveredModules`
once the caller has added the keys of the discovered modules to the set. -/
theorem takeFullDependencies_AlreadySeen_unchanged (AlreadySeen : List String)
    (Calls : List ConsumerCall) :
    ((FullDependencyConsumer.new AlreadySeen).feed Calls).AlreadySeen = AlreadySeen ∧
    (((FullDependencyConsumer.new
        (AlreadySeen ++
          (((FullDependencyConsumer.new AlreadySeen).feed Calls).takeFullDependencies).DiscoveredModules.map
            (fun M => M.ID.key))).feed Calls).takeFullDependencies).DiscoveredModules = [] := by
  refine ⟨FullDependencyConsumer.feed_AlreadySeen _ _, ?_⟩
  have hmap : ∀ AS2, ((FullDependencyConsumer.new AS2).feed Calls).ClangModuleDeps =
      ((FullDependencyConsumer.new AlreadySeen).feed Calls).ClangModuleDeps :=
    fun AS2 => FullDependencyConsumer.feed_ClangModuleDeps_congr _ _ Calls rfl
  have hinv : ∀ E ∈ ((FullDependencyConsumer.new AlreadySeen).feed Calls).ClangModuleDeps,
      E.1 = E.2.ID.key := by
    intro E hE
    rcases FullDependencyConsumer.feed_mem _ _ _ hE with h | h
    · simp [FullDependencyConsumer.new] at h
    · exact h.2
  simp only [FullDependencyConsumer.takeFullDependencies, FullDependencyConsumer.feed_AlreadySeen,
    hmap]
  generalize ((FullDependencyConsumer.new AlreadySeen).feed Calls).ClangModuleDeps = M at hinv
  simp only [FullDependencyConsumer.new, List.map_eq_nil_iff, List.filter_eq_nil_iff,
    decide_eq_true_eq, not_not, List.mem_append, List.mem_map, List.mem_filter]
  intro E hE
  by_cases hA : E.1 ∈ AlreadySeen
  · exact Or.inl hA
  · right
    exact ⟨E.2, ⟨E, ⟨hE, hA⟩, rfl⟩, (hinv E hE).symm⟩

/-- C16, amended, at a concrete input: module `M` is discovered by the first
scan, the set of the caller stays empty, and the scan on the set with the key
of `M` added discovers nothing. -/
theorem takeFullDependencies_AlreadySeen_unchanged_witness :
    ((FullDependencyConsumer.new []).feed
      [ConsumerCall.handleModuleDependency (exampleModule "h1" "M" [])]).AlreadySeen = [] ∧
    (((FullDependencyConsumer.new ([] ++ ["h1M"])).feed
      [ConsumerCall.handleModuleDependency (exampleModule "h1" "M" [])]).takeFullDependencies).DiscoveredModules =
      [] :=
  takeFullDependencies_AlreadySeen_unchanged []
    [ConsumerCall.handleModuleDependency (exampleModule "h1" "M" [])]

/-- C17: when the module map holds `MD` under its key and `MD` is imported by
the main file, the `ClangModuleDeps` of the target holds the identity of `MD`
whatever `AlreadySeen` is, and `ClangModuleDeps` is the same for every
`AlreadySeen`; when the single reported module is imported by the main file
and its key is in `AlreadySeen`, `ClangModuleDeps` is that module alone and
`DiscoveredModules` is empty. -/
theorem takeFullDependencies_ClangModuleDeps (AlreadySeen : List String)
    (Calls : List ConsumerCall) (MD : ModuleDeps)
    (hMD : MapVector.lookup ((FullDependencyConsumer.new AlreadySeen).feed Calls).ClangModuleDeps
      MD.ID.key = some MD)
    (hImp : MD.ImportedByMainFile = true) :
    MD.ID ∈ (((FullDependencyConsumer.new AlreadySeen).feed Calls).takeFullDependencies).FullDeps.ClangModuleDeps ∧
    (∀ AS2 : List String,
      (((FullDependencyConsumer.new AS2).feed Calls).takeFullDependencies).FullDeps.ClangModuleDeps =
      (((FullDependencyConsumer.new AlreadySeen).feed Calls).takeFullDependencies).FullDeps.ClangModuleDeps) ∧
    (MD.ID.key ∈ AlreadySeen →
      (((FullDependencyConsumer.new AlreadySeen).feed
        [ConsumerCall.handleModuleDependency MD]).takeFullDependencies).FullDeps.ClangModuleDeps =
        [MD.ID] ∧
      (((FullDependencyConsumer.new AlreadySeen).feed
        [ConsumerCall.handleModuleDependency MD]).takeFullDependencies).DiscoveredModules = []) := by
  refine ⟨?_, ?_, ?_⟩
  · have hmem := MapVector.mem_of_lookup _ _ _ hMD
    simp only [FullDependencyConsumer.takeFullDependencies, List.mem_map, List.mem_filter]
    exact ⟨(MD.ID.key, MD), ⟨hmem, hImp⟩, rfl⟩
  · intro AS2
    simp only [FullDependencyConsumer.takeFullDependencies]
    rw [FullDependencyConsumer.feed_ClangModuleDeps_congr (FullDependencyConsumer.new AS2)
      (FullDependencyConsumer.new AlreadySeen) Calls rfl]
  · intro hSeen
    simp [FullDependencyConsumer.takeFullDependencies, FullDependencyConsumer.feed,
      FullDependencyConsumer.handle, FullDependencyConsumer.handleModuleDependency,
      FullDependencyConsumer.new, MapVector.assign, hImp, hSeen]

/-- C17 at a concrete input: module `M`, imported by the main file, reported
in a scan whose `AlreadySeen` holds its key. -/
theorem takeFullDependencies_ClangModuleDeps_witness :
    (((FullDependencyConsumer.new ["h1M"]).feed
      [ConsumerCall.handleModuleDependency (exampleModule "h1" "M" [])]).takeFullDependencies).FullDeps.ClangModuleDeps =
      [{ ContextHash := "h1", ModuleName := "M" }] ∧
    (((FullDependencyConsumer.new ["h1M"]).feed
      [ConsumerCall.handleModuleDependency (exampleModule "h1" "M" [])]).takeFullDependencies).DiscoveredModules = [] :=
  (takeFullDependencies_ClangModuleDeps ["h1M"]
    [ConsumerCall.handleModuleDependency (exampleModule "h1" "M" [])] (exampleModule "h1" "M" [])
    (by decide) rfl).2.2 (by decide)

/-- C18: in a scanning call of `runInvocation` on a fresh action that got its
diagnostics engine, exactly one collector is installed: the forwarder for
`Make` and `Tree`, the include-tree collector for `IncludeTree`, the module
collector for `Full` and `FullTree`. For `Full` and `FullTree` the action
leaves `MDC` set, built with the `OptimizeArgs` and `EagerLoadModules` of the
action, and `setLastCC1Arguments` applies the discovered dependencies; for the
other formats `MDC` stays null and `setLastCC1Arguments` stores the cc1
command line of the invocation as it is. -/
theorem runInvocation_collector_by_format (W : World) (A : DependencyScanningAction)
    (Invocation : CompilerInvocation) (hS : A.Scanned = false) (hM : A.MDC = none)
    (hD : (W.scan Invocation).hasDiagnostics = true) :
    (A.Format = .Make ∨ A.Format = .Tree →
      installedCollectors (A.runInvocation W Invocation).Events =
        [CollectorKind.DependencyConsumerForwarder]) ∧
    (A.Format = .IncludeTree →
      installedCollectors (A.runInvocation W Invocation).Events =
        [CollectorKind.IncludeTreeCollector]) ∧
    (A.Format = .Full ∨ A.Format = .FullTree →
      installedCollectors (A.runInvocation W Invocation).Events =
        [CollectorKind.ModuleDepCollector]) ∧
    ((A.runInvocation W Invocation).Action.MDC.isSome = true ↔
      (A.Format = .Full ∨ A.Format = .FullTree)) ∧
    (A.Format = .Full ∨ A.Format = .FullTree →
      ∃ M : ModuleDepCollector, (A.runInvocation W Invocation).Action.MDC = some M ∧
        M.OptimizeArgs = A.OptimizeArgs ∧ M.EagerLoadModules = A.EagerLoadModules ∧
        ∀ CI, ((A.runInvocation W Invocation).Action.setLastCC1Arguments W CI).LastCC1Arguments =
          (W.applyDiscoveredDependencies M CI).CC1CommandLine) ∧
    (¬ (A.Format = .Full ∨ A.Format = .FullTree) →
      ∀ CI, ((A.runInvocation W Invocation).Action.setLastCC1Arguments W CI).LastCC1Arguments =
        CI.CC1CommandLine) := by
  obtain ⟨hI, hMDC⟩ := DependencyScanningAction.runInvocation_collector W A Invocation hS hD
  rw [hI]
  cases hF : A.Format <;>
    simp [DependencyScanningAction.addDependencyCollector, hF, hM, hMDC,
      DependencyScanningAction.setLastCC1Arguments]

/-- C18 at a concrete input: a fresh action of the `Full` format. -/
theorem runInvocation_collector_by_format_witness :
    ((exampleWorker.newAction "/wd" none).Scanned = false ∧
      (exampleWorker.newAction "/wd" none).MDC = none ∧
      ((exampleWorld []).scan exampleInvocation).hasDiagnostics = true) ∧
    installedCollectors ((exampleWorker.newAction "/wd" none).runInvocation (exampleWorld [])
      exampleInvocation).Events = [CollectorKind.ModuleDepCollector] :=
  ⟨⟨rfl, rfl, rfl⟩,
   (runInvocation_collector_by_format (exampleWorld []) (exampleWorker.newAction "/wd" none)
      exampleInvocation rfl rfl rfl).2.2.1 (Or.inl rfl)⟩

/-- C19: the forwarder and the include-tree collector write the dependency
file exactly when their `EmitDependencyFile` is set, and `runInvocation`
builds them with the flag of the action: a call writes the file exactly when
it scans with the flag set, the format is `Make`, `Tree` or `IncludeTree`, and
the end of the main file is reached. The action of `computeDependencies` has
`EmitDependencyFile = false`, and no step of `computeDependencies` writes the
file. The action of `computeDependenciesFromCompilerInvocation` has
`EmitDependencyFile = true` exactly when the dependency output file of the
invocation is not empty, and its scan writes the file exactly then, for the
three formats, when the end of the main file is reached. The calls of the
forwarder on the consumer, the output options and every dependency in
canonical form, and the consumer calls of a whole `runInvocation` call are the
same with and without the flag. -/
theorem writeDependencyFile_iff_EmitDependencyFile :
    (∀ (WorkingDirectory : String) (Dependencies : List String) (EmitDependencyFile : Bool),
      Event.writeDependencyFile ∈ DependencyConsumerForwarder.finishedMainFile WorkingDirectory
        Dependencies EmitDependencyFile ↔ EmitDependencyFile = true) ∧
    (∀ EmitDependencyFile : Bool,
      Event.writeDependencyFile ∈ IncludeTreeCollector.finishedMainFile EmitDependencyFile ↔
        EmitDependencyFile = true) ∧
    (∀ (W : World) (A : DependencyScanningAction) (Invocation : CompilerInvocation),
      Event.writeDependencyFile ∈ (A.runInvocation W Invocation).Events ↔
        A.Scanned = false ∧ (W.scan Invocation).hasDiagnostics = true ∧
        A.EmitDependencyFile = true ∧ (W.scan Invocation).MainFileFinished = true ∧
        (A.Format = .Make ∨ A.Format = .Tree ∨ A.Format = .IncludeTree)) ∧
    (∀ (Worker : DependencyScanningWorker) (WorkingDirectory : String)
        (ModuleName : Option String),
      (Worker.newAction WorkingDirectory ModuleName).EmitDependencyFile = false) ∧
    (∀ (W : World) (Worker : DependencyScanningWorker) (WorkingDirectory : String)
        (CommandLine : List String) (ModuleName : Option String),
      Event.writeDependencyFile ∉
        (Worker.computeDependencies W WorkingDirectory CommandLine ModuleName).2) ∧
    (∀ (Worker : DependencyScanningWorker) (Invocation : CompilerInvocation)
        (WorkingDirectory : String) (DiagGenerationAsCompilation : Bool),
      (Worker.newActionFromCompilerInvocation Invocation WorkingDirectory
        DiagGenerationAsCompilation).EmitDependencyFile = true ↔
      Invocation.DependencyOutputFile ≠ "") ∧
    (∀ (W : World) (Worker : DependencyScanningWorker) (Invocation : CompilerInvocation)
        (WorkingDirectory : String) (DiagGenerationAsCompilation : Bool),
      Event.writeDependencyFile ∈
        (Worker.computeDependenciesFromCompilerInvocation W Invocation WorkingDirectory
          DiagGenerationAsCompilation).Events ↔
      Invocation.DependencyOutputFile ≠ "" ∧
      (W.scan { Invocation with
        DisableFree := false,
        DependencyOutputFile :=
          absoluteDepFile WorkingDirectory Invocation.DependencyOutputFile }).hasDiagnostics = true ∧
      (W.scan { Invocation with
        DisableFree := false,
        DependencyOutputFile :=
          absoluteDepFile WorkingDirectory Invocation.DependencyOutputFile }).MainFileFinished = true ∧
      (Worker.Format = .Make ∨ Worker.Format = .Tree ∨ Worker.Format = .IncludeTree)) ∧
    (∀ (WorkingDirectory : String) (Dependencies : List String) (EmitDependencyFile : Bool),
      consumerCalls (DependencyConsumerForwarder.finishedMainFile WorkingDirectory Dependencies
        EmitDependencyFile) =
      ConsumerCall.handleDependencyOutputOpts ::
        Dependencies.map (fun File =>
          ConsumerCall.handleFileDependency
            (String.mk (CanonPath WorkingDirectory.data File.data)))) ∧
    (∀ (W : World) (A : DependencyScanningAction) (Invocation : CompilerInvocation) (b : Bool),
      consumerCalls (({ A with EmitDependencyFile := b }).runInvocation W Invocation).Events =
        consumerCalls (A.runInvocation W Invocation).Events) := by
  have hflag : ∀ (Worker : DependencyScanningWorker) (Invocation : CompilerInvocation)
      (WD : String) (DG : Bool),
      (Worker.newActionFromCompilerInvocation Invocation WD DG).EmitDependencyFile = true ↔
        Invocation.DependencyOutputFile ≠ "" := by
    intro Worker Invocation WD DG
    simp only [DependencyScanningWorker.newActionFromCompilerInvocation,
      DependencyScanningAction.new, decide_eq_true_eq]
    exact absoluteDepFile_ne_empty_iff WD Invocation.DependencyOutputFile
  refine ⟨?_, ?_, DependencyScanningAction.runInvocation_writeDependencyFile, ?_,
    DependencyScanningWorker.computeDependencies_no_writeDependencyFile, hflag, ?_, ?_,
    DependencyScanningAction.runInvocation_calls_congr⟩
  · intro WD Deps Emit
    cases Emit <;> simp [DependencyConsumerForwarder.finishedMainFile]
  · intro Emit
    cases Emit <;> simp [IncludeTreeCollector.finishedMainFile]
  · intro Worker WD MN
    rfl
  · intro W Worker Invocation WD DG
    unfold DependencyScanningWorker.computeDependenciesFromCompilerInvocation
    rw [DependencyScanningAction.runInvocation_writeDependencyFile, hflag]
    simp [DependencyScanningWorker.newActionFromCompilerInvocation, DependencyScanningAction.new]
    tauto
  · intro WD Deps Emit
    simp only [DependencyConsumerForwarder.finishedMainFile, consumerCalls_append]
    have h1 : consumerCalls (if Emit = true then [Event.writeDependencyFile] else []) = [] := by
      split_ifs <;> rfl
    have h2 : ∀ L : List String, consumerCalls (L.map (fun File =>
        Event.consumer (.handleFileDependency (String.mk (CanonPath WD.data File.data))))) =
        L.map (fun File =>
          ConsumerCall.handleFileDependency (String.mk (CanonPath WD.data File.data))) := by
      intro L
      induction L with
      | nil => rfl
      | cons x Rest ih => simp [consumerCalls, ih]
    rw [h1, h2]
    simp [consumerCalls]

/-- C19 at concrete inputs: a worker of the `Make` format writes no
dependency file in `computeDependencies`, and writes it in
`computeDependenciesFromCompilerInvocation` on an invocation with the
dependency output file `a.d`. -/
theorem writeDependencyFile_iff_EmitDependencyFile_witness :
    Event.writeDependencyFile ∉
      (({ exampleWorker with Format := .Make }).computeDependencies
        (exampleWorld [exampleCompileJob]) "/wd" ["clang", "a.cpp"] none).2 ∧
    Event.writeDependencyFile ∈
      (({ exampleWorker with Format := .Make }).computeDependenciesFromCompilerInvocation
        (exampleWorld []) { exampleInvocation with DependencyOutputFile := "a.d" }
        "/wd" false).Events :=
  ⟨writeDependencyFile_iff_EmitDependencyFile.2.2.2.2.1 (exampleWorld [exampleCompileJob])
      { exampleWorker with Format := .Make } "/wd" ["clang", "a.cpp"] none,
   (writeDependencyFile_iff_EmitDependencyFile.2.2.2.2.2.2.1 (exampleWorld [])
      { exampleWorker with Format := .Make }
      { exampleInvocation with DependencyOutputFile := "a.d" } "/wd" false).mpr
      ⟨by decide, rfl, rfl, Or.inl rfl⟩⟩

/-- C22 fails whenever the worker loads modules eagerly: behind `Format` the
call passes `false`, `false`, `EagerLoadModules` under the comments
`OptimizeArgs`, `DisableFree` and none, and the constructor takes the three
values as `OptimizeArgs`, `EagerLoadModules`, `DisableFree`. For every worker
the action has `OptimizeArgs = false`, `EagerLoadModules = false` and
`DisableFree` equal to the `EagerLoadModules` of the worker; for a worker of
the `Full` format with `EagerLoadModules = true` the module collector is built
with `EagerLoadModules = false` on an original invocation with
`DisableFree = true`. -/
theorem computeDependenciesFromCompilerInvocation_argument_order :
    (∀ (Worker : DependencyScanningWorker) (Invocation : CompilerInvocation)
        (WorkingDirectory : String) (DiagGenerationAsCompilation : Bool),
      (Worker.newActionFromCompilerInvocation Invocation WorkingDirectory
        DiagGenerationAsCompilation).OptimizeArgs = false ∧
      (Worker.newActionFromCompilerInvocation Invocation WorkingDirectory
        DiagGenerationAsCompilation).EagerLoadModules = false ∧
      (Worker.newActionFromCompilerInvocation Invocation WorkingDirectory
        DiagGenerationAsCompilation).DisableFree = Worker.EagerLoadModules) ∧
    (({ exampleWorker with EagerLoadModules := true }).newActionFromCompilerInvocation
        exampleInvocation "/wd" false).EagerLoadModules ≠
      ({ exampleWorker with EagerLoadModules := true }).EagerLoadModules ∧
    (({ exampleWorker with EagerLoadModules := true }).newActionFromCompilerInvocation
        exampleInvocation "/wd" false).DisableFree ≠ false ∧
    (({ exampleWorker with EagerLoadModules := true }).computeDependenciesFromCompilerInvocation
        (exampleScanWorld true (Except.error "no store")) exampleInvocation "/wd" false).Action.MDC =
      some { OriginalInvocation := { exampleInvocation with DisableFree := true },
             OptimizeArgs := false, EagerLoadModules := false } := by
  refine ⟨fun _ _ _ _ => ⟨rfl, rfl, rfl⟩, by decide, by decide, by decide⟩

/-- C29: `visitImport` leaves the listener as it is when the module name is
in the table. For every import relation with finitely many module names,
every initial module table and input-file set, `visitPrebuiltModule` returns
a table that is the initial one followed by added entries: every initial
entry is still there and a name of the initial table still has its value;
every added entry has a name that was not in the table and is an import
listed by a file reached from the root; every file whose control block is
read is the root or the file of an added entry; the input-file set keeps its
members, and is the initial one when input files are not visited. -/
theorem visitPrebuiltModule_only_adds (Blocks : String → ControlBlock) (Names : List String)
    (Root : String) (ModuleFiles : PrebuiltModuleFilesT) (InputFiles : List String)
    (VisitInputFiles : Bool) (fuel : Nat)
    (hfin : ∀ F, ∀ I ∈ (Blocks F).Imports, I.1 ∈ Names)
    (hfuel : Names.length + 2 ≤ fuel) :
    (∀ (L : PrebuiltModuleListener) (ModuleName Filename : String),
      ModuleName ∈ MapVector.keys L.PrebuiltModuleFiles →
      L.visitImport ModuleName Filename = L) ∧
    ∃ (S : VisitState) (New : List (String × String)),
      visitPrebuiltModule Blocks fuel Root ModuleFiles InputFiles VisitInputFiles = some S ∧
      S.Listener.PrebuiltModuleFiles = ModuleFiles ++ New ∧
      (∀ E ∈ ModuleFiles, E ∈ S.Listener.PrebuiltModuleFiles) ∧
      (∀ Name ∈ MapVector.keys ModuleFiles,
        MapVector.lookup S.Listener.PrebuiltModuleFiles Name = MapVector.lookup ModuleFiles Name) ∧
      (∀ E ∈ New, E.1 ∉ MapVector.keys ModuleFiles) ∧
      (∀ E ∈ New, ∃ F, Reaches Blocks Root F ∧ E ∈ (Blocks F).Imports) ∧
      (∀ G ∈ S.Reads, G = Root ∨ ∃ E ∈ New, E.2 = G) ∧
      (∀ f ∈ InputFiles, f ∈ S.Listener.InputFiles) ∧
      (VisitInputFiles = false → S.Listener.InputFiles = InputFiles) := by
  constructor
  · intro L ModuleName Filename h
    rw [L.visitImport_eq, if_pos h]
  have hm := missingNames_le Names ModuleFiles
  obtain ⟨S, hS⟩ := visitPrebuiltModule.loop_returns Blocks Names hfin fuel
    { Listener := { PrebuiltModuleFiles := ModuleFiles, InputFiles := InputFiles,
                    VisitInputFiles := VisitInputFiles, NewModuleFiles := [Root] },
      Reads := [] } (by simp only [List.length_singleton]; omega)
  have hinv := visitPrebuiltModule.loop_invariant Blocks
    (fun T => visitFrame Blocks Root ModuleFiles InputFiles T ∧
      T.Listener.VisitInputFiles = VisitInputFiles)
    (fun T File Rest hW hP =>
      ⟨visitPrebuiltModule.step_visitFrame Blocks Root ModuleFiles InputFiles T File Rest hW hP.1,
       by
        obtain ⟨_, _, _, r3, _⟩ := readASTFileControlBlock_spec (Blocks File)
          { T.Listener with NewModuleFiles := Rest }
        simp only [visitPrebuiltModule.step]
        rw [r3]
        exact hP.2⟩)
    fuel _ S hS
    ⟨⟨[], by simp, by simp, by simp, by
        intro G hG
        simp only [List.not_mem_nil, false_or, List.mem_singleton] at hG
        rw [hG]; exact Reaches.root,
      by
        intro G hG
        simp only [List.not_mem_nil, false_or, List.mem_singleton] at hG
        exact Or.inl hG,
      by simp, by simp⟩, rfl⟩
  obtain ⟨⟨⟨New, h1, h2, h3, h4, h5, h6, h7⟩, hV⟩, _⟩ := hinv
  refine ⟨S, New, hS, h1, ?_, ?_, h2, ?_, ?_, h7, ?_⟩
  · intro E hE
    rw [h1]
    exact List.mem_append_left _ hE
  · intro Name hName
    rw [h1]
    exact MapVector.lookup_append_of_mem ModuleFiles New Name hName
  · intro E hE
    obtain ⟨G, hG, hGE⟩ := h3 E hE
    exact ⟨G, h4 G (Or.inl hG), hGE⟩
  · intro G hG
    exact h5 G (Or.inl hG)
  · intro hf
    exact h6 (by rw [hV]; exact hf)

/-- C29 at a concrete input: module `A` is in the table with another file;
the root imports `A` and `B`, which import each other; only `B` is added, and
the file `a.pcm` is not read. -/
theorem visitPrebuiltModule_only_adds_witness :
    visitPrebuiltModule exampleCyclicBlocks 4 "root.pch" [("A", "old.pcm")] ["x.h"] false =
      some { Listener := { PrebuiltModuleFiles := [("A", "old.pcm"), ("B", "b.pcm")],
                           InputFiles := ["x.h"], VisitInputFiles := false,
                           NewModuleFiles := [] },
             Reads := ["root.pch", "b.pcm"] } ∧
    ∃ (S : VisitState) (New : List (String × String)),
      visitPrebuiltModule exampleCyclicBlocks 4 "root.pch" [("A", "old.pcm")] ["x.h"] false =
        some S ∧
      S.Listener.PrebuiltModuleFiles = [("A", "old.pcm")] ++ New ∧
      (∀ G ∈ S.Reads, G = "root.pch" ∨ ∃ E ∈ New, E.2 = G) ∧
      (false = false → S.Listener.InputFiles = ["x.h"]) := by
  refine ⟨by decide, ?_⟩
  obtain ⟨S, New, h1, h2, _, _, _, _, h7, _, h9⟩ :=
    (visitPrebuiltModule_only_adds exampleCyclicBlocks ["A", "B"] "root.pch"
      [("A", "old.pcm")] ["x.h"] false 4
      (by
        intro F I hI
        rcases exampleCyclicBlocks_imports F I hI with h | h <;> simp [h])
      (by decide)).2
  exact ⟨S, New, h1, h2, h7, h9⟩

end clang.tooling.dependencies

namespace mlir

/-! ## Lemmas on `ArithmeticToSPIRV` -/

/-- A power of two with a positive exponent is twice the power below it. -/
theorem two_pow_pred (w : Nat) (hw : 0 < w) : 2 ^ w = 2 * 2 ^ (w - 1) := by
  obtain ⟨k, rfl⟩ : ∃ k, w = k + 1 := ⟨w - 1, by omega⟩
  simp [pow_succ, mul_comm]

/-- The truncating remainder of a negated number. -/
theorem neg_natCast_tmod (a : Nat) (y : Int) :
    (-(a : Int)).tmod y = -((a : Int).tmod y) := by
  cases a with
  | zero => simp
  | succ n =>
    cases y with
    | ofNat m => rfl
    | negSucc m => rfl

/-- The truncating remainder is the remainder of the absolute values with the
sign of the dividend. -/
theorem tmod_eq_sign_mul (x y : Int) :
    x.tmod y = x.sign * ((x.natAbs % y.natAbs : Nat) : Int) := by
  rcases Int.natAbs_eq x with hx | hx <;> rcases Int.natAbs_eq y with hy | hy
  · rw [hx, hy]
    simp only [Int.natAbs_ofNat, ← Int.ofNat_tmod]
    rcases Nat.eq_zero_or_pos x.natAbs with h | h
    · simp [h]
    · rw [Int.sign_natCast_of_ne_zero (by omega)]; simp
  · rw [hx, hy, Int.tmod_neg]
    simp only [Int.natAbs_ofNat, Int.natAbs_neg, ← Int.ofNat_tmod]
    rcases Nat.eq_zero_or_pos x.natAbs with h | h
    · simp [h]
    · rw [Int.sign_natCast_of_ne_zero (by omega)]; simp
  · rw [hx, hy, neg_natCast_tmod]
    simp only [Int.natAbs_ofNat, Int.natAbs_neg, ← Int.ofNat_tmod]
    rcases Nat.eq_zero_or_pos x.natAbs with h | h
    · simp [h]
    · rw [Int.sign_neg, Int.sign_natCast_of_ne_zero (by omega)]; simp
  · rw [hx, hy, Int.tmod_neg, neg_natCast_tmod]
    simp only [Int.natAbs_ofNat, Int.natAbs_neg, ← Int.ofNat_tmod]
    rcases Nat.eq_zero_or_pos x.natAbs with h | h
    · simp [h]
    · rw [Int.sign_neg, Int.sign_natCast_of_ne_zero (by omega)]; simp

/-- The bit pattern of a number that is not negative. -/
theorem ofSigned_natCast (w r : Nat) (hr : r < 2 ^ w) : ofSigned w (r : Int) = r := by
  unfold ofSigned
  have : ((r : Int) % 2 ^ w) = ((r % 2 ^ w : Nat) : Int) := by push_cast; rfl
  rw [this, Int.toNat_natCast, Nat.mod_eq_of_lt hr]

/-- The bit pattern of a number that is not positive. -/
theorem ofSigned_neg_natCast (w r : Nat) (hr : r < 2 ^ w) :
    ofSigned w (-(r : Int)) = (2 ^ w - r) % 2 ^ w := by
  unfold ofSigned
  have e : (-(r : Int)) % 2 ^ w = (((2 ^ w - r) % 2 ^ w : Nat) : Int) := by
    have : (-(r : Int)) = ((2 ^ w - r : Nat) : Int) + (2 ^ w : Int) * (-1) := by
      push_cast [Nat.cast_sub hr.le]; ring
    rw [this, Int.add_mul_emod_self_left]
    push_cast
    rfl
  rw [e, Int.toNat_natCast]

/-- The bits left of the leading zeros suffice for the low `n` bits. -/
theorem APInt.countLeadingZeros_go_le (v n k : Nat) :
    n - APInt.countLeadingZeros.go v n ≤ k ↔ v % 2 ^ n < 2 ^ k := by
  induction n with
  | zero => simp [APInt.countLeadingZeros.go, Nat.mod_one]
  | succ n ih =>
    have hm : v % 2 ^ (n + 1) = v % 2 ^ n + 2 ^ n * (v / 2 ^ n % 2) := Nat.mod_pow_succ
    have hlt : v % 2 ^ n < 2 ^ n := Nat.mod_lt _ (by positivity)
    unfold APInt.countLeadingZeros.go
    rw [Nat.testBit_to_div_mod]
    by_cases hb : v / 2 ^ n % 2 = 1
    · simp only [hb, decide_True, if_true, Nat.sub_zero]
      rw [hm, hb, mul_one]
      constructor
      · intro h
        calc v % 2 ^ n + 2 ^ n < 2 ^ n + 2 ^ n := by omega
          _ = 2 ^ (n + 1) := by rw [pow_succ]; ring
          _ ≤ 2 ^ k := Nat.pow_le_pow_right (by norm_num) h
      · intro h
        have : 2 ^ n < 2 ^ k := by omega
        exact (Nat.pow_lt_pow_iff_right (by norm_num)).mp this
    · have hb0 : v / 2 ^ n % 2 = 0 := by omega
      simp only [hb, decide_False, Bool.false_eq_true, if_false, Nat.add_sub_add_right]
      rw [hm, hb0, mul_zero, add_zero]
      exact ih

/-- The bits left of the leading ones suffice for the complement of the low
`n` bits. -/
theorem APInt.countLeadingOnes_go_le (v n k : Nat) :
    n - APInt.countLeadingOnes.go v n ≤ k ↔ 2 ^ n ≤ v % 2 ^ n + 2 ^ k := by
  induction n with
  | zero =>
    simp only [APInt.countLeadingOnes.go, Nat.sub_zero, Nat.zero_le, pow_zero, Nat.mod_one, zero_add, true_iff]
    exact Nat.one_le_two_pow
  | succ n ih =>
    have hm : v % 2 ^ (n + 1) = v % 2 ^ n + 2 ^ n * (v / 2 ^ n % 2) := Nat.mod_pow_succ
    have hlt : v % 2 ^ n < 2 ^ n := Nat.mod_lt _ (by positivity)
    have hp : 2 ^ (n + 1) = 2 ^ n + 2 ^ n := by rw [pow_succ]; ring
    unfold APInt.countLeadingOnes.go
    rw [Nat.testBit_to_div_mod]
    by_cases hb : v / 2 ^ n % 2 = 1
    · simp only [hb, decide_True, if_true, Nat.add_sub_add_right]
      rw [hm, hb, mul_one, ih, hp]
      omega
    · have hb0 : v / 2 ^ n % 2 = 0 := by omega
      simp only [hb, decide_False, Bool.false_eq_true, if_false, Nat.sub_zero]
      rw [hm, hb0, mul_zero, add_zero, hp]
      constructor
      · intro h
        have : 2 ^ (n + 1) ≤ 2 ^ k := Nat.pow_le_pow_right (by norm_num) h
        omega
      · intro h
        have : 2 ^ n < 2 ^ k := by omega
        exact (Nat.pow_lt_pow_iff_right (by norm_num)).mp this

/-- `isIntN`: the number fits in `N` bits as an unsigned number. -/
theorem APInt.isIntN_iff (A : APInt) (N : Nat) (hA : A.VAL < 2 ^ A.BitWidth) :
    A.isIntN N = true ↔ A.VAL < 2 ^ N := by
  unfold APInt.isIntN APInt.getActiveBits APInt.countLeadingZeros
  rw [decide_eq_true_eq, APInt.countLeadingZeros_go_le, Nat.mod_eq_of_lt hA]

/-- The most significant bit of a bit pattern of width `s`. -/
theorem testBit_top (s v : Nat) (hs : 0 < s) (hv : v < 2 ^ s) :
    v.testBit (s - 1) = decide (2 ^ (s - 1) ≤ v) := by
  have h2 := two_pow_pred s hs
  rw [Nat.testBit_to_div_mod]
  congr 1
  apply propext
  have hp : 0 < 2 ^ (s - 1) := by positivity
  have hd : v / 2 ^ (s - 1) < 2 := by
    rw [Nat.div_lt_iff_lt_mul hp]; omega
  constructor
  · intro h
    by_contra hc
    have : v / 2 ^ (s - 1) = 0 := Nat.div_eq_of_lt (by omega)
    omega
  · intro h
    have : 1 ≤ v / 2 ^ (s - 1) := by
      rw [Nat.le_div_iff_mul_le hp]; omega
    omega

/-- `isSignedIntN`: the number fits in `N` bits as a signed number. -/
theorem APInt.isSignedIntN_iff (A : APInt) (N : Nat) (hs : 0 < A.BitWidth)
    (hA : A.VAL < 2 ^ A.BitWidth) :
    A.isSignedIntN N = true ↔
      0 < N ∧ -(2 : Int) ^ (N - 1) ≤ toSigned A.BitWidth A.VAL ∧
        toSigned A.BitWidth A.VAL < 2 ^ (N - 1) := by
  obtain ⟨s, v⟩ := A
  simp only at hs hA
  have h2 := two_pow_pred s hs
  have hp : 0 < 2 ^ (s - 1) := by positivity
  have hz := APInt.countLeadingZeros_go_le v s (N - 1)
  have ho := APInt.countLeadingOnes_go_le v s (N - 1)
  rw [Nat.mod_eq_of_lt hA] at hz ho
  have hP : ((2 : Int) ^ (N - 1)) = ((2 ^ (N - 1) : Nat) : Int) := by push_cast; rfl
  have hQ : ((2 : Int) ^ s) = ((2 ^ s : Nat) : Int) := by push_cast; rfl
  unfold APInt.isSignedIntN APInt.getMinSignedBits APInt.getNumSignBits APInt.isNegative
    APInt.countLeadingOnes APInt.countLeadingZeros toSigned
  simp only [decide_eq_true_eq]
  rw [testBit_top s v hs hA, hP, hQ]
  by_cases hneg : 2 ^ (s - 1) ≤ v
  · have hnl : ¬ v < 2 ^ (s - 1) := by omega
    simp only [hneg, decide_True, if_true, hnl, if_false]
    generalize APInt.countLeadingOnes.go v s = c at ho
    generalize 2 ^ (N - 1) = P at ho
    generalize 2 ^ s = Q at ho hA
    omega
  · have hnl : v < 2 ^ (s - 1) := by omega
    simp only [hneg, decide_False, Bool.false_eq_true, if_false, hnl, if_true]
    generalize APInt.countLeadingZeros.go v s = c at hz
    generalize 2 ^ (N - 1) = P at hz
    omega


/-- The difference of two powers of two is a multiple of the lower one. -/
theorem two_pow_sub_dvd (a b : Nat) (h : a ≤ b) : ∃ k, 2 ^ b - 2 ^ a = 2 ^ a * k := by
  obtain ⟨c, hc⟩ := Nat.pow_dvd_pow 2 h
  exact ⟨c - 1, by rw [Nat.mul_sub, mul_one, ← hc]⟩

/-- The `uint64_t` that `getInt` hands on is the 64-bit sign extension. -/
theorem ofSigned_toSigned (s v : Nat) (h64 : s ≤ 64) (hv : v < 2 ^ s) :
    ofSigned 64 (toSigned s v) = signExtend s 64 v := by
  have hle : 2 ^ s ≤ 2 ^ 64 := Nat.pow_le_pow_right (by norm_num) h64
  have hp : 0 < 2 ^ (s - 1) := by positivity
  unfold toSigned signExtend
  split_ifs with h
  · exact ofSigned_natCast 64 v (by omega)
  · have e : ((v : Int) - 2 ^ s) = -(((2 ^ s - v : Nat)) : Int) := by
      push_cast [Nat.cast_sub hv.le]; ring
    have hlt : 2 ^ s - v < 2 ^ 64 := by omega
    rw [e, ofSigned_neg_natCast 64 _ hlt, Nat.mod_eq_of_lt (by omega)]
    omega

/-- Truncation of the 64-bit sign extension to a width at or above the source
width. -/
theorem signExtend_mod_of_le (s w v : Nat) (h64 : w ≤ 64) (hsw : s ≤ w)
    (hv : v < 2 ^ s) : signExtend s 64 v % 2 ^ w = signExtend s w v := by
  have hle : 2 ^ s ≤ 2 ^ w := Nat.pow_le_pow_right (by norm_num) hsw
  have hle2 : 2 ^ w ≤ 2 ^ 64 := Nat.pow_le_pow_right (by norm_num) h64
  obtain ⟨k, hk⟩ := two_pow_sub_dvd w 64 h64
  unfold signExtend
  split_ifs with h
  · exact Nat.mod_eq_of_lt (by omega)
  · have e : v + (2 ^ 64 - 2 ^ s) = (v + (2 ^ w - 2 ^ s)) + 2 ^ w * k := by omega
    rw [e, Nat.add_mul_mod_self_left, Nat.mod_eq_of_lt (by omega)]

/-- Truncation of the 64-bit sign extension to a width at or below the source
width. -/
theorem signExtend_mod_of_ge (s w v : Nat) (h64 : s ≤ 64) (hsw : w ≤ s) :
    signExtend s 64 v % 2 ^ w = v % 2 ^ w := by
  obtain ⟨k, hk⟩ := two_pow_sub_dvd s 64 h64
  obtain ⟨c, hc⟩ := Nat.pow_dvd_pow 2 hsw
  unfold signExtend
  split_ifs with h
  · rfl
  · rw [hk, hc, mul_assoc, Nat.add_mul_mod_self_left]

/-- Sign extension keeps the signed number. -/
theorem toSigned_signExtend (s w v : Nat) (hs : 0 < s) (hsw : s ≤ w) :
    toSigned w (signExtend s w v) = toSigned s v := by
  have hw : 0 < w := by omega
  have hle : 2 ^ s ≤ 2 ^ w := Nat.pow_le_pow_right (by norm_num) hsw
  have hle1 : 2 ^ (s - 1) ≤ 2 ^ (w - 1) := Nat.pow_le_pow_right (by norm_num) (by omega)
  have h2 := two_pow_pred s hs
  have h2w := two_pow_pred w hw
  have hW : ((2 : Int) ^ w) = ((2 ^ w : Nat) : Int) := by push_cast; rfl
  have hS : ((2 : Int) ^ s) = ((2 ^ s : Nat) : Int) := by push_cast; rfl
  unfold toSigned signExtend
  rw [hW, hS]
  by_cases h : v < 2 ^ (s - 1)
  · have : v < 2 ^ (w - 1) := by omega
    simp [h, this]
  · have : ¬ v + (2 ^ w - 2 ^ s) < 2 ^ (w - 1) := by omega
    simp only [h, if_false, this]
    push_cast [Nat.cast_sub hle]
    ring

/-- A bit at or above the lowest of a run of ones that reaches the top. -/
theorem testBit_of_high (s i v : Nat) (hi : i < s) (hlo : 2 ^ s ≤ v + 2 ^ i) (hv : v < 2 ^ s) :
    v.testBit i = true := by
  obtain ⟨d, rfl⟩ : ∃ d, s = i + (d + 1) := ⟨s - i - 1, by omega⟩
  have hp : 0 < 2 ^ i := by positivity
  have hpd : 0 < 2 ^ d := by positivity
  have e : 2 ^ (i + (d + 1)) = 2 ^ i * (2 * 2 ^ d) := by rw [pow_add, pow_succ]; ring
  rw [e] at hlo hv
  have h1 : v / 2 ^ i < 2 * 2 ^ d := by
    rw [Nat.div_lt_iff_lt_mul hp]; rw [mul_comm]; exact hv
  have h3 : 2 * 2 ^ d - 1 ≤ v / 2 ^ i := by
    rw [Nat.le_div_iff_mul_le hp, Nat.sub_mul, one_mul, mul_comm]
    omega
  rw [Nat.testBit_to_div_mod, decide_eq_true_eq]
  omega

/-- The value of the attribute that `convertIntegerAttr` builds for a
destination of at most 64 bits. -/
theorem Builder.getIntegerAttr_getInt (srcAttr : IntegerAttr) (dstType : IntegerType)
    (h64 : srcAttr.getValue.BitWidth ≤ 64)
    (hv : srcAttr.getValue.VAL < 2 ^ srcAttr.getValue.BitWidth) (hw : dstType.getWidth ≤ 64) :
    Builder.getIntegerAttr dstType srcAttr.getInt =
      { getType := dstType,
        getValue := { BitWidth := dstType.getWidth,
                      VAL := signExtend srcAttr.getValue.BitWidth 64 srcAttr.getValue.VAL %
                        2 ^ dstType.getWidth } } := by
  unfold Builder.getIntegerAttr IntegerAttr.getInt APInt.getSExtValue APInt.new
  rw [ofSigned_toSigned _ _ h64 hv]
  simp [hw]

/-- A result of `convertIntegerAttr` that is not null is the attribute built
from `getInt`, in one of the two fitting cases. -/
theorem convertIntegerAttr_eq_some (srcAttr : IntegerAttr) (dstType : IntegerType)
    (R : IntegerAttr) (hR : convertIntegerAttr srcAttr dstType = some R) :
    R = Builder.getIntegerAttr dstType srcAttr.getInt ∧
    (srcAttr.getValue.isIntN dstType.getWidth = true ∨
      (srcAttr.getValue.isIntN dstType.getWidth = false ∧
        srcAttr.getValue.isSignedIntN dstType.getWidth = true)) := by
  unfold convertIntegerAttr at hR
  split_ifs at hR with h1 h2
  · exact ⟨(Option.some.inj hR).symm, Or.inl h1⟩
  · exact ⟨(Option.some.inj hR).symm, Or.inr ⟨by simpa using h1, h2⟩⟩

/-- The absolute value of a signed number other than the minimum is below
`2 ^ (w - 1)`. -/
theorem natAbs_toSigned_lt (w x : Nat) (hw : 0 < w) (hx : x < 2 ^ w) (hmin : x ≠ 2 ^ (w - 1)) :
    (toSigned w x).natAbs < 2 ^ (w - 1) := by
  have h2 := two_pow_pred w hw
  unfold toSigned
  split_ifs with h
  · simpa using h
  · have e : ((x : Int) - 2 ^ w) = -(((2 ^ w - x : Nat)) : Int) := by
      push_cast [Nat.cast_sub hx.le]; ring
    rw [e, Int.natAbs_neg, Int.natAbs_ofNat]
    omega

/-- The bit pattern of `arith.remsi` stands for the truncating remainder of
the signed operands when the left operand is not the minimum signed value. -/
theorem toSigned_remsi (w lhs rhs : Nat) (hw : 0 < w) (hl : lhs < 2 ^ w)
    (hmin : lhs ≠ 2 ^ (w - 1)) :
    toSigned w (arith.remsi w lhs rhs) = (toSigned w lhs).tmod (toSigned w rhs) := by
  have h2 := two_pow_pred w hw
  have hpos : 0 < 2 ^ (w - 1) := by positivity
  have ha := natAbs_toSigned_lt w lhs hw hl hmin
  have hW : ((2 : Int) ^ w) = ((2 ^ w : Nat) : Int) := by push_cast; rfl
  unfold arith.remsi
  rw [tmod_eq_sign_mul]
  have hr : (toSigned w lhs).natAbs % (toSigned w rhs).natAbs < 2 ^ (w - 1) :=
    lt_of_le_of_lt (Nat.mod_le _ _) ha
  generalize (toSigned w lhs).natAbs % (toSigned w rhs).natAbs = r at hr
  rcases lt_trichotomy 0 (toSigned w lhs) with hs | hs | hs
  · rw [Int.sign_eq_one_of_pos hs, one_mul, ofSigned_natCast w r (by omega)]
    unfold toSigned
    simp [hr]
  · rw [← hs, Int.sign_zero, zero_mul]
    unfold toSigned ofSigned
    simp [hpos]
  · rw [Int.sign_eq_neg_one_of_neg hs,
      show (-1 : Int) * (r : Int) = -(r : Int) by ring, ofSigned_neg_natCast w r (by omega)]
    unfold toSigned
    rw [hW]
    rcases Nat.eq_zero_or_pos r with h0 | h0
    · subst h0; simp [hpos]
    · rw [Nat.mod_eq_of_lt (by omega)]
      have c : ¬ 2 ^ w - r < 2 ^ (w - 1) := by omega
      simp only [c, if_false]
      push_cast [Nat.cast_sub (show r ≤ 2 ^ w by omega)]
      ring

/-! ## Claims on `ArithmeticToSPIRV` -/

/-- C20 fails at the minimum signed value: for width 8, `lhs = -128` (bit
pattern 128) and `rhs = 3`, `SAbs` gives 128 again, so `lhs == sabs(lhs)`
holds and the emitted value is `128 umod 3 = 2`, which is not negative,
whereas `arith.remsi` gives `-2` (bit pattern 254): the result neither is the
signed remainder nor follows the sign of `signOperand`. -/
theorem emulateSignedRemainder_min_signed :
    toSigned 8 128 = -128 ∧ toSigned 8 3 = 3 ∧
    spirv.SAbs 8 128 = 128 ∧
    emulateSignedRemainder 8 128 3 SignOperand.lhs = 2 ∧
    RemSIOpPattern.matchAndRewrite 8 128 3 = 2 ∧
    arith.remsi 8 128 3 = 254 ∧
    toSigned 8 (arith.remsi 8 128 3) = -2 ∧
    emulateSignedRemainder 8 128 3 SignOperand.lhs ≠ arith.remsi 8 128 3 := by
  decide

/-- C21: `convertIntegerAttr` returns the null attribute exactly when the
source number fits in the destination width neither as an unsigned number,
`getActiveBits() <= w`, which says that the value is below `2 ^ w`, nor as a
signed number, `getMinSignedBits() <= w`, which says that `w` is positive and
the signed value lies in `[-2 ^ (w - 1), 2 ^ (w - 1))`; a result that is not
null has the destination type and a value of the destination width. -/
theorem convertIntegerAttr_null_iff (srcAttr : IntegerAttr) (dstType : IntegerType)
    (hs : 0 < srcAttr.getValue.BitWidth)
    (hv : srcAttr.getValue.VAL < 2 ^ srcAttr.getValue.BitWidth) :
    (convertIntegerAttr srcAttr dstType = none ↔
      ¬ srcAttr.getValue.getActiveBits ≤ dstType.getWidth ∧
      ¬ srcAttr.getValue.getMinSignedBits ≤ dstType.getWidth) ∧
    (srcAttr.getValue.getActiveBits ≤ dstType.getWidth ↔
      srcAttr.getValue.VAL < 2 ^ dstType.getWidth) ∧
    (srcAttr.getValue.getMinSignedBits ≤ dstType.getWidth ↔
      0 < dstType.getWidth ∧
      -(2 : Int) ^ (dstType.getWidth - 1) ≤
        toSigned srcAttr.getValue.BitWidth srcAttr.getValue.VAL ∧
      toSigned srcAttr.getValue.BitWidth srcAttr.getValue.VAL < 2 ^ (dstType.getWidth - 1)) ∧
    (∀ R, convertIntegerAttr srcAttr dstType = some R →
      R.getType = dstType ∧ R.getValue.BitWidth = dstType.getWidth) := by
  have h1 := APInt.isIntN_iff srcAttr.getValue dstType.getWidth hv
  have h2 := APInt.isSignedIntN_iff srcAttr.getValue dstType.getWidth hs hv
  refine ⟨?_, ?_, ?_, ?_⟩
  · unfold convertIntegerAttr APInt.isIntN APInt.isSignedIntN
    simp only [decide_eq_true_eq]
    split_ifs with a b
    · simp [a]
    · simp [b]
    · simp [a, b]
  · rw [← h1]; simp [APInt.isIntN]
  · rw [← h2]; simp [APInt.isSignedIntN]
  · intro R hR
    obtain ⟨e, _⟩ := convertIntegerAttr_eq_some srcAttr dstType R hR
    rw [e]
    unfold Builder.getIntegerAttr APInt.new
    refine ⟨rfl, ?_⟩
    split_ifs <;> rfl

/-- C21 at concrete inputs: the 16-bit number 0x1234 does not fit in 8 bits in
either way, and the 16-bit number 0xFFFF fits as the signed number -1. -/
theorem convertIntegerAttr_null_iff_witness :
    convertIntegerAttr
      { getType := { getWidth := 16, getSignedness := .Signless },
        getValue := { BitWidth := 16, VAL := 0x1234 } }
      { getWidth := 8, getSignedness := .Signless } = none ∧
    convertIntegerAttr
      { getType := { getWidth := 16, getSignedness := .Signless },
        getValue := { BitWidth := 16, VAL := 0xFFFF } }
      { getWidth := 8, getSignedness := .Signless } =
      some { getType := { getWidth := 8, getSignedness := .Signless },
             getValue := { BitWidth := 8, VAL := 0xFF } } :=
  ⟨((convertIntegerAttr_null_iff
      { getType := { getWidth := 16, getSignedness := .Signless },
        getValue := { BitWidth := 16, VAL := 0x1234 } }
      { getWidth := 8, getSignedness := .Signless } (by decide) (by decide)).1).2
      ⟨by decide, by decide⟩,
   by decide⟩

/-- C23 fails for a destination wider than 64 bits: the 8-bit number 0xFF is
converted to the signless 128-bit type as `2 ^ 64 - 1`, the 64-bit sign
extension filled up with zeros, which is neither the sign extension
`2 ^ 128 - 1` nor the zero extension 255 of the source. -/
theorem convertIntegerAttr_wide_destination :
    convertIntegerAttr
      { getType := { getWidth := 8, getSignedness := .Signless },
        getValue := { BitWidth := 8, VAL := 0xFF } }
      { getWidth := 128, getSignedness := .Signless } =
      some { getType := { getWidth := 128, getSignedness := .Signless },
             getValue := { BitWidth := 128, VAL := 2 ^ 64 - 1 } } ∧
    signExtend 8 128 0xFF = 2 ^ 128 - 1 ∧
    toSigned 8 0xFF = -1 ∧
    toSigned 128 (2 ^ 64 - 1) = 2 ^ 64 - 1 := by
  decide

/-- C23, amended: when `convertIntegerAttr` succeeds for a destination width
`w` of at most 64 bits, the bit pattern of the result is the source
sign-extended to `w` bits when `w` is not below the source width `s`, which
keeps the signed value, and the source truncated to `w` bits when `w < s`;
when truncating, either the discarded bits are all zero and the result is the
source number, or the discarded bits all equal the sign bit of the result and
the signed value is kept. -/
theorem convertIntegerAttr_lossless (srcAttr : IntegerAttr) (dstType : IntegerType)
    (R : IntegerAttr)
    (hs : 0 < srcAttr.getValue.BitWidth) (h64 : srcAttr.getValue.BitWidth ≤ 64)
    (hv : srcAttr.getValue.VAL < 2 ^ srcAttr.getValue.BitWidth)
    (hw : dstType.getWidth ≤ 64)
    (hR : convertIntegerAttr srcAttr dstType = some R) :
    (srcAttr.getValue.BitWidth ≤ dstType.getWidth →
      R.getValue.VAL = signExtend srcAttr.getValue.BitWidth dstType.getWidth srcAttr.getValue.VAL ∧
      toSigned dstType.getWidth R.getValue.VAL =
        toSigned srcAttr.getValue.BitWidth srcAttr.getValue.VAL) ∧
    (srcAttr.getValue.BitWidth = dstType.getWidth → R.getValue.VAL = srcAttr.getValue.VAL) ∧
    (dstType.getWidth < srcAttr.getValue.BitWidth →
      R.getValue.VAL = srcAttr.getValue.VAL % 2 ^ dstType.getWidth ∧
      (((∀ i, dstType.getWidth ≤ i → srcAttr.getValue.VAL.testBit i = false) ∧
          R.getValue.VAL = srcAttr.getValue.VAL) ∨
        ((∀ i, dstType.getWidth ≤ i → i < srcAttr.getValue.BitWidth →
            srcAttr.getValue.VAL.testBit i = R.getValue.VAL.testBit (dstType.getWidth - 1)) ∧
          toSigned dstType.getWidth R.getValue.VAL =
            toSigned srcAttr.getValue.BitWidth srcAttr.getValue.VAL))) := by
  obtain ⟨e, hfit⟩ := convertIntegerAttr_eq_some srcAttr dstType R hR
  rw [Builder.getIntegerAttr_getInt srcAttr dstType h64 hv hw] at e
  have h1 := APInt.isIntN_iff srcAttr.getValue dstType.getWidth hv
  have h2 := APInt.isSignedIntN_iff srcAttr.getValue dstType.getWidth hs hv
  obtain ⟨⟨w, sg⟩, ⟨s, v⟩⟩ := srcAttr
  obtain ⟨w, g⟩ := dstType
  subst e
  simp only at hs h64 hv hw h1 h2 hfit ⊢
  refine ⟨?_, ?_, ?_⟩
  · intro hsw
    rw [signExtend_mod_of_le s w v hw hsw hv]
    exact ⟨rfl, toSigned_signExtend s w v hs hsw⟩
  · intro hsw
    subst hsw
    rw [signExtend_mod_of_le s s v hw le_rfl hv]
    unfold signExtend
    split_ifs <;> simp
  · intro hsw
    rw [signExtend_mod_of_ge s w v h64 hsw.le]
    refine ⟨rfl, ?_⟩
    rcases hfit with hu | ⟨hnu, hsg⟩
    · left
      have hlt := h1.mp hu
      refine ⟨?_, Nat.mod_eq_of_lt hlt⟩
      intro i hi
      exact Nat.testBit_lt_two_pow (lt_of_lt_of_le hlt (Nat.pow_le_pow_right (by norm_num) hi))
    · right
      have hnlt : ¬ v < 2 ^ w := by
        intro h; rw [h1.mpr h] at hnu; exact Bool.noConfusion hnu
      obtain ⟨hw0, hlo, hhi⟩ := h2.mp hsg
      have hW : ((2 : Int) ^ (w - 1)) = ((2 ^ (w - 1) : Nat) : Int) := by push_cast; rfl
      have hS : ((2 : Int) ^ s) = ((2 ^ s : Nat) : Int) := by push_cast; rfl
      have hWw : ((2 : Int) ^ w) = ((2 ^ w : Nat) : Int) := by push_cast; rfl
      have h2w := two_pow_pred w hw0
      have hpw : 0 < 2 ^ (w - 1) := by positivity
      have hle : 2 ^ w ≤ 2 ^ s := Nat.pow_le_pow_right (by norm_num) hsw.le
      have hkey : 2 ^ s ≤ v + 2 ^ (w - 1) := by
        unfold toSigned at hlo hhi
        rw [hW, hS] at hlo
        rw [hW, hS] at hhi
        by_cases hn : v < 2 ^ (s - 1)
        · simp only [hn, if_true] at hhi
          omega
        · simp only [hn, if_false] at hlo
          omega
      have htop : v.testBit (w - 1) = true :=
        testBit_of_high s (w - 1) v (by omega) hkey hv
      have hmod : v % 2 ^ w = v + 2 ^ w - 2 ^ s := by
        obtain ⟨k, hk⟩ := two_pow_sub_dvd w s hsw.le
        have e : v = (v + 2 ^ w - 2 ^ s) + 2 ^ w * k := by omega
        rw [e, Nat.add_mul_mod_self_left, Nat.mod_eq_of_lt (by omega)]
        omega
      refine ⟨?_, ?_⟩
      · intro i hi his
        rw [Nat.testBit_mod_two_pow, htop]
        have hpi : 2 ^ (w - 1) ≤ 2 ^ i := Nat.pow_le_pow_right (by norm_num) (by omega)
        rw [testBit_of_high s i v his (by omega) hv]
        simp
        omega
      · rw [hmod]
        have h2s := two_pow_pred s hs
        have hps : 2 ^ (w - 1) ≤ 2 ^ (s - 1) := Nat.pow_le_pow_right (by norm_num) (by omega)
        unfold toSigned
        rw [hWw, hS]
        have c1 : ¬ v + 2 ^ w - 2 ^ s < 2 ^ (w - 1) := by omega
        have c2 : ¬ v < 2 ^ (s - 1) := by omega
        simp only [c1, c2, if_false]
        omega

/-- C23, amended, at a concrete input: the 16-bit number 0xFFFF, the signed
number -1, truncated to 8 bits. -/
theorem convertIntegerAttr_lossless_witness :
    convertIntegerAttr
      { getType := { getWidth := 16, getSignedness := .Signless },
        getValue := { BitWidth := 16, VAL := 0xFFFF } }
      { getWidth := 8, getSignedness := .Signless } =
      some { getType := { getWidth := 8, getSignedness := .Signless },
             getValue := { BitWidth := 8, VAL := 0xFF } } ∧
    (0xFF : Nat) = 0xFFFF % 2 ^ 8 ∧
    toSigned 8 0xFF = toSigned 16 0xFFFF :=
  ⟨by decide,
   ((convertIntegerAttr_lossless
      { getType := { getWidth := 16, getSignedness := .Signless },
        getValue := { BitWidth := 16, VAL := 0xFFFF } }
      { getWidth := 8, getSignedness := .Signless }
      { getType := { getWidth := 8, getSignedness := .Signless },
        getValue := { BitWidth := 8, VAL := 0xFF } }
      (by decide) (by decide) (by decide) (by decide) (by decide)).2.2 (by decide)).1,
   by decide⟩

/-- C24: with fast-math off the value that replaces `arith.maxf` or
`arith.minf` is `select(isNan(rhs), rhs, select(isNan(lhs), lhs, op(lhs, rhs)))`:
it is `rhs` when `rhs` is NaN, else `lhs` when `lhs` is NaN, else the value of
the GL operation; with fast-math on it is the value of the GL operation
whatever the operands are. -/
theorem MinMaxFOpPattern_propagates_NaN {F : Type} (SPIRVOp : F → F → F) (IsNan : F → Bool)
    (dstType : String) (lhs rhs : F) :
    MinMaxFOpPattern.matchAndRewrite SPIRVOp IsNan (some dstType)
        { enableFastMathMode := false } lhs rhs =
      some (spirv.Select (IsNan rhs) rhs (spirv.Select (IsNan lhs) lhs (SPIRVOp lhs rhs))) ∧
    (IsNan rhs = true →
      MinMaxFOpPattern.matchAndRewrite SPIRVOp IsNan (some dstType)
        { enableFastMathMode := false } lhs rhs = some rhs) ∧
    (IsNan rhs = false → IsNan lhs = true →
      MinMaxFOpPattern.matchAndRewrite SPIRVOp IsNan (some dstType)
        { enableFastMathMode := false } lhs rhs = some lhs) ∧
    (IsNan rhs = false → IsNan lhs = false →
      MinMaxFOpPattern.matchAndRewrite SPIRVOp IsNan (some dstType)
        { enableFastMathMode := false } lhs rhs = some (SPIRVOp lhs rhs)) ∧
    MinMaxFOpPattern.matchAndRewrite SPIRVOp IsNan (some dstType)
        { enableFastMathMode := true } lhs rhs = some (SPIRVOp lhs rhs) := by
  refine ⟨rfl, ?_, ?_, ?_, rfl⟩
  · intro h
    simp [MinMaxFOpPattern.matchAndRewrite, spirv.Select, h]
  · intro h1 h2
    simp [MinMaxFOpPattern.matchAndRewrite, spirv.Select, h1, h2]
  · intro h1 h2
    simp [MinMaxFOpPattern.matchAndRewrite, spirv.Select, h1, h2]

/-- C24 at concrete inputs: the maximum of NaN and 1 is NaN with fast-math
off, and is what the GL operation gives, here 1, with fast-math on. -/
theorem MinMaxFOpPattern_propagates_NaN_witness :
    MinMaxFOpPattern.matchAndRewrite ExampleFloat.FMax ExampleFloat.isNan (some "f32")
        { enableFastMathMode := false } ExampleFloat.NaN (ExampleFloat.number 1) =
      some ExampleFloat.NaN ∧
    MinMaxFOpPattern.matchAndRewrite ExampleFloat.FMax ExampleFloat.isNan (some "f32")
        { enableFastMathMode := true } ExampleFloat.NaN (ExampleFloat.number 1) =
      some (ExampleFloat.number 1) :=
  ⟨(MinMaxFOpPattern_propagates_NaN ExampleFloat.FMax ExampleFloat.isNan "f32" ExampleFloat.NaN
      (ExampleFloat.number 1)).2.2.1 rfl rfl,
   (MinMaxFOpPattern_propagates_NaN ExampleFloat.FMax ExampleFloat.isNan "f32" ExampleFloat.NaN
      (ExampleFloat.number 1)).2.2.2.2⟩

/-- C28: for every width `w`, all bit patterns `lhs` and `rhs` of width `w`
with `rhs` not zero and `lhs` not the minimum signed value `-2 ^ (w - 1)`, the
value that `emulateSignedRemainder` emits with `lhs` as the sign operand is
the bit pattern of `arith.remsi`, and the signed number it stands for is the
truncating remainder of the signed operands. -/
theorem emulateSignedRemainder_eq_remsi (w lhs rhs : Nat) (hl : lhs < 2 ^ w) (hr : rhs < 2 ^ w)
    (hr0 : rhs ≠ 0) (hmin : lhs ≠ 2 ^ (w - 1)) :
    emulateSignedRemainder w lhs rhs SignOperand.lhs = arith.remsi w lhs rhs ∧
    RemSIOpPattern.matchAndRewrite w lhs rhs = arith.remsi w lhs rhs ∧
    toSigned w (emulateSignedRemainder w lhs rhs SignOperand.lhs) =
      (toSigned w lhs).tmod (toSigned w rhs) := by
  have hw : 0 < w := by
    rcases Nat.eq_zero_or_pos w with h | h
    · subst h; simp at hr; exact absurd hr hr0
    · exact h
  have main : emulateSignedRemainder w lhs rhs SignOperand.lhs = arith.remsi w lhs rhs := by
    have h2 := two_pow_pred w hw
    have hpos : 0 < 2 ^ (w - 1) := Nat.pos_of_ne_zero (by positivity)
    -- the absolute value of the right operand
    have hb : spirv.SAbs w rhs = (toSigned w rhs).natAbs ∧ 0 < (toSigned w rhs).natAbs ∧
        (toSigned w rhs).natAbs ≤ 2 ^ (w - 1) := by
      unfold spirv.SAbs toSigned
      split_ifs with h
      · simp only [Int.natAbs_ofNat, Int.natAbs_cast]
        exact ⟨trivial, by omega, by omega⟩
      · have e : ((rhs : Int) - 2 ^ w) = -(((2 ^ w - rhs : Nat)) : Int) := by
          push_cast [Nat.cast_sub hr.le]; ring
        rw [e, Int.natAbs_neg, Int.natAbs_ofNat]
        refine ⟨Nat.mod_eq_of_lt (by omega), by omega, by omega⟩
    obtain ⟨hb1, hb2, hb3⟩ := hb
    unfold emulateSignedRemainder arith.remsi
    simp only [if_true, spirv.UMod, spirv.Select, spirv.IEqual, spirv.SNegate, hb1]
    rw [tmod_eq_sign_mul]
    generalize (toSigned w rhs).natAbs = b at hb2 hb3
    unfold spirv.SAbs toSigned
    by_cases h : lhs < 2 ^ (w - 1)
    · simp only [h, if_true, decide_True, Int.natAbs_ofNat]
      have hlt : lhs % b < 2 ^ w := lt_of_le_of_lt (Nat.mod_le _ _) hl
      rcases Nat.eq_zero_or_pos lhs with h0 | h0
      · subst h0; simp [ofSigned]
      · rw [Int.sign_natCast_of_ne_zero (by omega), one_mul, ofSigned_natCast w _ hlt]
    · have e : ((lhs : Int) - 2 ^ w) = -(((2 ^ w - lhs : Nat)) : Int) := by
        push_cast [Nat.cast_sub hl.le]; ring
      have hne : lhs ≠ (2 ^ w - lhs) % 2 ^ w := by
        rw [Nat.mod_eq_of_lt (by omega)]; omega
      have hm : (2 ^ w - lhs) % 2 ^ w = 2 ^ w - lhs := Nat.mod_eq_of_lt (by omega)
      simp only [h, if_false, hne, decide_False, Bool.false_eq_true]
      rw [e, Int.natAbs_neg, Int.natAbs_ofNat, Int.sign_neg,
        Int.sign_natCast_of_ne_zero (by omega), hm]
      have hlt : (2 ^ w - lhs) % b < 2 ^ w := lt_of_le_of_lt (Nat.mod_le _ _) (by omega)
      rw [show (-1 : Int) * (((2 ^ w - lhs) % b : Nat) : Int) = -(((2 ^ w - lhs) % b : Nat) : Int) by ring,
        ofSigned_neg_natCast w _ hlt]
  exact ⟨main, main, by rw [main]; exact toSigned_remsi w lhs rhs hw hl hmin⟩

/-- C28 at concrete inputs of width 8: `-5` by the minimum signed value
`-128`, and `-7` by `3`. -/
theorem emulateSignedRemainder_eq_remsi_witness :
    emulateSignedRemainder 8 251 128 SignOperand.lhs = 251 ∧
    toSigned 8 (emulateSignedRemainder 8 249 3 SignOperand.lhs) = -1 :=
  ⟨(emulateSignedRemainder_eq_remsi 8 251 128 (by decide) (by decide) (by decide)
      (by decide)).1.trans (by decide),
   (emulateSignedRemainder_eq_remsi 8 249 3 (by decide) (by decide) (by decide)
      (by decide)).2.2.trans (by decide)⟩

end mlir

namespace llvm

namespace cas

/-! ## Lemmas on `BuiltinObjectHasher` -/

/-- The number of bytes of the encoding. -/
theorem toLittleEndian_length (n x : Nat) : (toLittleEndian n x).length = n := by
  induction n generalizing x with
  | zero => rfl
  | succ n ih => simp [toLittleEndian, ih]

/-- The bytes of the encoding are below 256. -/
theorem toLittleEndian_lt (n x : Nat) : ∀ b ∈ toLittleEndian n x, b < 256 := by
  induction n generalizing x with
  | zero => simp [toLittleEndian]
  | succ n ih =>
    intro b hb
    simp only [toLittleEndian, List.mem_cons] at hb
    rcases hb with h | h
    · rw [h]; exact Nat.mod_lt _ (by norm_num)
    · exact ih _ b h

/-- The bytes of the number that has the given bytes. -/
theorem toLittleEndian_fromLittleEndian (bs : List Nat) (h : ∀ b ∈ bs, b < 256) :
    toLittleEndian bs.length (fromLittleEndian bs) = bs := by
  induction bs with
  | nil => rfl
  | cons b bs ih =>
    have hb : b < 256 := h b (List.mem_cons_self _ _)
    simp only [List.length_cons, toLittleEndian, fromLittleEndian]
    rw [Nat.add_mul_mod_self_left, Nat.mod_eq_of_lt hb, Nat.add_mul_div_left _ _ (by norm_num),
      Nat.div_eq_of_lt hb, zero_add, ih (fun c hc => h c (List.mem_cons_of_mem _ hc))]

/-- The number that has the lowest `n` bytes of a number. -/
theorem fromLittleEndian_toLittleEndian (n x : Nat) :
    fromLittleEndian (toLittleEndian n x) = x % 256 ^ n := by
  induction n generalizing x with
  | zero => simp [toLittleEndian, fromLittleEndian, Nat.mod_one]
  | succ n ih =>
    simp only [toLittleEndian, fromLittleEndian, ih]
    rw [pow_succ, mul_comm (256 ^ n) 256, Nat.mod_mul]

/-- The lowest `n` bytes do not change with the bytes above them. -/
theorem toLittleEndian_mod (n x : Nat) : toLittleEndian n (x % 256 ^ n) = toLittleEndian n x := by
  have h := toLittleEndian_fromLittleEndian (toLittleEndian n x) (toLittleEndian_lt n x)
  rw [toLittleEndian_length, fromLittleEndian_toLittleEndian] at h
  exact h

/-- Byte `i` of the encoding is `(x >> 8i) mod 256`. -/
theorem toLittleEndian_eq_map (n x : Nat) :
    toLittleEndian n x = (List.range n).map (fun i => (x >>> (8 * i)) % 256) := by
  induction n generalizing x with
  | zero => rfl
  | succ n ih =>
    rw [toLittleEndian, ih, List.range_succ_eq_map, List.map_cons, List.map_map]
    have h0 : x % 256 = (x >>> (8 * 0)) % 256 := by simp
    have hrest : List.map (fun i => (x / 256) >>> (8 * i) % 256) (List.range n) =
        List.map ((fun i => x >>> (8 * i) % 256) ∘ Nat.succ) (List.range n) := by
      apply List.map_congr_left
      intro i _
      simp only [Function.comp, Nat.shiftRight_eq_div_pow]
      rw [Nat.div_div_eq_div_mul]
      congr 2
      rw [show 8 * (i + 1) = 8 + 8 * i by ring, pow_add]
      norm_num
    rw [h0, hrest]

/-- The bytes that `updateSize` hashes are the little-endian encoding of the
size on a host of either byte order. -/
theorem objectBytes_byte_swap (host : support.endianness) (Size : Nat) :
    objectBytes host (support.endian.byte_swap host (Size % 2 ^ 64) support.endianness.little) =
      LE64 Size := by
  have hm : toLittleEndian 8 (Size % 2 ^ 64) = toLittleEndian 8 Size := by
    have := toLittleEndian_mod 8 Size
    norm_num at this ⊢
    exact this
  unfold LE64
  rw [← toLittleEndian_eq_map]
  cases host with
  | little =>
    simp only [support.endian.byte_swap, ne_eq, not_true_eq_false, if_false, objectBytes]
    exact hm
  | big =>
    simp only [support.endian.byte_swap, objectBytes, sys.getSwappedBytes]
    simp only [ne_eq, reduceCtorEq, not_false_eq_true, if_true]
    have h := toLittleEndian_fromLittleEndian (toLittleEndian 8 (Size % 2 ^ 64)).reverse
      (by intro b hb; exact toLittleEndian_lt _ _ b (List.mem_reverse.mp hb))
    rw [List.length_reverse, toLittleEndian_length] at h
    rw [h, List.reverse_reverse]
    exact hm


/-- The references add their hashes, one after the other, to what was hashed
before. -/
theorem BuiltinObjectHasher.foldl_updateRef {HashT : Type} (H : HasherT HashT)
    (hH : H.Streaming) (CAS : ObjectStore) (Refs : List ObjectRef) (S : H.State)
    (P : List Nat) :
    (Refs.foldl (BuiltinObjectHasher.updateRef CAS)
      ({ Hasher := H.update S P } : BuiltinObjectHasher H)).Hasher =
      H.update S (P ++ (Refs.map (fun R => (CAS.getID R).getHash)).flatten) := by
  induction Refs generalizing P with
  | nil => simp
  | cons R Rest ih =>
    simp only [List.foldl_cons, List.map_cons, List.flatten_cons]
    have e : BuiltinObjectHasher.updateRef CAS ({ Hasher := H.update S P } : BuiltinObjectHasher H) R =
        { Hasher := H.update S (P ++ (CAS.getID R).getHash) } := by
      simp only [BuiltinObjectHasher.updateRef, BuiltinObjectHasher.updateID]
      rw [hH]
    rw [e, ih, List.append_assoc]

/-- `LE64` has eight bytes. -/
theorem LE64_length (x : Nat) : (LE64 x).length = 8 := by
  simp [LE64]

/-- `LE64` tells numbers below `2 ^ 64` apart. -/
theorem LE64_injective (x y : Nat) (hx : x < 2 ^ 64) (hy : y < 2 ^ 64) (h : LE64 x = LE64 y) :
    x = y := by
  unfold LE64 at h
  rw [← toLittleEndian_eq_map, ← toLittleEndian_eq_map] at h
  have hx2 := fromLittleEndian_toLittleEndian 8 x
  have hy2 := fromLittleEndian_toLittleEndian 8 y
  rw [h, hy2] at hx2
  have e : (256 : Nat) ^ 8 = 2 ^ 64 := by norm_num
  rw [e, Nat.mod_eq_of_lt hx, Nat.mod_eq_of_lt hy] at hx2
  exact hx2.symm

/-- Byte strings of one length are determined by their concatenation. -/
theorem flatten_injective (L : Nat) (A B : List (List Nat))
    (hA : ∀ a ∈ A, a.length = L) (hB : ∀ b ∈ B, b.length = L)
    (hlen : A.length = B.length) (h : A.flatten = B.flatten) : A = B := by
  induction A generalizing B with
  | nil =>
    cases B with
    | nil => rfl
    | cons b Bs => simp at hlen
  | cons a As ih =>
    cases B with
    | nil => simp at hlen
    | cons b Bs =>
      simp only [List.flatten_cons] at h
      have hab : a.length = b.length := by
        rw [hA a (List.mem_cons_self _ _), hB b (List.mem_cons_self _ _)]
      obtain ⟨h1, h2⟩ := List.append_inj h hab
      rw [h1, ih Bs (fun x hx => hA x (List.mem_cons_of_mem _ hx))
        (fun x hx => hB x (List.mem_cons_of_mem _ hx))
        (by simpa using hlen) h2]

/-! ## Claims on `BuiltinObjectHasher` -/

/-- C26: for a streaming hasher, `hashObject` is the hasher applied to the
byte string `LE64(n) ++ h_1 ++ ... ++ h_n ++ LE64(|d|) ++ d` of the `n`
reference hashes and the data `d`, on a host of either byte order; these are
the bytes that the hasher is given; `LE64(x)` has 8 bytes, and byte `i` is
`(x >> 8i) mod 256`. The sizes of the reference hashes are not part of the
byte string. -/
theorem hashObject_eq_hash {HashT : Type} (H : HasherT HashT) (hH : H.Streaming)
    (host : support.endianness) (CAS : ObjectStore) (Refs : List ObjectRef)
    (Data : List Nat) :
    BuiltinObjectHasher.hashObject H host CAS Refs Data =
      H.hash (LE64 Refs.length ++ (Refs.map (fun R => (CAS.getID R).getHash)).flatten ++
        LE64 Data.length ++ Data) ∧
    BuiltinObjectHasher.hashObject HasherT.record host CAS Refs Data =
      objectEncoding (Refs.map (fun R => (CAS.getID R).getHash)) Data ∧
    (∀ x : Nat, (LE64 x).length = 8 ∧
      ∀ i, i < 8 → (LE64 x)[i]? = some ((x >>> (8 * i)) % 256)) := by
  have key : ∀ {T : Type} (G : HasherT T), G.Streaming →
      BuiltinObjectHasher.hashObject G host CAS Refs Data =
        G.hash (LE64 Refs.length ++ (Refs.map (fun R => (CAS.getID R).getHash)).flatten ++
          LE64 Data.length ++ Data) := by
    intro T G hG
    unfold BuiltinObjectHasher.hashObject BuiltinObjectHasher.finish
      BuiltinObjectHasher.updateArray BuiltinObjectHasher.updateSize BuiltinObjectHasher.new
      HasherT.hash
    simp only [objectBytes_byte_swap]
    rw [BuiltinObjectHasher.foldl_updateRef G hG, hG, hG, List.append_assoc _ (LE64 Data.length)]
  refine ⟨key H hH, ?_, ?_⟩
  · rw [key HasherT.record (by intro S A B; simp [HasherT.record])]
    simp [HasherT.hash, HasherT.record, objectEncoding]
  · intro x
    refine ⟨LE64_length x, ?_⟩
    intro i hi
    simp [LE64, List.getElem?_map, List.getElem?_range hi]

/-- C26 at a concrete input: two references and three bytes of data, on a
big-endian host. -/
theorem hashObject_eq_hash_witness :
    BuiltinObjectHasher.hashObject HasherT.record support.endianness.big exampleStore
        [{ InternalRef := 1 }, { InternalRef := 7 }] [10, 20, 30] =
      [2, 0, 0, 0, 0, 0, 0, 0, 1, 2, 7, 8, 3, 0, 0, 0, 0, 0, 0, 0, 10, 20, 30] :=
  ((hashObject_eq_hash HasherT.record (by intro S A B; simp [HasherT.record])
    support.endianness.big exampleStore [{ InternalRef := 1 }, { InternalRef := 7 }]
    [10, 20, 30]).1).trans (by decide)

/-- C27: when all reference hashes have one length `L` and the numbers of
references are below `2 ^ 64`, two objects whose byte strings given to the
hasher are equal have the same sequence of reference hashes and the same
data. -/
theorem hashObject_bytes_injective (host : support.endianness) (CAS : ObjectStore) (L : Nat)
    (Refs1 Refs2 : List ObjectRef) (Data1 Data2 : List Nat)
    (hL1 : ∀ R ∈ Refs1, (CAS.getID R).getHash.length = L)
    (hL2 : ∀ R ∈ Refs2, (CAS.getID R).getHash.length = L)
    (hn1 : Refs1.length < 2 ^ 64) (hn2 : Refs2.length < 2 ^ 64)
    (h : BuiltinObjectHasher.hashObject HasherT.record host CAS Refs1 Data1 =
      BuiltinObjectHasher.hashObject HasherT.record host CAS Refs2 Data2) :
    Refs1.map (fun R => (CAS.getID R).getHash) = Refs2.map (fun R => (CAS.getID R).getHash) ∧
    Data1 = Data2 := by
  have hS : HasherT.record.Streaming := by intro S A B; simp [HasherT.record]
  have key : ∀ (Refs : List ObjectRef) (Data : List Nat),
      BuiltinObjectHasher.hashObject HasherT.record host CAS Refs Data =
        LE64 Refs.length ++ ((Refs.map (fun R => (CAS.getID R).getHash)).flatten ++
          (LE64 Data.length ++ Data)) := by
    intro Refs Data
    unfold BuiltinObjectHasher.hashObject BuiltinObjectHasher.finish
      BuiltinObjectHasher.updateArray BuiltinObjectHasher.updateSize BuiltinObjectHasher.new
    simp only [objectBytes_byte_swap]
    rw [BuiltinObjectHasher.foldl_updateRef HasherT.record hS, hS, hS]
    simp [HasherT.record]
  rw [key, key] at h
  obtain ⟨h1, h2⟩ := List.append_inj h (by rw [LE64_length, LE64_length])
  have hn : Refs1.length = Refs2.length := LE64_injective _ _ hn1 hn2 h1
  have hflat : ∀ (Refs : List ObjectRef), (∀ R ∈ Refs, (CAS.getID R).getHash.length = L) →
      (Refs.map (fun R => (CAS.getID R).getHash)).flatten.length = Refs.length * L := by
    intro Refs hR
    induction Refs with
    | nil => simp
    | cons R Rest ih =>
      simp only [List.map_cons, List.flatten_cons, List.length_append, List.length_cons]
      rw [ih (fun X hX => hR X (List.mem_cons_of_mem _ hX)), hR R (List.mem_cons_self _ _)]
      ring
  obtain ⟨h3, h4⟩ := List.append_inj h2 (by rw [hflat Refs1 hL1, hflat Refs2 hL2, hn])
  obtain ⟨_, h5⟩ := List.append_inj h4 (by rw [LE64_length, LE64_length])
  refine ⟨?_, h5⟩
  apply flatten_injective L _ _ _ _ (by simp [hn]) h3
  · intro a ha
    obtain ⟨R, hR, hEq⟩ := List.mem_map.mp ha
    rw [← hEq]; exact hL1 R hR
  · intro a ha
    obtain ⟨R, hR, hEq⟩ := List.mem_map.mp ha
    rw [← hEq]; exact hL2 R hR


/-- C27 at a concrete input: objects with different references have
different byte strings. -/
theorem hashObject_bytes_injective_witness :
    BuiltinObjectHasher.hashObject HasherT.record support.endianness.little exampleStore
        [{ InternalRef := 1 }] [5] ≠
      BuiltinObjectHasher.hashObject HasherT.record support.endianness.little exampleStore
        [{ InternalRef := 2 }] [5] :=
  fun h => absurd
    (hashObject_bytes_injective support.endianness.little exampleStore 2
      [{ InternalRef := 1 }] [{ InternalRef := 2 }] [5] [5]
      (by decide) (by decide) (by decide) (by decide) h).1
    (by decide)

end cas
end llvm

namespace clang.dataflow

/-! ## Lemmas on `MatchSwitchTest` -/

/-- The transfer function by cases: the first case sets true, the second
sets false, and a statement that no case matches leaves the value. -/
theorem TestAnalysis.transfer_eq (S : Stmt) (L : BooleanLattice) :
    TestAnalysis.transfer S L =
      if refersToVarX S = true then { Value := true }
      else if callsFoo S = true then { Value := false }
      else L := by
  unfold TestAnalysis.transfer TestAnalysis.TransferSwitch MatchSwitchBuilder.Build
  by_cases h1 : refersToVarX S = true
  · simp [List.find?, h1, TransferSetTrue]
  · by_cases h2 : callsFoo S = true
    · simp [List.find?, h1, h2, TransferSetFalse]
    · simp [List.find?, h1, h2]

/-- The analysis of a sequence with one more statement at its end. -/
theorem RunDataflow_append (Pre : List Stmt) (S : Stmt) :
    RunDataflow (Pre ++ [S]) = TestAnalysis.transfer S (RunDataflow Pre) := by
  simp [RunDataflow, List.foldl_append]

/-! ## Claims on `MatchSwitchTest` -/

/-- C25: the lattice value after a sequence of statements is the one set by
the last statement that matches a case of the switch, true for a reference
to the variable `X` and false for a call of `Foo`, and is the initial value
false when no statement matches a case. -/
theorem RunDataflow_last_match (Stmts : List Stmt) :
    (RunDataflow Stmts).Value =
      (match Stmts.reverse.find? (fun S => refersToVarX S || callsFoo S) with
       | some S => refersToVarX S
       | none => false) ∧
    (∀ (Pre Post : List Stmt) (S : Stmt), Stmts = Pre ++ S :: Post →
      (∀ T ∈ Post, refersToVarX T = false ∧ callsFoo T = false) →
      (refersToVarX S = true → (RunDataflow Stmts).Value = true) ∧
      (callsFoo S = true → (RunDataflow Stmts).Value = false)) ∧
    ((∀ T ∈ Stmts, refersToVarX T = false ∧ callsFoo T = false) →
      (RunDataflow Stmts).Value = false) := by
  have main : ∀ L : List Stmt, (RunDataflow L).Value =
      (match L.reverse.find? (fun S => refersToVarX S || callsFoo S) with
       | some S => refersToVarX S
       | none => false) := by
    intro L
    induction L using List.reverseRecOn with
    | nil => rfl
    | append_singleton Pre S ih =>
      rw [RunDataflow_append, TestAnalysis.transfer_eq, List.reverse_append]
      simp only [List.reverse_cons, List.reverse_nil, List.nil_append, List.singleton_append,
        List.find?_cons]
      cases hx : refersToVarX S <;> cases hy : callsFoo S <;> simp [hx, hy]
      exact ih
  have noMatch : ∀ Post : List Stmt, (∀ T ∈ Post, refersToVarX T = false ∧ callsFoo T = false) →
      Post.reverse.find? (fun S => refersToVarX S || callsFoo S) = none := by
    intro Post h
    rw [List.find?_eq_none]
    intro T hT
    obtain ⟨a, b⟩ := h T (List.mem_reverse.mp hT)
    simp [a, b]
  refine ⟨main Stmts, ?_, ?_⟩
  · intro Pre Post S hEq hPost
    rw [main Stmts, hEq, List.reverse_append, List.reverse_cons, List.append_assoc,
      List.find?_append, noMatch Post hPost]
    simp only [List.singleton_append, List.find?_cons, Option.none_or]
    constructor
    · intro h; simp [h]
    · intro h
      have hx : refersToVarX S = false := by
        cases S with
        | DeclRefExpr D => simp [callsFoo] at h
        | CallExpr C => simp [refersToVarX]
        | Other N => simp [callsFoo] at h
      simp [h, hx]
  · intro h
    rw [main Stmts, noMatch Stmts h]

/-- C25 on the bodies of the five tests `JustX`, `JustFoo`, `XThenFoo`,
`FooThenX` and `Neither`. -/
theorem RunDataflow_last_match_witness :
    (RunDataflow exampleUseX).Value = true ∧
    (RunDataflow (exampleCall "Foo")).Value = false ∧
    (RunDataflow (exampleUseX ++ exampleCall "Foo")).Value = false ∧
    (RunDataflow (exampleCall "Foo" ++ exampleUseX)).Value = true ∧
    (RunDataflow (exampleCall "Bar")).Value = false :=
  ⟨((RunDataflow_last_match exampleUseX).2.1
      [.Other "IntegerLiteral", .Other "DeclStmt"] [.Other "CStyleCastExpr"]
      (.DeclRefExpr (.VarDecl "X")) rfl (by decide)).1 (by decide),
   ((RunDataflow_last_match (exampleCall "Foo")).2.1
      [.DeclRefExpr (.FunctionDecl "Foo"), .Other "ImplicitCastExpr"] []
      (.CallExpr (some (.FunctionDecl "Foo"))) rfl (by decide)).2 (by decide),
   ((RunDataflow_last_match (exampleUseX ++ exampleCall "Foo")).1).trans (by decide),
   ((RunDataflow_last_match (exampleCall "Foo" ++ exampleUseX)).1).trans (by decide),
   (RunDataflow_last_match (exampleCall "Bar")).2.2 (by decide)⟩

end clang.dataflow
